import Mathlib

/-!
# recip_arith : a shallow embedding

Embedding of `clz.h`, `recip_arith.h`, `recip_arith.cpp` and of the coding loops of
`test_recip_arith.cpp`.

Conventions.
* `uint8_t`, `uint32_t`, `uint64_t` values are naturals; every operation that can leave the
  word is followed by an explicit `% 2 ^ w`.
* An operation whose C behaviour is undefined (a shift count outside the word, `clz` of zero,
  a division by zero, a carry walk that leaves the output buffer, a loop that never exits)
  returns `none`.
* The encoder's output pointer is represented by the list of bytes stored so far in
  `[start, ptr)`, the most recently stored byte first: the head of the list is `ptr[-1]`.
* The decoder's input is a memory `buf : Nat → Nat` together with an index `ptr`; a byte read
  is `buf ptr % 256`.
-/

namespace RecipArith

/-! ## Constants of `recip_arith.h` -/

/-- The constant `#define RECIP_ARITH_TABLE_BITS (8)`. -/
@[reducible] def RECIP_ARITH_TABLE_BITS : Nat := 8

/-- The constant `#define RECIP_ARITH_NUMERATOR_BITS (32)`. -/
@[reducible] def RECIP_ARITH_NUMERATOR_BITS : Nat := 32

/-- The constant `#define RECIP_ARITH_RANGE_MIN_BITS (24)`. -/
@[reducible] def RECIP_ARITH_RANGE_MIN_BITS : Nat := 24

/-- The constant `#define RECIP_ARITH_MAX_CDF_BITS`, the minimum of `RECIP_ARITH_RANGE_MIN_BITS`
and `RECIP_ARITH_NUMERATOR_BITS - RECIP_ARITH_TABLE_BITS`. -/
@[reducible] def RECIP_ARITH_MAX_CDF_BITS : Nat :=
  min RECIP_ARITH_RANGE_MIN_BITS (RECIP_ARITH_NUMERATOR_BITS - RECIP_ARITH_TABLE_BITS)

/-! ## `clz.h` -/

/-- Number of leading zero bits of `val` seen as a `w`-bit word (`val < 2 ^ w`).
The C primitive is undefined on zero; callers below test for zero before using it. -/
def clz_bits : Nat → Nat → Nat
  | 0, _ => 0
  | w + 1, val => if 2 ^ w ≤ val then 0 else 1 + clz_bits w val

/-- The primitive `clz32` of `clz.h`. -/
def clz32 (val : Nat) : Nat := clz_bits 32 val

/-- The primitive `clz64` of `clz.h`. -/
def clz64 (val : Nat) : Nat := clz_bits 64 val

/-! ## `recip_arith.cpp` : the reciprocal table -/

/-- The zero-initialised global `recip_arith_table[(1<<RECIP_ARITH_TABLE_BITS)] = { }`. -/
def recip_arith_table_zero : List Nat := List.replicate (1 <<< RECIP_ARITH_TABLE_BITS) 0

/-- The `for` loop of `recip_arith_table_init`, started at index `i`; the first argument
bounds the number of iterations. -/
def recip_arith_table_init_loop : Nat → Nat → List Nat → List Nat
  | 0, _, table => table
  | fuel + 1, i, table =>
      if i < 1 <<< RECIP_ARITH_TABLE_BITS then
        let val := (((1 <<< RECIP_ARITH_NUMERATOR_BITS) + i - 1) / i) % 2 ^ 64
        recip_arith_table_init_loop fuel (i + 1) (table.set i (val % 2 ^ 32))
      else table

/-- The function `recip_arith_table_init`: fills the upper half of the table. -/
def recip_arith_table_init (table : List Nat) : List Nat :=
  recip_arith_table_init_loop (1 <<< RECIP_ARITH_TABLE_BITS)
    ((1 <<< RECIP_ARITH_TABLE_BITS) / 2) table

/-- The global table after `recip_arith_table_init()` has run. -/
def recip_arith_table : List Nat := recip_arith_table_init recip_arith_table_zero

/-! ## `recip_arith.h` : encoder -/

/-- The `struct recip_arith_encoder`; `written` stands for `ptr`: the bytes stored in
`[start, ptr)`, last stored first. -/
structure recip_arith_encoder where
  low : Nat
  range : Nat
  written : List Nat
deriving DecidableEq

/-- The function `recip_arith_encoder_start`. -/
def recip_arith_encoder_start : recip_arith_encoder :=
  { low := 0, range := 2 ^ 32 - 1, written := [] }

/-- The `while` loop of `recip_arith_encoder_renorm`, at most `fuel` iterations; `none` when
the loop has not exited by then. -/
def recip_arith_encoder_renorm_loop : Nat → recip_arith_encoder → Option recip_arith_encoder
  | 0, ac => if ac.range < 1 <<< 24 then none else some ac
  | fuel + 1, ac =>
      if ac.range < 1 <<< 24 then
        recip_arith_encoder_renorm_loop fuel
          { low := (ac.low <<< 8) % 2 ^ 32
            range := (ac.range <<< 8) % 2 ^ 32
            written := (ac.low >>> 24) % 256 :: ac.written }
      else some ac

/-- The function `recip_arith_encoder_renorm`. A nonzero 32-bit `range` reaches `1<<24`
within three iterations and a zero `range` never does, so four iterations decide the loop. -/
def recip_arith_encoder_renorm (ac : recip_arith_encoder) : Option recip_arith_encoder :=
  recip_arith_encoder_renorm_loop 4 ac

/-- The `do { --p; *p += 1; } while ( *p == 0 )` walk of `recip_arith_encoder_carry` over the
stored bytes, last stored first; `none` when the walk passes the first stored byte. -/
def recip_arith_encoder_carry_bytes : List Nat → Option (List Nat)
  | [] => none
  | b :: rest =>
      let b1 := (b + 1) % 256
      if b1 = 0 then (recip_arith_encoder_carry_bytes rest).map (fun r => b1 :: r)
      else some (b1 :: rest)

/-- The function `recip_arith_encoder_carry`. -/
def recip_arith_encoder_carry (ac : recip_arith_encoder) : Option recip_arith_encoder :=
  (recip_arith_encoder_carry_bytes ac.written).map (fun w => { ac with written := w })

/-- The function `recip_arith_encoder_finish`; the returned end pointer is the `written` field. -/
def recip_arith_encoder_finish (ac : recip_arith_encoder) : Option recip_arith_encoder :=
  if ac.range > 1 <<< 25 then
    let code := (ac.low + (1 <<< 24)) % 2 ^ 32
    (if code < ac.low then recip_arith_encoder_carry ac else some ac).map
      (fun ac1 => { ac1 with written := (code >>> 24) % 256 :: ac1.written })
  else
    let code := (ac.low + (1 <<< 16)) % 2 ^ 32
    (if code < ac.low then recip_arith_encoder_carry ac else some ac).map
      (fun ac1 => { ac1 with written := (code >>> 16) % 256 :: (code >>> 24) % 256 :: ac1.written })

/-- The function `recip_arith_encoder_put`. -/
def recip_arith_encoder_put (ac : recip_arith_encoder) (cdf_low cdf_freq cdf_bits : Nat) :
    Option recip_arith_encoder :=
  let range := ac.range
  if range = 0 then none else
  let range_clz : Int := clz32 range
  let shift_top : Int := 32 - range_clz - RECIP_ARITH_TABLE_BITS
  if shift_top < 0 then none else
  let r_top := range >>> shift_top.toNat
  let shift_norm : Int := (32 - range_clz - RECIP_ARITH_TABLE_BITS - cdf_bits) % 2 ^ 32
  if 32 ≤ shift_norm then none else
  let r_norm := (r_top <<< shift_norm.toNat) % 2 ^ 32
  let save_low := ac.low
  let low := (ac.low + (cdf_low * r_norm) % 2 ^ 32) % 2 ^ 32
  let ac1 : recip_arith_encoder := { ac with low := low, range := (cdf_freq * r_norm) % 2 ^ 32 }
  if low < save_low then recip_arith_encoder_carry ac1 else some ac1

/-- The function `recip_arith_encoder_put_rangecoder`. -/
def recip_arith_encoder_put_rangecoder (ac : recip_arith_encoder)
    (cdf_low cdf_freq cdf_bits : Nat) : Option recip_arith_encoder :=
  if 32 ≤ cdf_bits then none else
  let save_low := ac.low
  let r_norm := ac.range >>> cdf_bits
  let low := (ac.low + (cdf_low * r_norm) % 2 ^ 32) % 2 ^ 32
  let ac1 : recip_arith_encoder := { ac with low := low, range := (cdf_freq * r_norm) % 2 ^ 32 }
  if low < save_low then recip_arith_encoder_carry ac1 else some ac1

/-! ## `recip_arith.h` : 32-bit decoder -/

/-- The `struct recip_arith_decoder`; `ptr` is an index into the input memory. -/
structure recip_arith_decoder where
  code : Nat
  range : Nat
  ptr : Nat
deriving DecidableEq

/-- One `ac->code <<= 8; ac->code |= byte;` step on a `w`-bit `code`. -/
def shift_in_byte (w code byte : Nat) : Nat := ((code <<< 8) % 2 ^ w) ||| (byte % 256)

/-- The function `recip_arith_decoder_start`: reads 32 bits, big endian, from `ptr`. -/
def recip_arith_decoder_start (buf : Nat → Nat) (ptr : Nat) : recip_arith_decoder :=
  let code := buf ptr % 256
  let code := shift_in_byte 32 code (buf (ptr + 1))
  let code := shift_in_byte 32 code (buf (ptr + 2))
  let code := shift_in_byte 32 code (buf (ptr + 3))
  { code := code, range := 2 ^ 32 - 1, ptr := ptr + 4 }

/-- The `while` loop of `recip_arith_decoder_renorm`, at most `fuel` iterations. -/
def recip_arith_decoder_renorm_loop (buf : Nat → Nat) :
    Nat → recip_arith_decoder → Option recip_arith_decoder
  | 0, ac => if ac.range < 1 <<< 24 then none else some ac
  | fuel + 1, ac =>
      if ac.range < 1 <<< 24 then
        recip_arith_decoder_renorm_loop buf fuel
          { code := shift_in_byte 32 ac.code (buf ac.ptr)
            range := (ac.range <<< 8) % 2 ^ 32
            ptr := ac.ptr + 1 }
      else some ac

/-- The function `recip_arith_decoder_renorm` (see `recip_arith_encoder_renorm` for the bound). -/
def recip_arith_decoder_renorm (buf : Nat → Nat) (ac : recip_arith_decoder) :
    Option recip_arith_decoder :=
  recip_arith_decoder_renorm_loop buf 4 ac

/-- The function `recip_arith_decoder_peek`, reading the global table `table`; returns the
target and the mutated decoder. -/
def recip_arith_decoder_peek (table : List Nat) (ac : recip_arith_decoder) (cdf_bits : Nat) :
    Option (Nat × recip_arith_decoder) :=
  let range := ac.range
  if range = 0 then none else
  let range_clz : Int := clz32 range
  let shift_top : Int := 32 - range_clz - RECIP_ARITH_TABLE_BITS
  if shift_top < 0 then none else
  let r_top := range >>> shift_top.toNat
  let shift_norm : Int := (32 - range_clz - RECIP_ARITH_TABLE_BITS - cdf_bits) % 2 ^ 32
  if 32 ≤ shift_norm then none else
  let r_norm := (r_top <<< shift_norm.toNat) % 2 ^ 32
  let code_necessary_bits := ac.code >>> shift_norm.toNat
  let target :=
    (((code_necessary_bits * table.getD r_top 0) % 2 ^ 64) >>> RECIP_ARITH_NUMERATOR_BITS) % 2 ^ 32
  some (target, { ac with range := r_norm })

/-- The function `recip_arith_decoder_remove`. -/
def recip_arith_decoder_remove (ac : recip_arith_decoder) (cdf_low cdf_freq : Nat) :
    recip_arith_decoder :=
  let r_norm := ac.range
  { ac with
    code := (ac.code + 2 ^ 32 - (cdf_low * r_norm) % 2 ^ 32) % 2 ^ 32
    range := (cdf_freq * r_norm) % 2 ^ 32 }

/-- The function `recip_arith_decoder_peek_rangecoder`. -/
def recip_arith_decoder_peek_rangecoder (ac : recip_arith_decoder) (cdf_bits : Nat) :
    Option (Nat × recip_arith_decoder) :=
  if 32 ≤ cdf_bits then none else
  let r_norm := ac.range >>> cdf_bits
  if r_norm = 0 then none else
  let target := ac.code / r_norm
  some (target, { ac with range := r_norm })

/-- The function `recip_arith_decoder_remove_rangecoder`. -/
def recip_arith_decoder_remove_rangecoder (ac : recip_arith_decoder) (cdf_low cdf_freq : Nat) :
    recip_arith_decoder :=
  let r_norm := ac.range
  { ac with
    code := (ac.code + 2 ^ 32 - (cdf_low * r_norm) % 2 ^ 32) % 2 ^ 32
    range := (cdf_freq * r_norm) % 2 ^ 32 }

/-! ## `recip_arith.h` : 64-bit decoder -/

/-- The `struct recip_arith64_decoder`. -/
structure recip_arith64_decoder where
  code : Nat
  range : Nat
  ptr : Nat
deriving DecidableEq

/-- The function `recip_arith64_decoder_start`: `range = ~(uint32_t)0; range <<= 32;` and 64 bits of
`code`, big endian. -/
def recip_arith64_decoder_start (buf : Nat → Nat) (ptr : Nat) : recip_arith64_decoder :=
  let range := 2 ^ 32 - 1
  let range := (range <<< 32) % 2 ^ 64
  let code := buf ptr % 256
  let code := shift_in_byte 64 code (buf (ptr + 1))
  let code := shift_in_byte 64 code (buf (ptr + 2))
  let code := shift_in_byte 64 code (buf (ptr + 3))
  let code := shift_in_byte 64 code (buf (ptr + 4))
  let code := shift_in_byte 64 code (buf (ptr + 5))
  let code := shift_in_byte 64 code (buf (ptr + 6))
  let code := shift_in_byte 64 code (buf (ptr + 7))
  { code := code, range := range, ptr := ptr + 8 }

/-- The `while` loop of `recip_arith64_decoder_renorm`, at most `fuel` iterations. -/
def recip_arith64_decoder_renorm_loop (buf : Nat → Nat) :
    Nat → recip_arith64_decoder → Option recip_arith64_decoder
  | 0, ac => if ac.range < 1 <<< 56 then none else some ac
  | fuel + 1, ac =>
      if ac.range < 1 <<< 56 then
        recip_arith64_decoder_renorm_loop buf fuel
          { code := shift_in_byte 64 ac.code (buf ac.ptr)
            range := (ac.range <<< 8) % 2 ^ 64
            ptr := ac.ptr + 1 }
      else some ac

/-- The function `recip_arith64_decoder_renorm`. A nonzero 64-bit `range` reaches `1<<56`
within seven iterations and a zero `range` never does, so eight iterations decide the loop. -/
def recip_arith64_decoder_renorm (buf : Nat → Nat) (ac : recip_arith64_decoder) :
    Option recip_arith64_decoder :=
  recip_arith64_decoder_renorm_loop buf 8 ac

/-- The function `recip_arith64_decoder_peek`. -/
def recip_arith64_decoder_peek (table : List Nat) (ac : recip_arith64_decoder) (cdf_bits : Nat) :
    Option (Nat × recip_arith64_decoder) :=
  let range := ac.range
  if range = 0 then none else
  let range_clz : Int := clz64 range
  let shift_top : Int := 64 - range_clz - RECIP_ARITH_TABLE_BITS
  if shift_top < 0 then none else
  let r_top := range >>> shift_top.toNat
  let shift_norm : Int := (64 - range_clz - RECIP_ARITH_TABLE_BITS - cdf_bits) % 2 ^ 32
  if 64 ≤ shift_norm then none else
  let r_norm := (r_top <<< shift_norm.toNat) % 2 ^ 64
  let code_necessary_bits := ac.code >>> shift_norm.toNat
  let target :=
    (((code_necessary_bits * table.getD r_top 0) % 2 ^ 64) >>> RECIP_ARITH_NUMERATOR_BITS) % 2 ^ 32
  some (target, { ac with range := r_norm })

/-- The function `recip_arith64_decoder_remove`. -/
def recip_arith64_decoder_remove (ac : recip_arith64_decoder) (cdf_low cdf_freq : Nat) :
    recip_arith64_decoder :=
  let r_norm := ac.range
  { ac with
    code := (ac.code + 2 ^ 64 - (cdf_low * r_norm) % 2 ^ 64) % 2 ^ 64
    range := (cdf_freq * r_norm) % 2 ^ 64 }

/-! ## `test_recip_arith.cpp` : the coding loops of `main` -/

/-- The array `cdf[257]` built from `histogram`: `cdf[0] = 0` and
`cdf[i+1] = cdf[i] + histogram[i]`. -/
def cdf (histogram : List Nat) (i : Nat) : Nat := (histogram.take i).sum

/-- The filling loop of `decode_table`: `decode_table[c] = (uint8_t) i` for
`cdf[i] ≤ c < cdf[i+1]`, symbols numbered from `i`. -/
def decode_table_fill : Nat → List Nat → List Nat
  | _, [] => []
  | i, h :: rest => List.replicate h (i % 256) ++ decode_table_fill (i + 1) rest

/-- The table `decode_table` of `cdf_tot + 1` entries, the last one a copy of entry
`cdf_tot - 1` (the histogram sums to `cdf_tot`). -/
def decode_table (histogram : List Nat) (cdf_tot : Nat) : List Nat :=
  let table := decode_table_fill 0 histogram
  table ++ [table.getD (cdf_tot - 1) 0]

/-- The symbol `s` with `cdf[s] ≤ target < cdf[s+1]`, found by a linear scan of the
frequencies (the number of symbols when there is none). -/
def cdf_lookup : List Nat → Nat → Nat
  | [], _ => 0
  | h :: rest, target => if target < h then 0 else 1 + cdf_lookup rest (target - h)

/-- The encoding loop of `main`: for each symbol,
`put(cdf[sym], cdf[sym+1] - cdf[sym], cdf_bits)` then `renorm`. The `put` variant is a
parameter. -/
def encode_symbols (put : recip_arith_encoder → Nat → Nat → Nat → Option recip_arith_encoder)
    (histogram : List Nat) (cdf_bits : Nat) :
    recip_arith_encoder → List Nat → Option recip_arith_encoder
  | ac, [] => some ac
  | ac, sym :: rest =>
      let low := cdf histogram sym
      let freq := cdf histogram (sym + 1) - low
      (put ac low freq cdf_bits).bind fun ac1 =>
      (recip_arith_encoder_renorm ac1).bind fun ac2 =>
      encode_symbols put histogram cdf_bits ac2 rest

/-- An encoder block of `main`: `start`, the encoding loop, `finish`; the result is the
compressed data `[comp_buf, comp_end)`. -/
def encode_with (put : recip_arith_encoder → Nat → Nat → Nat → Option recip_arith_encoder)
    (histogram : List Nat) (cdf_bits : Nat) (syms : List Nat) : Option (List Nat) :=
  (encode_symbols put histogram cdf_bits recip_arith_encoder_start syms).bind fun ac =>
  (recip_arith_encoder_finish ac).map fun fin => fin.written.reverse

/-- The decoding loop of `main` for the 32-bit decoder: `peek`, symbol lookup, `remove`,
`renorm`, `n` times. The `peek`/`remove` variant and the lookup are parameters. Returns the
decoded symbols and the final decoder. -/
def decode_symbols (peek : recip_arith_decoder → Nat → Option (Nat × recip_arith_decoder))
    (remove : recip_arith_decoder → Nat → Nat → recip_arith_decoder)
    (lookup : Nat → Nat) (buf : Nat → Nat) (histogram : List Nat) (cdf_bits : Nat) :
    Nat → recip_arith_decoder → Option (List Nat × recip_arith_decoder)
  | 0, ac => some ([], ac)
  | n + 1, ac =>
      (peek ac cdf_bits).bind fun (target, ac1) =>
      let sym := lookup target
      let low := cdf histogram sym
      let freq := cdf histogram (sym + 1) - low
      (recip_arith_decoder_renorm buf (remove ac1 low freq)).bind fun ac2 =>
      (decode_symbols peek remove lookup buf histogram cdf_bits n ac2).map fun (rest, ac3) =>
      (sym :: rest, ac3)

/-- A 32-bit decoder block of `main`: `start` at the beginning of `buf`, then the loop. -/
def decode_with (peek : recip_arith_decoder → Nat → Option (Nat × recip_arith_decoder))
    (remove : recip_arith_decoder → Nat → Nat → recip_arith_decoder)
    (lookup : Nat → Nat) (buf : Nat → Nat) (histogram : List Nat) (cdf_bits : Nat) (n : Nat) :
    Option (List Nat × recip_arith_decoder) :=
  decode_symbols peek remove lookup buf histogram cdf_bits n (recip_arith_decoder_start buf 0)

/-- One `peek`, lookup, `remove` of the 64-bit decoder, without renormalisation. -/
def decode64_symbol (table : List Nat) (lookup : Nat → Nat) (histogram : List Nat)
    (cdf_bits : Nat) (ac : recip_arith64_decoder) : Option (Nat × recip_arith64_decoder) :=
  (recip_arith64_decoder_peek table ac cdf_bits).map fun (target, ac1) =>
  let sym := lookup target
  (sym, recip_arith64_decoder_remove ac1 (cdf histogram sym)
    (cdf histogram (sym + 1) - cdf histogram sym))

/-- The first loop of the 64-bit block of `main`: three symbols, then one `renorm`. -/
def decode64_triples (table : List Nat) (lookup : Nat → Nat) (buf : Nat → Nat)
    (histogram : List Nat) (cdf_bits : Nat) :
    Nat → recip_arith64_decoder → Option (List Nat × recip_arith64_decoder)
  | 0, ac => some ([], ac)
  | n + 1, ac =>
      (decode64_symbol table lookup histogram cdf_bits ac).bind fun (s0, ac1) =>
      (decode64_symbol table lookup histogram cdf_bits ac1).bind fun (s1, ac2) =>
      (decode64_symbol table lookup histogram cdf_bits ac2).bind fun (s2, ac3) =>
      (recip_arith64_decoder_renorm buf ac3).bind fun ac4 =>
      (decode64_triples table lookup buf histogram cdf_bits n ac4).map fun (rest, ac5) =>
      (s0 :: s1 :: s2 :: rest, ac5)

/-- The second loop of the 64-bit block of `main`: one symbol, then `renorm`. -/
def decode64_singles (table : List Nat) (lookup : Nat → Nat) (buf : Nat → Nat)
    (histogram : List Nat) (cdf_bits : Nat) :
    Nat → recip_arith64_decoder → Option (List Nat × recip_arith64_decoder)
  | 0, ac => some ([], ac)
  | n + 1, ac =>
      (decode64_symbol table lookup histogram cdf_bits ac).bind fun (s0, ac1) =>
      (recip_arith64_decoder_renorm buf ac1).bind fun ac2 =>
      (decode64_singles table lookup buf histogram cdf_bits n ac2).map fun (rest, ac3) =>
      (s0 :: rest, ac3)

/-- The 64-bit decoder block of `main`: `start`, `file_len / 3` triples, `file_len % 3`
single symbols. -/
def decode64_with (table : List Nat) (lookup : Nat → Nat) (buf : Nat → Nat)
    (histogram : List Nat) (cdf_bits : Nat) (file_len : Nat) :
    Option (List Nat × recip_arith64_decoder) :=
  (decode64_triples table lookup buf histogram cdf_bits (file_len / 3)
    (recip_arith64_decoder_start buf 0)).bind fun (front, ac) =>
  (decode64_singles table lookup buf histogram cdf_bits (file_len % 3) ac).map fun (back, ac1) =>
  (front ++ back, ac1)

/-- The input memory holding `bytes` at its beginning and `trailing i` at every later
index `i`. -/
def buffer_of (bytes : List Nat) (trailing : Nat → Nat) : Nat → Nat :=
  fun i => if i < bytes.length then bytes.getD i 0 else trailing i

/-! ## Quantities used to state the properties -/

/-- Big-endian value of the stored bytes (last stored first). -/
def be_value : List Nat → Nat
  | [] => 0
  | b :: rest => be_value rest * 256 + b

/-- The encoder's lower bound read as one big-endian number: the stored bytes followed by
the four bytes of `low`. -/
def abs_low (ac : recip_arith_encoder) : Nat := be_value ac.written * 2 ^ 32 + ac.low

/-- Big-endian value of the `n` bytes of `buf` that start at index `p`. -/
def be_window (buf : Nat → Nat) (p : Nat) : Nat → Nat
  | 0 => 0
  | n + 1 => be_window buf p n * 256 + buf (p + n) % 256

/-- The top `RECIP_ARITH_TABLE_BITS` bits of a nonzero `range`, as `put` and `peek` compute
`r_top` when the shift count is not negative. -/
def top_bits (range : Nat) : Nat := range / 2 ^ (Nat.size range - 8)

/-- The value `r_norm` of `put` and `peek` when both shift counts are not negative. -/
def recip_r_norm (range cdf_bits : Nat) : Nat :=
  top_bits range * 2 ^ (Nat.size range - 8 - cdf_bits)

/-- Number of iterations of a renormalisation loop with floor `2 ^ floor_bits` started at a
nonzero `range`. -/
def renorm_count (floor_bits range : Nat) : Nat := (floor_bits + 8 - Nat.size range) / 8

/-- The common tail of `recip_arith_encoder_put` and `recip_arith_encoder_put_rangecoder`,
once `r_norm` is known. -/
def put_core (ac : recip_arith_encoder) (cdf_low cdf_freq r_norm : Nat) :
    Option recip_arith_encoder :=
  let low := (ac.low + (cdf_low * r_norm) % 2 ^ 32) % 2 ^ 32
  let ac1 : recip_arith_encoder := { ac with low := low, range := (cdf_freq * r_norm) % 2 ^ 32 }
  if low < ac.low then recip_arith_encoder_carry ac1 else some ac1

/-- Invariant of the encoder: 32-bit fields, stored bytes are bytes, and the interval
`[abs_low, abs_low + range)` does not pass the end of the unit interval. -/
def EncInv (ac : recip_arith_encoder) : Prop :=
  ac.low < 2 ^ 32 ∧ ac.range < 2 ^ 32 ∧ (∀ b ∈ ac.written, b < 256) ∧
    abs_low ac + ac.range ≤ 256 ^ ac.written.length * 2 ^ 32

/-- The memory `buf` starts with the bytes `out`. -/
def StartsWith (buf : Nat → Nat) (out : List Nat) : Prop :=
  ∀ i, i < out.length → buf i = out.getD i 0

/-- The 64-bit decoder `dec`, `lag` bytes behind the encoder `ac`, denotes the encoder's
interval: same range up to the scale, lower bound `lower`, and `code` is the window of the
input minus `lower`. -/
def Rel64 (buf : Nat → Nat) (ac : recip_arith_encoder) (dec : recip_arith64_decoder)
    (lag lower : Nat) : Prop :=
  dec.ptr + lag = ac.written.length + 8 ∧ dec.range * 256 ^ lag = ac.range * 2 ^ 32 ∧
    lower * 256 ^ lag = abs_low ac * 2 ^ 32 ∧ dec.code + lower = be_window buf 0 dec.ptr

/-- The encoder states of a run: `start`, then any number of `put` or `put_rangecoder` calls
with a valid CDF interval (`cdf_freq > 0` and `cdf_low + cdf_freq ≤ 1 << cdf_bits`, the
shift being one of a 32-bit word), each followed by `renorm`. -/
inductive Reachable : recip_arith_encoder → Prop
  | start : Reachable recip_arith_encoder_start
  | put (ac ac1 ac2 : recip_arith_encoder) (cdf_low cdf_freq cdf_bits : Nat) :
      Reachable ac → 0 < cdf_freq → cdf_bits < 32 → cdf_low + cdf_freq ≤ 2 ^ cdf_bits →
      recip_arith_encoder_put ac cdf_low cdf_freq cdf_bits = some ac1 →
      recip_arith_encoder_renorm ac1 = some ac2 → Reachable ac2
  | put_rangecoder (ac ac1 ac2 : recip_arith_encoder) (cdf_low cdf_freq cdf_bits : Nat) :
      Reachable ac → 0 < cdf_freq → cdf_bits < 32 → cdf_low + cdf_freq ≤ 2 ^ cdf_bits →
      recip_arith_encoder_put_rangecoder ac cdf_low cdf_freq cdf_bits = some ac1 →
      recip_arith_encoder_renorm ac1 = some ac2 → Reachable ac2

/-- The walk of `recip_arith_encoder_carry` over the stored bytes stops inside them: there is
a stored byte, one of them is not `0xFF`, and the walk returns the same number of bytes. -/
def carry_stays_in_buffer (written : List Nat) : Prop :=
  written ≠ [] ∧ (∃ b ∈ written, b ≠ 255) ∧
    ∃ w, recip_arith_encoder_carry_bytes written = some w ∧ w.length = written.length

/-- The value `r_norm` that `recip_arith_encoder_put` and `recip_arith_decoder_peek` compute
from `range` when neither shift count is negative, written with `clz32` as in the source. -/
def recip_arith_r_norm (range cdf_bits : Nat) : Nat :=
  let range_clz := clz32 range
  let r_top := range >>> (32 - range_clz - RECIP_ARITH_TABLE_BITS)
  (r_top <<< (32 - range_clz - RECIP_ARITH_TABLE_BITS - cdf_bits)) % 2 ^ 32

/-- The value `r_top` that `recip_arith_encoder_put` and `recip_arith_decoder_peek` compute
from a 32-bit `range` when the shift count is not negative, written with `clz32` as in the
source. -/
def recip_arith_r_top (range : Nat) : Nat :=
  range >>> (32 - clz32 range - RECIP_ARITH_TABLE_BITS)

/-- The value `r_top` that `recip_arith64_decoder_peek` computes from a 64-bit `range` when
the shift count is not negative. -/
def recip_arith64_r_top (range : Nat) : Nat :=
  range >>> (64 - clz64 range - RECIP_ARITH_TABLE_BITS)

/-- The first shift count of `recip_arith_encoder_put`, `32 - range_clz - RECIP_ARITH_TABLE_BITS`,
as an integer. -/
def put_shift_top (range : Nat) : Int := 32 - (clz32 range : Int) - RECIP_ARITH_TABLE_BITS

/-- The second shift count of `recip_arith_encoder_put`,
`32 - range_clz - RECIP_ARITH_TABLE_BITS - cdf_bits`, as an integer, before its conversion to
`unsigned`. -/
def put_shift_norm (range cdf_bits : Nat) : Int :=
  32 - (clz32 range : Int) - RECIP_ARITH_TABLE_BITS - cdf_bits

/-- The relation between a 32-bit decoder state and a 64-bit decoder state over the same
memory: the 64-bit cursor is four bytes ahead, the 64-bit `range` is the 32-bit `range` times
`2 ^ 32`, and the 64-bit `code` is the 32-bit `code` followed by the four bytes at the
32-bit cursor. -/
def Sim64 (buf : Nat → Nat) (d32 : recip_arith_decoder) (d64 : recip_arith64_decoder) : Prop :=
  d64.ptr = d32.ptr + 4 ∧ d64.range = d32.range * 2 ^ 32 ∧
    d64.code = d32.code * 2 ^ 32 + be_window buf d32.ptr 4

/-! # Properties -/

/-! ## Properties of `clz` -/

theorem clz_bits_le (w val : Nat) : clz_bits w val ≤ w := by
  induction w with
  | zero => simp [clz_bits]
  | succ w ih =>
    unfold clz_bits
    split <;> omega

theorem clz_bits_eq_size (w val : Nat) (h0 : 0 < val) (hw : val < 2 ^ w) :
    w - clz_bits w val = Nat.size val := by
  induction w with
  | zero => simp at hw; omega
  | succ w ih =>
    unfold clz_bits
    split
    · rename_i h
      have h1 : Nat.size val ≤ w + 1 := Nat.size_le.mpr hw
      have h2 : w < Nat.size val := Nat.lt_size.mpr h
      omega
    · rename_i h
      have := ih (by omega)
      have := clz_bits_le w val
      omega

theorem size_mul_two_pow (x k : Nat) (h : 0 < x) : Nat.size (x * 2 ^ k) = Nat.size x + k := by
  rw [← Nat.shiftLeft_eq]
  exact Nat.size_shiftLeft (by omega) k

/-! ## Properties of the reciprocal table -/

theorem table_init_loop_length (fuel i : Nat) (table : List Nat) :
    (recip_arith_table_init_loop fuel i table).length = table.length := by
  induction fuel generalizing i table with
  | zero => simp [recip_arith_table_init_loop]
  | succ fuel ih =>
    unfold recip_arith_table_init_loop
    split
    · simp [ih]
    · rfl

theorem table_init_loop_getD (fuel i k : Nat) (table : List Nat)
    (hlen : table.length = 256) :
    (recip_arith_table_init_loop fuel i table).getD k 0 =
      if i ≤ k ∧ k < i + fuel ∧ k < 256 then ((2 ^ 32 + k - 1) / k) % 2 ^ 64 % 2 ^ 32
      else table.getD k 0 := by
  induction fuel generalizing i table with
  | zero =>
    simp only [recip_arith_table_init_loop]
    split
    · omega
    · rfl
  | succ fuel ih =>
    unfold recip_arith_table_init_loop
    by_cases hi : i < 1 <<< RECIP_ARITH_TABLE_BITS
    · rw [if_pos hi]
      have hi' : i < 256 := hi
      simp only []
      rw [ih (i + 1) _ (by simp [hlen])]
      by_cases hk : i = k
      · subst hk
        have h1 : ¬ (i + 1 ≤ i ∧ i < i + 1 + fuel ∧ i < 256) := by omega
        have h2 : (i ≤ i ∧ i < i + (fuel + 1) ∧ i < 256) := by omega
        rw [if_neg h1, if_pos h2]
        have e32 : (1 <<< RECIP_ARITH_NUMERATOR_BITS) = 2 ^ 32 := by decide
        rw [e32]
        simp [List.getD_eq_getElem?_getD, List.getElem?_set, hlen, hi']
      · have h3 : (table.set i (((1 <<< RECIP_ARITH_NUMERATOR_BITS + i - 1) / i) % 2 ^ 64 % 2 ^ 32)).getD k 0
            = table.getD k 0 := by
          simp [List.getD_eq_getElem?_getD, List.getElem?_set, hk]
        rw [h3]
        by_cases hc : (i + 1 ≤ k ∧ k < i + 1 + fuel ∧ k < 256)
        · rw [if_pos hc, if_pos (by omega)]
        · rw [if_neg hc, if_neg (by omega)]
    · rw [if_neg hi]
      have hi' : ¬ i < 256 := hi
      rw [if_neg (by omega)]

theorem recip_arith_table_getD (i : Nat) (h1 : 128 ≤ i) (h2 : i < 256) :
    recip_arith_table.getD i 0 = (2 ^ 32 + i - 1) / i := by
  unfold recip_arith_table recip_arith_table_init
  have hz : recip_arith_table_zero.length = 256 := by
    unfold recip_arith_table_zero
    rw [List.length_replicate]
    decide
  have e1 : (1 <<< RECIP_ARITH_TABLE_BITS) = 256 := by decide
  rw [e1]
  rw [table_init_loop_getD 256 (256 / 2) i _ hz, if_pos (by omega)]
  have hb : (2 ^ 32 + i - 1) / i < 2 ^ 32 := by
    apply Nat.div_lt_of_lt_mul
    omega
  rw [Nat.mod_eq_of_lt (a := (2 ^ 32 + i - 1) / i) (by omega), Nat.mod_eq_of_lt hb]

/-- Reciprocal multiplication is exact for numerators below `2 ^ 24`. -/
theorem recip_mul_exact (n i : Nat) (h1 : 128 ≤ i) (h2 : i < 256) (hn : n < 2 ^ 24) :
    (n * ((2 ^ 32 + i - 1) / i)) / 2 ^ 32 = n / i := by
  have hi : 0 < i := by omega
  set m := (2 ^ 32 + i - 1) / i with hm
  have hm1 : 2 ^ 32 ≤ m * i := by
    have := Nat.lt_div_mul_add (a := 2 ^ 32 + i - 1) hi
    rw [← hm] at this
    omega
  have hm2 : m * i < 2 ^ 32 + i := by
    have := Nat.div_mul_le_self (2 ^ 32 + i - 1) i
    rw [← hm] at this
    omega
  have hq := Nat.div_add_mod n i
  have hr := Nat.mod_lt n hi
  set q := n / i
  set r := n % i
  apply Nat.div_eq_of_lt_le
  · -- q * 2^32 ≤ n * m
    have : q * 2 ^ 32 ≤ q * (m * i) := Nat.mul_le_mul_left q hm1
    have h3 : n * m = (i * q + r) * m := by rw [hq]
    nlinarith
  · -- n * m < (q+1) * 2^32
    by_contra hcon
    push_neg at hcon
    have h3 : n * m = (i * q + r) * m := by rw [hq]
    -- (q+1) * 2^32 * i ≤ n * m * i < n * (2^32 + i)
    have h4 : (q + 1) * 2 ^ 32 * i ≤ n * m * i := Nat.mul_le_mul_right i hcon
    have h5 : n * m * i ≤ n * (2 ^ 32 + i - 1) := by
      have : n * m * i = n * (m * i) := by ring
      rw [this]
      exact Nat.mul_le_mul_left n (by omega)
    have h6 : n * (2 ^ 32 + i - 1) = n * 2 ^ 32 + n * (i - 1) := by
      have : 2 ^ 32 + i - 1 = 2 ^ 32 + (i - 1) := by omega
      rw [this]; ring
    have h7 : n * (i - 1) < 2 ^ 32 := by
      have : n * (i - 1) ≤ n * 255 := Nat.mul_le_mul_left n (by omega)
      omega
    have h8 : (q + 1) * 2 ^ 32 * i = (i * q + i) * 2 ^ 32 := by ring
    have h9 : n * 2 ^ 32 = (i * q + r) * 2 ^ 32 := by rw [hq]
    have h10 : (i * q + i) * 2 ^ 32 = (i * q + r) * 2 ^ 32 + (i - r) * 2 ^ 32 := by
      have : i * q + i = (i * q + r) + (i - r) := by omega
      rw [this]; ring
    have h11 : 2 ^ 32 ≤ (i - r) * 2 ^ 32 := by
      have : 1 ≤ i - r := by omega
      nlinarith
    omega

/-! ## Encoder: carry, put -/


theorem carry_bytes_spec (w : List Nat) (hb : ∀ b ∈ w, b < 256)
    (hv : be_value w + 1 < 256 ^ w.length) :
    ∃ w', recip_arith_encoder_carry_bytes w = some w' ∧ be_value w' = be_value w + 1 ∧
      w'.length = w.length ∧ ∀ b ∈ w', b < 256 := by
  induction w with
  | nil => simp [be_value] at hv
  | cons b rest ih =>
    have hb0 : b < 256 := hb b (by simp)
    have hrest : ∀ x ∈ rest, x < 256 := fun x hx => hb x (by simp [hx])
    simp only [be_value, List.length_cons, pow_succ] at hv
    unfold recip_arith_encoder_carry_bytes
    by_cases h : (b + 1) % 256 = 0
    · have hb255 : b = 255 := by omega
      have hv' : be_value rest + 1 < 256 ^ rest.length := by omega
      obtain ⟨w', hw1, hw2, hw3, hw4⟩ := ih hrest hv'
      refine ⟨(b + 1) % 256 :: w', ?_, ?_, ?_, ?_⟩
      · simp [h, hw1]
      · simp only [be_value, hw2]; omega
      · simp [hw3]
      · intro x hx
        simp only [List.mem_cons] at hx
        rcases hx with hx | hx
        · omega
        · exact hw4 x hx
    · refine ⟨(b + 1) % 256 :: rest, ?_, ?_, ?_, ?_⟩
      · simp [h]
      · simp only [be_value]; omega
      · simp
      · intro x hx
        simp only [List.mem_cons] at hx
        rcases hx with hx | hx
        · omega
        · exact hrest x hx

theorem be_value_lt (w : List Nat) (hb : ∀ b ∈ w, b < 256) : be_value w < 256 ^ w.length := by
  induction w with
  | nil => simp [be_value]
  | cons b rest ih =>
    have hb0 : b < 256 := hb b (by simp)
    have := ih (fun x hx => hb x (by simp [hx]))
    simp only [be_value, List.length_cons, pow_succ]
    omega

theorem put_core_spec (ac : recip_arith_encoder) (lo fr r : Nat) (hinv : EncInv ac)
    (hle : (lo + fr) * r ≤ ac.range) (hpos : 0 < fr * r) :
    ∃ ac', put_core ac lo fr r = some ac' ∧ EncInv ac' ∧ ac'.range = fr * r ∧
      abs_low ac' = abs_low ac + lo * r ∧ ac'.written.length = ac.written.length := by
  obtain ⟨h1, h2, h3, h4⟩ := hinv
  have e : (lo + fr) * r = lo * r + fr * r := by ring
  rw [e] at hle
  have hlo : lo * r < 2 ^ 32 := by omega
  have hfr : fr * r < 2 ^ 32 := by omega
  unfold put_core
  simp only [Nat.mod_eq_of_lt hlo, Nat.mod_eq_of_lt hfr]
  unfold abs_low at h4 ⊢
  by_cases hw : ac.low + lo * r < 2 ^ 32
  · rw [Nat.mod_eq_of_lt hw, if_neg (by omega)]
    refine ⟨_, rfl, ⟨hw, hfr, h3, ?_⟩, rfl, ?_, rfl⟩
    · simp only [abs_low]; omega
    · simp only []; omega
  · have hmod : (ac.low + lo * r) % 2 ^ 32 = ac.low + lo * r - 2 ^ 32 := by omega
    rw [hmod, if_pos (by omega)]
    have hv : be_value ac.written + 1 < 256 ^ ac.written.length := by
      by_contra hcon
      push_neg at hcon
      have : 256 ^ ac.written.length * 2 ^ 32 ≤ (be_value ac.written + 1) * 2 ^ 32 :=
        Nat.mul_le_mul_right _ hcon
      omega
    obtain ⟨w', hw1, hw2, hw3, hw4⟩ := carry_bytes_spec ac.written h3 hv
    refine ⟨{ low := ac.low + lo * r - 2 ^ 32, range := fr * r, written := w' }, ?_,
      ⟨by simp only []; omega, hfr, hw4, ?_⟩, rfl, ?_, hw3⟩
    · simp [recip_arith_encoder_carry, hw1]
    · simp only [abs_low, hw2, hw3]; omega
    · simp only [hw2]; omega


/-! ## Encoder: renorm -/


theorem renorm_count_zero (fb range : Nat) (h : 2 ^ fb ≤ range) : renorm_count fb range = 0 := by
  have : fb < Nat.size range := Nat.lt_size.mpr h
  unfold renorm_count
  omega

theorem renorm_count_step (fb range : Nat) (h0 : 0 < range) (h : range < 2 ^ fb) :
    renorm_count fb range = renorm_count fb (range * 256) + 1 := by
  have h1 : Nat.size range ≤ fb := Nat.size_le.mpr h
  have h2 : Nat.size (range * 256) = Nat.size range + 8 := size_mul_two_pow range 8 h0
  unfold renorm_count
  rw [h2]
  omega

theorem renorm_count_le (fb range : Nat) (h0 : 0 < range) : renorm_count fb range * 8 < fb + 8 := by
  have : 0 < Nat.size range := Nat.size_pos.mpr h0
  unfold renorm_count
  omega

theorem encoder_renorm_loop_spec (fuel : Nat) (ac : recip_arith_encoder) (hinv : EncInv ac)
    (h0 : 0 < ac.range) (hfuel : renorm_count 24 ac.range ≤ fuel) :
    ∃ ac', recip_arith_encoder_renorm_loop fuel ac = some ac' ∧ EncInv ac' ∧
      ac'.range = ac.range * 256 ^ renorm_count 24 ac.range ∧
      abs_low ac' = abs_low ac * 256 ^ renorm_count 24 ac.range ∧
      ac'.written.length = ac.written.length + renorm_count 24 ac.range ∧
      2 ^ 24 ≤ ac'.range := by
  induction fuel generalizing ac with
  | zero =>
    have hc : renorm_count 24 ac.range = 0 := by omega
    have hge : ¬ ac.range < 2 ^ 24 := by
      intro hlt
      have := renorm_count_step 24 ac.range h0 hlt
      omega
    refine ⟨ac, ?_, hinv, ?_, ?_, ?_, by omega⟩
    · simp only [recip_arith_encoder_renorm_loop]
      rw [if_neg]
      simpa using hge
    · simp [hc]
    · simp [hc]
    · simp [hc]
  | succ fuel ih =>
    by_cases hlt : ac.range < 2 ^ 24
    · obtain ⟨h1, h2, h3, h4⟩ := hinv
      have hstep := renorm_count_step 24 ac.range h0 hlt
      have hsl : ∀ x : Nat, x <<< 8 = x * 256 := fun x => by rw [Nat.shiftLeft_eq]
      have hsr : ac.low >>> 24 = ac.low / 2 ^ 24 := Nat.shiftRight_eq_div_pow _ _
      have hr : (ac.range <<< 8) % 2 ^ 32 = ac.range * 256 := by
        rw [hsl]; omega
      have hinv' : EncInv ⟨(ac.low <<< 8) % 2 ^ 32, (ac.range <<< 8) % 2 ^ 32,
          (ac.low >>> 24) % 256 :: ac.written⟩ := by
        refine ⟨Nat.mod_lt _ (by norm_num), Nat.mod_lt _ (by norm_num), ?_, ?_⟩
        · intro b hb
          simp only [List.mem_cons] at hb
          rcases hb with hb | hb
          · omega
          · exact h3 b hb
        · simp only [abs_low, be_value, List.length_cons, pow_succ, hr, hsl, hsr] at h4 ⊢
          omega
      obtain ⟨ac', e1, e2, e3, e4, e5, e6⟩ := ih _ hinv' (by simp only [hr]; omega)
        (by simp only [hr]; omega)
      have habs : abs_low ⟨(ac.low <<< 8) % 2 ^ 32, (ac.range <<< 8) % 2 ^ 32,
          (ac.low >>> 24) % 256 :: ac.written⟩ = abs_low ac * 256 := by
        simp only [abs_low, be_value, hsl, hsr]
        omega
      simp only [hr, List.length_cons] at e3 e5
      rw [habs] at e4
      simp only [hr] at e4
      refine ⟨ac', ?_, e2, ?_, ?_, ?_, e6⟩
      · simp only [recip_arith_encoder_renorm_loop]
        rw [if_pos (by simpa using hlt)]
        exact e1
      · rw [e3, hstep]; ring
      · rw [e4, hstep]; ring
      · rw [e5, hstep]; omega
    · have hc : renorm_count 24 ac.range = 0 := renorm_count_zero 24 _ (by omega)
      refine ⟨ac, ?_, hinv, ?_, ?_, ?_, by omega⟩
      · simp only [recip_arith_encoder_renorm_loop]
        rw [if_neg]
        simpa using hlt
      · simp [hc]
      · simp [hc]
      · simp [hc]

theorem encoder_renorm_spec (ac : recip_arith_encoder) (hinv : EncInv ac) (h0 : 0 < ac.range) :
    ∃ ac', recip_arith_encoder_renorm ac = some ac' ∧ EncInv ac' ∧
      ac'.range = ac.range * 256 ^ renorm_count 24 ac.range ∧
      abs_low ac' = abs_low ac * 256 ^ renorm_count 24 ac.range ∧
      ac'.written.length = ac.written.length + renorm_count 24 ac.range ∧
      2 ^ 24 ≤ ac'.range := by
  have := renorm_count_le 24 ac.range h0
  exact encoder_renorm_loop_spec 4 ac hinv h0 (by omega)


/-! ## Encoder: finish; windows of the input memory -/


theorem encoder_finish_spec (ac : recip_arith_encoder) (hinv : EncInv ac)
    (h24 : 2 ^ 24 ≤ ac.range) :
    ∃ fin, recip_arith_encoder_finish ac = some fin ∧ (∀ b ∈ fin.written, b < 256) ∧
      ((2 ^ 25 < ac.range ∧ fin.written.length = ac.written.length + 1 ∧
          be_value fin.written = (abs_low ac + 2 ^ 24) / 2 ^ 24) ∨
       (ac.range ≤ 2 ^ 25 ∧ fin.written.length = ac.written.length + 2 ∧
          be_value fin.written = (abs_low ac + 2 ^ 16) / 2 ^ 16)) := by
  obtain ⟨h1, h2, h3, h4⟩ := hinv
  have hcarry : 2 ^ 32 < ac.low + ac.range →
      be_value ac.written + 1 < 256 ^ ac.written.length := by
    intro hw
    by_contra hcon
    push_neg at hcon
    have : 256 ^ ac.written.length * 2 ^ 32 ≤ (be_value ac.written + 1) * 2 ^ 32 :=
      Nat.mul_le_mul_right _ hcon
    unfold abs_low at h4
    omega
  unfold recip_arith_encoder_finish
  have e24 : (1 <<< 24 : Nat) = 2 ^ 24 := by decide
  have e25 : (1 <<< 25 : Nat) = 2 ^ 25 := by decide
  have e16 : (1 <<< 16 : Nat) = 2 ^ 16 := by decide
  simp only [e24, e25, e16, Nat.shiftRight_eq_div_pow]
  by_cases hr : ac.range > 2 ^ 25
  · rw [if_pos hr]
    by_cases hw : ac.low + 2 ^ 24 < 2 ^ 32
    · rw [Nat.mod_eq_of_lt hw, if_neg (by omega)]
      refine ⟨_, rfl, ?_, Or.inl ⟨hr, by simp, ?_⟩⟩
      · intro b hb
        simp only [List.mem_cons] at hb
        rcases hb with hb | hb
        · omega
        · exact h3 b hb
      · simp only [be_value, abs_low]; omega
    · have hmod : (ac.low + 2 ^ 24) % 2 ^ 32 = ac.low + 2 ^ 24 - 2 ^ 32 := by omega
      rw [hmod, if_pos (by omega)]
      obtain ⟨w', hw1, hw2, hw3, hw4⟩ := carry_bytes_spec ac.written h3 (hcarry (by omega))
      refine ⟨⟨ac.low, ac.range, (ac.low + 2 ^ 24 - 2 ^ 32) / 2 ^ 24 % 256 :: w'⟩, ?_, ?_,
        Or.inl ⟨hr, by simp [hw3], ?_⟩⟩
      · simp [recip_arith_encoder_carry, hw1]
      · intro b hb
        simp only [List.mem_cons] at hb
        rcases hb with hb | hb
        · omega
        · exact hw4 b hb
      · simp only [be_value, abs_low, hw2]; omega
  · rw [if_neg hr]
    by_cases hw : ac.low + 2 ^ 16 < 2 ^ 32
    · rw [Nat.mod_eq_of_lt hw, if_neg (by omega)]
      refine ⟨_, rfl, ?_, Or.inr ⟨by omega, by simp, ?_⟩⟩
      · intro b hb
        simp only [List.mem_cons] at hb
        rcases hb with hb | hb | hb
        · omega
        · omega
        · exact h3 b hb
      · simp only [be_value, abs_low]; omega
    · have hmod : (ac.low + 2 ^ 16) % 2 ^ 32 = ac.low + 2 ^ 16 - 2 ^ 32 := by omega
      rw [hmod, if_pos (by omega)]
      obtain ⟨w', hw1, hw2, hw3, hw4⟩ := carry_bytes_spec ac.written h3 (hcarry (by omega))
      refine ⟨⟨ac.low, ac.range, (ac.low + 2 ^ 16 - 2 ^ 32) / 2 ^ 16 % 256 ::
        (ac.low + 2 ^ 16 - 2 ^ 32) / 2 ^ 24 % 256 :: w'⟩, ?_, ?_,
        Or.inr ⟨by omega, by simp [hw3], ?_⟩⟩
      · simp [recip_arith_encoder_carry, hw1]
      · intro b hb
        simp only [List.mem_cons] at hb
        rcases hb with hb | hb | hb
        · omega
        · omega
        · exact hw4 b hb
      · simp only [be_value, abs_low, hw2]; omega

theorem be_window_lt (buf : Nat → Nat) (p n : Nat) : be_window buf p n < 256 ^ n := by
  induction n with
  | zero => simp [be_window]
  | succ n ih =>
    simp only [be_window, pow_succ]
    have := Nat.mod_lt (buf (p + n)) (by norm_num : 0 < 256)
    omega

theorem be_window_add (buf : Nat → Nat) (p n m : Nat) :
    be_window buf p (n + m) = be_window buf p n * 256 ^ m + be_window buf (p + n) m := by
  induction m with
  | zero => simp [be_window]
  | succ m ih =>
    rw [← Nat.add_assoc]
    simp only [be_window, ih, pow_succ, Nat.add_assoc]
    ring

theorem be_window_of_starts (buf : Nat → Nat) (w : List Nat) (hb : ∀ b ∈ w, b < 256)
    (h : StartsWith buf w.reverse) : be_window buf 0 w.length = be_value w := by
  induction w with
  | nil => simp [be_window, be_value]
  | cons b rest ih =>
    have hb0 : b < 256 := hb b (by simp)
    have hrest : ∀ x ∈ rest, x < 256 := fun x hx => hb x (by simp [hx])
    have h' : StartsWith buf rest.reverse := by
      intro i hi
      have hi' : i < rest.length := by simpa using hi
      have := h i (by simp; omega)
      rw [this]
      simp [List.getD_eq_getElem?_getD, List.getElem?_append_left, hi']
    have hlast : buf rest.length = b := by
      have := h rest.length (by simp)
      rw [this]
      simp [List.getD_eq_getElem?_getD]
    simp only [List.length_cons, be_window, be_value, ih hrest h', Nat.zero_add, hlast]
    omega


/-! ## The encoding loop and the interval it denotes -/


theorem shift_in_byte_eq (w code byte : Nat) (h : code * 256 < 2 ^ w) :
    shift_in_byte w code byte = code * 256 + byte % 256 := by
  unfold shift_in_byte
  rw [Nat.shiftLeft_eq, Nat.mod_eq_of_lt (by simpa using h)]
  have hb : byte % 256 < 2 ^ 8 := Nat.mod_lt _ (by norm_num)
  have := Nat.mul_add_lt_is_or hb code
  rw [show code * 2 ^ 8 = 2 ^ 8 * code by ring, ← this]
  norm_num
  ring

/-- If `a * P ≤ w * P + t < b * P` with `t < P` then `a ≤ w < b`. -/
theorem scaled_between (a b w t P : Nat) (ht : t < P) (h1 : a * P ≤ w * P + t)
    (h2 : w * P + t < b * P) : a ≤ w ∧ w < b := by
  constructor
  · by_contra hcon
    push_neg at hcon
    have : (w + 1) * P ≤ a * P := Nat.mul_le_mul_right P hcon
    have e : (w + 1) * P = w * P + P := by ring
    omega
  · by_contra hcon
    push_neg at hcon
    have : b * P ≤ w * P := Nat.mul_le_mul_right P hcon
    omega

theorem encoder_step_spec (put : recip_arith_encoder → Nat → Nat → Nat → Option recip_arith_encoder)
    (rn : Nat → Nat) (c : Nat)
    (hput : ∀ ac lo fr, 2 ^ 24 ≤ ac.range → ac.range < 2 ^ 32 →
      put ac lo fr c = put_core ac lo fr (rn ac.range))
    (hrn : ∀ range, 2 ^ 24 ≤ range → range < 2 ^ 32 → 0 < rn range ∧ rn range * 2 ^ c ≤ range)
    (ac : recip_arith_encoder) (lo fr : Nat) (hinv : EncInv ac) (h24 : 2 ^ 24 ≤ ac.range)
    (hfr : 0 < fr) (hle : lo + fr ≤ 2 ^ c) :
    ∃ ac1 ac2, put ac lo fr c = some ac1 ∧ recip_arith_encoder_renorm ac1 = some ac2 ∧
      EncInv ac2 ∧ 2 ^ 24 ≤ ac2.range ∧
      ac2.range = fr * rn ac.range * 256 ^ renorm_count 24 (fr * rn ac.range) ∧
      abs_low ac2 = (abs_low ac + lo * rn ac.range) * 256 ^ renorm_count 24 (fr * rn ac.range) ∧
      ac2.written.length = ac.written.length + renorm_count 24 (fr * rn ac.range) ∧
      (lo + fr) * rn ac.range ≤ ac.range ∧ 0 < fr * rn ac.range := by
  obtain ⟨hr0, hr1⟩ := hrn ac.range h24 hinv.2.1
  have hle2 : (lo + fr) * rn ac.range ≤ ac.range :=
    le_trans (by rw [Nat.mul_comm]; exact Nat.mul_le_mul_left _ hle) hr1
  have hpos : 0 < fr * rn ac.range := Nat.mul_pos hfr hr0
  obtain ⟨ac1, p1, p2, p3, p4, p5⟩ := put_core_spec ac lo fr (rn ac.range) hinv hle2 hpos
  obtain ⟨ac2, q1, q2, q3, q4, q5, q6⟩ := encoder_renorm_spec ac1 p2 (by omega)
  refine ⟨ac1, ac2, ?_, q1, q2, q6, ?_, ?_, ?_, hle2, hpos⟩
  · rw [hput ac lo fr h24 hinv.2.1]; exact p1
  · rw [q3, p3]
  · rw [q4, p4, p3]
  · rw [q5, p5, p3]

/-- The encoding loop returns, with the invariant, on symbols of positive frequency whose
interval ends at or below `2 ^ cdf_bits`. -/
theorem encode_symbols_spec
    (put : recip_arith_encoder → Nat → Nat → Nat → Option recip_arith_encoder)
    (rn : Nat → Nat) (c : Nat) (hist : List Nat)
    (hput : ∀ ac lo fr, 2 ^ 24 ≤ ac.range → ac.range < 2 ^ 32 →
      put ac lo fr c = put_core ac lo fr (rn ac.range))
    (hrn : ∀ range, 2 ^ 24 ≤ range → range < 2 ^ 32 → 0 < rn range ∧ rn range * 2 ^ c ≤ range)
    (syms : List Nat)
    (hv : ∀ s ∈ syms, 0 < cdf hist (s + 1) - cdf hist s ∧ cdf hist (s + 1) ≤ 2 ^ c)
    (ac : recip_arith_encoder) (hinv : EncInv ac) (h24 : 2 ^ 24 ≤ ac.range) :
    ∃ acN, encode_symbols put hist c ac syms = some acN ∧ EncInv acN ∧ 2 ^ 24 ≤ acN.range := by
  induction syms generalizing ac with
  | nil => exact ⟨ac, rfl, hinv, h24⟩
  | cons s rest ih =>
    obtain ⟨hs1, hs2⟩ := hv s (by simp)
    obtain ⟨ac1, ac2, e1, e2, e3, e4, -⟩ := encoder_step_spec put rn c hput hrn ac
      (cdf hist s) (cdf hist (s + 1) - cdf hist s) hinv h24 hs1 (by omega)
    obtain ⟨acN, f1, f2, f3⟩ := ih (fun x hx => hv x (by simp [hx])) ac2 e3 e4
    refine ⟨acN, ?_, f2, f3⟩
    simp only [encode_symbols, e1, e2, Option.bind_some, Option.some_bind]
    exact f1

/-- Whatever follows, the first `written.length + 4` bytes of a memory that starts with the
finished output denote a number inside the encoder's current interval. -/
theorem encode_interval
    (put : recip_arith_encoder → Nat → Nat → Nat → Option recip_arith_encoder)
    (rn : Nat → Nat) (c : Nat) (hist : List Nat)
    (hput : ∀ ac lo fr, 2 ^ 24 ≤ ac.range → ac.range < 2 ^ 32 →
      put ac lo fr c = put_core ac lo fr (rn ac.range))
    (hrn : ∀ range, 2 ^ 24 ≤ range → range < 2 ^ 32 → 0 < rn range ∧ rn range * 2 ^ c ≤ range)
    (syms : List Nat)
    (hv : ∀ s ∈ syms, 0 < cdf hist (s + 1) - cdf hist s ∧ cdf hist (s + 1) ≤ 2 ^ c)
    (ac acN fin : recip_arith_encoder) (hinv : EncInv ac) (h24 : 2 ^ 24 ≤ ac.range)
    (henc : encode_symbols put hist c ac syms = some acN)
    (hfin : recip_arith_encoder_finish acN = some fin)
    (buf : Nat → Nat) (hbuf : StartsWith buf fin.written.reverse) :
    abs_low ac ≤ be_window buf 0 (ac.written.length + 4) ∧
      be_window buf 0 (ac.written.length + 4) < abs_low ac + ac.range := by
  induction syms generalizing ac with
  | nil =>
    simp only [encode_symbols, Option.some.injEq] at henc
    subst henc
    obtain ⟨fin', g1, g2, g3⟩ := encoder_finish_spec ac hinv h24
    rw [hfin] at g1
    simp only [Option.some.injEq] at g1
    subst g1
    have hW := be_window_of_starts buf fin.written g2 hbuf
    rcases g3 with ⟨k1, k2, k3⟩ | ⟨k1, k2, k3⟩
    · have hadd := be_window_add buf 0 (ac.written.length + 1) 3
      have hlt := be_window_lt buf (0 + (ac.written.length + 1)) 3
      rw [k2] at hW
      rw [show ac.written.length + 1 + 3 = ac.written.length + 4 by omega, hW, k3] at hadd
      rw [hadd]
      norm_num at hlt ⊢
      omega
    · have hadd := be_window_add buf 0 (ac.written.length + 2) 2
      have hlt := be_window_lt buf (0 + (ac.written.length + 2)) 2
      rw [k2] at hW
      rw [show ac.written.length + 2 + 2 = ac.written.length + 4 by omega, hW, k3] at hadd
      rw [hadd]
      norm_num at hlt ⊢
      omega
  | cons s rest ih =>
    obtain ⟨hs1, hs2⟩ := hv s (by simp)
    obtain ⟨ac1, ac2, e1, e2, e3, e4, e5, e6, e7, e8, e9⟩ := encoder_step_spec put rn c hput hrn ac
      (cdf hist s) (cdf hist (s + 1) - cdf hist s) hinv h24 hs1 (by omega)
    simp only [encode_symbols, e1, e2, Option.bind_some, Option.some_bind] at henc
    obtain ⟨i1, i2⟩ := ih (fun x hx => hv x (by simp [hx])) ac2 e3 e4 henc
    rw [e7, e6] at i1
    rw [e7, e6, e5] at i2
    set j := renorm_count 24 ((cdf hist (s + 1) - cdf hist s) * rn ac.range)
    have hadd := be_window_add buf 0 (ac.written.length + 4) j
    have hlt := be_window_lt buf (0 + (ac.written.length + 4)) j
    rw [show ac.written.length + j + 4 = ac.written.length + 4 + j by omega, hadd] at i1 i2
    have i2' : be_window buf 0 (ac.written.length + 4) * 256 ^ j +
        be_window buf (0 + (ac.written.length + 4)) j <
        (abs_low ac + (cdf hist s + (cdf hist (s + 1) - cdf hist s)) * rn ac.range) * 256 ^ j := by
      have : (abs_low ac + (cdf hist s + (cdf hist (s + 1) - cdf hist s)) * rn ac.range) * 256 ^ j
          = (abs_low ac + cdf hist s * rn ac.range) * 256 ^ j +
            (cdf hist (s + 1) - cdf hist s) * rn ac.range * 256 ^ j := by ring
      rw [this]; exact i2
    obtain ⟨b1, b2⟩ := scaled_between _ _ _ _ _ hlt i1 i2'
    constructor
    · omega
    · omega

/-! ## The decoder follows the encoder -/


theorem decoder_renorm_loop_spec (buf : Nat → Nat) (fuel : Nat) (d : recip_arith_decoder)
    (h0 : 0 < d.range) (hc : d.code < d.range) (h32 : d.range < 2 ^ 32)
    (hfuel : renorm_count 24 d.range ≤ fuel) :
    ∃ d', recip_arith_decoder_renorm_loop buf fuel d = some d' ∧
      d'.range = d.range * 256 ^ renorm_count 24 d.range ∧
      d'.ptr = d.ptr + renorm_count 24 d.range ∧
      d'.code = d.code * 256 ^ renorm_count 24 d.range +
        be_window buf d.ptr (renorm_count 24 d.range) := by
  induction fuel generalizing d with
  | zero =>
    have hz : renorm_count 24 d.range = 0 := by omega
    have hge : ¬ d.range < 2 ^ 24 := by
      intro hlt
      have := renorm_count_step 24 d.range h0 hlt
      omega
    refine ⟨d, ?_, ?_, ?_, ?_⟩
    · simp only [recip_arith_decoder_renorm_loop]
      rw [if_neg]
      simpa using hge
    · simp [hz]
    · simp [hz]
    · simp [hz, be_window]
  | succ fuel ih =>
    by_cases hlt : d.range < 2 ^ 24
    · have hstep := renorm_count_step 24 d.range h0 hlt
      have hr : (d.range <<< 8) % 2 ^ 32 = d.range * 256 := by
        rw [Nat.shiftLeft_eq]; omega
      have hcode : shift_in_byte 32 d.code (buf d.ptr) = d.code * 256 + buf d.ptr % 256 :=
        shift_in_byte_eq 32 _ _ (by omega)
      have hb := Nat.mod_lt (buf d.ptr) (by norm_num : 0 < 256)
      obtain ⟨d', e1, e2, e3, e4⟩ := ih ⟨shift_in_byte 32 d.code (buf d.ptr),
        (d.range <<< 8) % 2 ^ 32, d.ptr + 1⟩ (by simp only [hr]; omega)
        (by simp only [hr, hcode]; omega) (by simp only [hr]; omega) (by simp only [hr]; omega)
      simp only [hr, hcode] at e2 e3 e4
      refine ⟨d', ?_, ?_, ?_, ?_⟩
      · simp only [recip_arith_decoder_renorm_loop]
        rw [if_pos (by simpa using hlt)]
        exact e1
      · rw [e2, hstep]; ring
      · rw [e3, hstep]; omega
      · rw [e4, hstep]
        have hadd := be_window_add buf d.ptr 1 (renorm_count 24 (d.range * 256))
        rw [show renorm_count 24 (d.range * 256) + 1 = 1 + renorm_count 24 (d.range * 256)
          by omega, hadd]
        simp only [be_window, Nat.add_zero]
        ring
    · have hz : renorm_count 24 d.range = 0 := renorm_count_zero 24 _ (by omega)
      refine ⟨d, ?_, ?_, ?_, ?_⟩
      · simp only [recip_arith_decoder_renorm_loop]
        rw [if_neg]
        simpa using hlt
      · simp [hz]
      · simp [hz]
      · simp [hz, be_window]

theorem decoder_renorm_spec (buf : Nat → Nat) (d : recip_arith_decoder)
    (h0 : 0 < d.range) (hc : d.code < d.range) (h32 : d.range < 2 ^ 32) :
    ∃ d', recip_arith_decoder_renorm buf d = some d' ∧
      d'.range = d.range * 256 ^ renorm_count 24 d.range ∧
      d'.ptr = d.ptr + renorm_count 24 d.range ∧
      d'.code = d.code * 256 ^ renorm_count 24 d.range +
        be_window buf d.ptr (renorm_count 24 d.range) := by
  have := renorm_count_le 24 d.range h0
  exact decoder_renorm_loop_spec buf 4 d h0 hc h32 (by omega)

theorem decoder_start_spec (buf : Nat → Nat) :
    (recip_arith_decoder_start buf 0).code = be_window buf 0 4 ∧
    (recip_arith_decoder_start buf 0).range = 2 ^ 32 - 1 ∧
    (recip_arith_decoder_start buf 0).ptr = 4 := by
  have b0 := Nat.mod_lt (buf 0) (by norm_num : 0 < 256)
  have b1 := Nat.mod_lt (buf 1) (by norm_num : 0 < 256)
  have b2 := Nat.mod_lt (buf 2) (by norm_num : 0 < 256)
  have b3 := Nat.mod_lt (buf 3) (by norm_num : 0 < 256)
  refine ⟨?_, rfl, rfl⟩
  simp only [recip_arith_decoder_start, Nat.zero_add]
  rw [shift_in_byte_eq 32 (buf 0 % 256) _ (by omega)]
  rw [shift_in_byte_eq 32 (buf 0 % 256 * 256 + buf 1 % 256) _ (by omega)]
  rw [shift_in_byte_eq 32 _ _ (by omega)]
  simp only [be_window, Nat.zero_add, Nat.zero_mul, Nat.add_zero]

/-- The decoder follows the encoder: same `range`, cursor four bytes ahead of the encoder's,
and `code` is the window of the input minus the encoder's lower bound. -/
theorem decode_symbols_spec
    (put : recip_arith_encoder → Nat → Nat → Nat → Option recip_arith_encoder)
    (peek : recip_arith_decoder → Nat → Option (Nat × recip_arith_decoder))
    (remove : recip_arith_decoder → Nat → Nat → recip_arith_decoder)
    (lookup : Nat → Nat)
    (rn : Nat → Nat) (c : Nat) (hist : List Nat)
    (hput : ∀ ac lo fr, 2 ^ 24 ≤ ac.range → ac.range < 2 ^ 32 →
      put ac lo fr c = put_core ac lo fr (rn ac.range))
    (hpeek : ∀ d, 2 ^ 24 ≤ d.range → d.range < 2 ^ 32 → d.code < d.range →
      peek d c = some (d.code / rn d.range, { d with range := rn d.range }))
    (hremove : ∀ d lo fr, remove d lo fr = recip_arith_decoder_remove d lo fr)
    (hrn : ∀ range, 2 ^ 24 ≤ range → range < 2 ^ 32 → 0 < rn range ∧ rn range * 2 ^ c ≤ range)
    (syms : List Nat)
    (hv : ∀ s ∈ syms, 0 < cdf hist (s + 1) - cdf hist s ∧ cdf hist (s + 1) ≤ 2 ^ c)
    (hlookup : ∀ s ∈ syms, ∀ t, cdf hist s ≤ t → t < cdf hist (s + 1) → lookup t = s)
    (ac acN fin : recip_arith_encoder) (hinv : EncInv ac) (h24 : 2 ^ 24 ≤ ac.range)
    (henc : encode_symbols put hist c ac syms = some acN)
    (hfin : recip_arith_encoder_finish acN = some fin)
    (buf : Nat → Nat) (hbuf : StartsWith buf fin.written.reverse)
    (d : recip_arith_decoder) (hptr : d.ptr = ac.written.length + 4)
    (hrange : d.range = ac.range)
    (hcode : d.code + abs_low ac = be_window buf 0 (ac.written.length + 4)) :
    ∃ dN, decode_symbols peek remove lookup buf hist c syms.length d = some (syms, dN) ∧
      dN.ptr = acN.written.length + 4 ∧ dN.range = acN.range := by
  induction syms generalizing ac d with
  | nil =>
    simp only [encode_symbols, Option.some.injEq] at henc
    subst henc
    exact ⟨d, rfl, hptr, hrange⟩
  | cons s rest ih =>
    obtain ⟨hs1, hs2⟩ := hv s (by simp)
    obtain ⟨ac1, ac2, e1, e2, e3, e4, e5, e6, e7, e8, e9⟩ := encoder_step_spec put rn c hput hrn ac
      (cdf hist s) (cdf hist (s + 1) - cdf hist s) hinv h24 hs1 (by omega)
    have henc0 := henc
    simp only [encode_symbols, e1, e2, Option.bind_some, Option.some_bind] at henc
    have hvr : ∀ x ∈ rest, 0 < cdf hist (x + 1) - cdf hist x ∧ cdf hist (x + 1) ≤ 2 ^ c :=
      fun x hx => hv x (by simp [hx])
    obtain ⟨i1, i2⟩ := encode_interval put rn c hist hput hrn rest hvr ac2 acN fin e3 e4 henc
      hfin buf hbuf
    rw [e7, e6] at i1
    rw [e7, e6, e5] at i2
    set r := rn ac.range with hr
    set lo := cdf hist s with hlo
    set fr := cdf hist (s + 1) - cdf hist s with hfr
    set j := renorm_count 24 (fr * r) with hj
    have hadd := be_window_add buf 0 (ac.written.length + 4) j
    have hlt := be_window_lt buf (0 + (ac.written.length + 4)) j
    have hlen : ac.written.length + j + 4 = ac.written.length + 4 + j := by omega
    rw [hlen, hadd] at i1 i2
    have i2' : be_window buf 0 (ac.written.length + 4) * 256 ^ j +
        be_window buf (0 + (ac.written.length + 4)) j < (abs_low ac + (lo + fr) * r) * 256 ^ j := by
      have : (abs_low ac + (lo + fr) * r) * 256 ^ j
          = (abs_low ac + lo * r) * 256 ^ j + fr * r * 256 ^ j := by ring
      rw [this]; exact i2
    obtain ⟨b1, b2⟩ := scaled_between _ _ _ _ _ hlt i1 i2'
    -- the decoder's code lies in the symbol's slice
    have hr0 : 0 < r := (hrn ac.range h24 hinv.2.1).1
    have c1 : lo * r ≤ d.code := by omega
    have c2 : d.code < (lo + fr) * r := by omega
    have hdr : d.range < 2 ^ 32 := by rw [hrange]; exact hinv.2.1
    have hdc : d.code < d.range := by rw [hrange]; omega
    have t1 : lo ≤ d.code / r := (Nat.le_div_iff_mul_le hr0).mpr c1
    have t2 : d.code / r < lo + fr := (Nat.div_lt_iff_lt_mul hr0).mpr c2
    have hsym : lookup (d.code / r) = s := hlookup s (by simp) _ t1 (by omega)
    have hpk := hpeek d (by omega) hdr hdc
    rw [hrange, ← hr] at hpk
    -- remove
    have e10 : (lo + fr) * r = lo * r + fr * r := by ring
    have hlor : lo * r < 2 ^ 32 := by omega
    have hfrr : fr * r < 2 ^ 32 := by have := hinv.2.1; omega
    have hrem : recip_arith_decoder_remove { d with range := r } lo fr =
        ⟨d.code - lo * r, fr * r, d.ptr⟩ := by
      simp only [recip_arith_decoder_remove, Nat.mod_eq_of_lt hlor, Nat.mod_eq_of_lt hfrr]
      congr 1
      omega
    obtain ⟨d2, r1, r2, r3, r4⟩ := decoder_renorm_spec buf ⟨d.code - lo * r, fr * r, d.ptr⟩
      e9 (by simp only []; omega) hfrr
    simp only [] at r2 r3 r4
    rw [← hj] at r2 r3 r4
    have hd2code : d2.code + abs_low ac2 = be_window buf 0 (ac2.written.length + 4) := by
      rw [e7, e6, hlen, hadd, r4, hptr, Nat.zero_add, ← hcode]
      have : (d.code - lo * r) * 256 ^ j + (abs_low ac + lo * r) * 256 ^ j
          = (d.code + abs_low ac) * 256 ^ j := by
        rw [← Nat.add_mul]; congr 1; omega
      omega
    obtain ⟨dN, k1, k2, k3⟩ := ih hvr (fun x hx => hlookup x (by simp [hx])) ac2 e3 e4 henc d2
      (by rw [r3, hptr, e7]; omega) (by rw [r2, e5]) hd2code
    refine ⟨dN, ?_, k2, k3⟩
    simp only [List.length_cons, decode_symbols, hpk, Option.some_bind, hsym, hremove, hrem, r1, k1,
      Option.map_some', ← hlo, ← hfr]


/-! ## `r_top`, `r_norm` and the reciprocal `put` -/


theorem size_bounds (x : Nat) (h : 0 < x) : 2 ^ (Nat.size x - 1) ≤ x ∧ x < 2 ^ Nat.size x := by
  refine ⟨?_, Nat.lt_size_self x⟩
  have h1 : 0 < Nat.size x := Nat.size_pos.mpr h
  exact Nat.lt_size.mp (by omega)

theorem top_bits_bounds (range : Nat) (h8 : 8 ≤ Nat.size range) :
    128 ≤ top_bits range ∧ top_bits range < 256 ∧
      top_bits range * 2 ^ (Nat.size range - 8) ≤ range := by
  have h0 : 0 < range := Nat.size_pos.mp (by omega)
  obtain ⟨h1, h2⟩ := size_bounds range h0
  have hp : 0 < 2 ^ (Nat.size range - 8) := Nat.pow_pos (by norm_num)
  have e1 : 2 ^ (Nat.size range - 1) = 128 * 2 ^ (Nat.size range - 8) := by
    rw [show Nat.size range - 1 = 7 + (Nat.size range - 8) by omega, pow_add]; norm_num
  have e2 : 2 ^ Nat.size range = 256 * 2 ^ (Nat.size range - 8) := by
    conv_lhs => rw [show Nat.size range = 8 + (Nat.size range - 8) by omega, pow_add]
    norm_num
  unfold top_bits
  refine ⟨?_, ?_, Nat.div_mul_le_self _ _⟩
  · rw [Nat.le_div_iff_mul_le hp]; omega
  · rw [Nat.div_lt_iff_lt_mul hp]; omega

theorem recip_r_norm_bounds (range c : Nat) (h8 : c + 8 ≤ Nat.size range) :
    0 < recip_r_norm range c ∧ recip_r_norm range c * 2 ^ c ≤ range ∧
      recip_r_norm range c < 2 ^ (Nat.size range - c) ∧
      2 ^ (Nat.size range - 1 - c) ≤ recip_r_norm range c := by
  obtain ⟨t1, t2, t3⟩ := top_bits_bounds range (by omega)
  unfold recip_r_norm
  have hp : 0 < 2 ^ (Nat.size range - 8 - c) := Nat.pow_pos (by norm_num)
  refine ⟨Nat.mul_pos (by omega) hp, ?_, ?_, ?_⟩
  · rw [Nat.mul_assoc, ← pow_add, show Nat.size range - 8 - c + c = Nat.size range - 8 by omega]
    exact t3
  · rw [show Nat.size range - c = 8 + (Nat.size range - 8 - c) by omega, pow_add]
    norm_num
    exact t2
  · rw [show Nat.size range - 1 - c = 7 + (Nat.size range - 8 - c) by omega, pow_add]
    norm_num
    exact t1

theorem clz32_eq (range : Nat) (h0 : 0 < range) (h32 : range < 2 ^ 32) :
    clz32 range = 32 - Nat.size range ∧ Nat.size range ≤ 32 ∧ 0 < Nat.size range := by
  have h1 := clz_bits_eq_size 32 range h0 h32
  have h2 := clz_bits_le 32 range
  have h3 : 0 < Nat.size range := Nat.size_pos.mpr h0
  unfold clz32
  omega

theorem encoder_put_eq (ac : recip_arith_encoder) (lo fr c : Nat) (h32 : ac.range < 2 ^ 32)
    (hs : c + 8 ≤ Nat.size ac.range) :
    recip_arith_encoder_put ac lo fr c = put_core ac lo fr (recip_r_norm ac.range c) := by
  have h0 : 0 < ac.range := Nat.size_pos.mp (by omega)
  obtain ⟨hclz, hs32, hs0⟩ := clz32_eq ac.range h0 h32
  obtain ⟨r1, r2, r3, r4⟩ := recip_r_norm_bounds ac.range c hs
  have hpow : 2 ^ (Nat.size ac.range - c) ≤ 2 ^ 32 := Nat.pow_le_pow_right (by norm_num) (by omega)
  unfold recip_arith_encoder_put
  simp only [hclz, RECIP_ARITH_TABLE_BITS]
  have e1 : ((32 : Int) - ((32 - Nat.size ac.range : Nat) : Int) - ((8 : Nat) : Int))
      = ((Nat.size ac.range - 8 : Nat) : Int) := by omega
  have e2 : ((32 : Int) - ((32 - Nat.size ac.range : Nat) : Int) - ((8 : Nat) : Int) - (c : Int))
      % 2 ^ 32 = ((Nat.size ac.range - 8 - c : Nat) : Int) := by omega
  rw [e2, e1]
  rw [if_neg (by omega), if_neg (by omega), if_neg (by omega)]
  simp only [Int.toNat_ofNat, Nat.shiftRight_eq_div_pow, Nat.shiftLeft_eq]
  have e3 : (ac.range / 2 ^ (Nat.size ac.range - 8) * 2 ^ (Nat.size ac.range - 8 - c)) % 2 ^ 32
      = recip_r_norm ac.range c := by
    apply Nat.mod_eq_of_lt
    have : ac.range / 2 ^ (Nat.size ac.range - 8) * 2 ^ (Nat.size ac.range - 8 - c)
      = recip_r_norm ac.range c := rfl
    omega
  rw [e3]
  rfl


/-! ## `peek`, and the reference variant -/


theorem decoder_peek_eq (d : recip_arith_decoder) (c : Nat) (h32 : d.range < 2 ^ 32)
    (hs : c + 8 ≤ Nat.size d.range) (hc16 : c ≤ 16) (hcode : d.code < d.range) :
    recip_arith_decoder_peek recip_arith_table d c =
      some (d.code / recip_r_norm d.range c, { d with range := recip_r_norm d.range c }) := by
  have h0 : 0 < d.range := Nat.size_pos.mp (by omega)
  obtain ⟨hclz, hs32, hs0⟩ := clz32_eq d.range h0 h32
  obtain ⟨r1, r2, r3, r4⟩ := recip_r_norm_bounds d.range c hs
  obtain ⟨t1, t2, t3⟩ := top_bits_bounds d.range (by omega)
  have hpow : 2 ^ (Nat.size d.range - c) ≤ 2 ^ 32 := Nat.pow_le_pow_right (by norm_num) (by omega)
  unfold recip_arith_decoder_peek
  simp only [hclz, RECIP_ARITH_TABLE_BITS, RECIP_ARITH_NUMERATOR_BITS]
  have e1 : ((32 : Int) - ((32 - Nat.size d.range : Nat) : Int) - ((8 : Nat) : Int))
      = ((Nat.size d.range - 8 : Nat) : Int) := by omega
  have e2 : ((32 : Int) - ((32 - Nat.size d.range : Nat) : Int) - ((8 : Nat) : Int) - (c : Int))
      % 2 ^ 32 = ((Nat.size d.range - 8 - c : Nat) : Int) := by omega
  rw [e2, e1]
  rw [if_neg (by omega), if_neg (by omega), if_neg (by omega)]
  simp only [Int.toNat_ofNat, Nat.shiftRight_eq_div_pow, Nat.shiftLeft_eq]
  have etop : d.range / 2 ^ (Nat.size d.range - 8) = top_bits d.range := rfl
  have e3 : (top_bits d.range * 2 ^ (Nat.size d.range - 8 - c)) % 2 ^ 32
      = recip_r_norm d.range c := by
    apply Nat.mod_eq_of_lt
    have : top_bits d.range * 2 ^ (Nat.size d.range - 8 - c)
      = recip_r_norm d.range c := rfl
    omega
  rw [etop, e3, recip_arith_table_getD _ t1 t2]
  -- the numerator has at most `c + 8` bits
  have hp : 0 < 2 ^ (Nat.size d.range - 8 - c) := Nat.pow_pos (by norm_num)
  have hcnb : d.code / 2 ^ (Nat.size d.range - 8 - c) < 2 ^ 24 := by
    rw [Nat.div_lt_iff_lt_mul hp]
    have hsz := Nat.lt_size_self d.range
    have e4 : 2 ^ Nat.size d.range = 2 ^ (c + 8) * 2 ^ (Nat.size d.range - 8 - c) := by
      rw [← pow_add]; congr 1; omega
    have e5 : 2 ^ (c + 8) ≤ 2 ^ 24 := Nat.pow_le_pow_right (by norm_num) (by omega)
    have e6 : 2 ^ (c + 8) * 2 ^ (Nat.size d.range - 8 - c) ≤
        2 ^ 24 * 2 ^ (Nat.size d.range - 8 - c) := Nat.mul_le_mul_right _ e5
    omega
  have hrecip : (2 ^ 32 + top_bits d.range - 1) / top_bits d.range < 2 ^ 32 := by
    apply Nat.div_lt_of_lt_mul
    omega
  have hprod : d.code / 2 ^ (Nat.size d.range - 8 - c) *
      ((2 ^ 32 + top_bits d.range - 1) / top_bits d.range) < 2 ^ 64 := by
    calc d.code / 2 ^ (Nat.size d.range - 8 - c) *
          ((2 ^ 32 + top_bits d.range - 1) / top_bits d.range)
        < 2 ^ 24 * 2 ^ 32 := Nat.mul_lt_mul'' hcnb hrecip
      _ ≤ 2 ^ 64 := by norm_num
  rw [Nat.mod_eq_of_lt hprod, recip_mul_exact _ _ t1 t2 hcnb]
  have htarget : d.code / 2 ^ (Nat.size d.range - 8 - c) / top_bits d.range =
      d.code / recip_r_norm d.range c := by
    rw [Nat.div_div_eq_div_mul]
    unfold recip_r_norm
    rw [Nat.mul_comm]
  have hlt : d.code / 2 ^ (Nat.size d.range - 8 - c) / top_bits d.range < 2 ^ 32 := by
    have := Nat.div_le_self (d.code / 2 ^ (Nat.size d.range - 8 - c)) (top_bits d.range)
    omega
  rw [Nat.mod_eq_of_lt hlt, htarget]

theorem encoder_put_rangecoder_eq (ac : recip_arith_encoder) (lo fr c : Nat) (hc : c < 32) :
    recip_arith_encoder_put_rangecoder ac lo fr c = put_core ac lo fr (ac.range / 2 ^ c) := by
  unfold recip_arith_encoder_put_rangecoder
  rw [if_neg (by omega)]
  simp only [Nat.shiftRight_eq_div_pow]
  rfl

theorem decoder_peek_rangecoder_eq (d : recip_arith_decoder) (c : Nat) (hc : c < 32)
    (hr : 2 ^ c ≤ d.range) :
    recip_arith_decoder_peek_rangecoder d c =
      some (d.code / (d.range / 2 ^ c), { d with range := d.range / 2 ^ c }) := by
  have hp : 0 < 2 ^ c := Nat.pow_pos (by norm_num)
  have h1 : 0 < d.range / 2 ^ c := Nat.div_pos hr hp
  unfold recip_arith_decoder_peek_rangecoder
  rw [if_neg (by omega)]
  simp only [Nat.shiftRight_eq_div_pow]
  rw [if_neg (by omega)]

theorem size_ge_of_le (x k : Nat) (h : 2 ^ k ≤ x) : k + 1 ≤ Nat.size x := Nat.lt_size.mpr h

theorem encoder_start_inv : EncInv recip_arith_encoder_start ∧
    2 ^ 24 ≤ recip_arith_encoder_start.range := by
  refine ⟨⟨by decide, by decide, ?_, by decide⟩, by decide⟩
  intro b hb
  simp [recip_arith_encoder_start] at hb


/-! ## The `cdf` array and the symbol lookup -/


theorem cdf_succ (hist : List Nat) (s : Nat) (hs : s < hist.length) :
    cdf hist (s + 1) = cdf hist s + hist.getD s 0 := by
  induction hist generalizing s with
  | nil => simp at hs
  | cons h rest ih =>
    cases s with
    | zero => simp [cdf]
    | succ s =>
      have := ih s (by simpa using hs)
      simp only [cdf, List.take_succ_cons, List.sum_cons, List.getD_cons_succ] at this ⊢
      omega

theorem cdf_le_sum (hist : List Nat) (i : Nat) : cdf hist i ≤ hist.sum := by
  have := List.sum_take_add_sum_drop hist i
  unfold cdf
  omega

theorem valid_of_table (hist : List Nat) (c : Nat) (syms : List Nat)
    (hsum : hist.sum = 2 ^ c) (hsyms : ∀ s ∈ syms, s < hist.length ∧ 1 ≤ hist.getD s 0) :
    ∀ s ∈ syms, 0 < cdf hist (s + 1) - cdf hist s ∧ cdf hist (s + 1) ≤ 2 ^ c := by
  intro s hs
  obtain ⟨h1, h2⟩ := hsyms s hs
  have := cdf_succ hist s h1
  have := cdf_le_sum hist (s + 1)
  omega

theorem cdf_lookup_spec (hist : List Nat) (s t : Nat) (hs : s < hist.length)
    (h1 : cdf hist s ≤ t) (h2 : t < cdf hist (s + 1)) : cdf_lookup hist t = s := by
  induction hist generalizing s t with
  | nil => simp at hs
  | cons h rest ih =>
    cases s with
    | zero =>
      simp only [cdf, List.take_succ_cons, List.sum_cons, List.take_zero, List.sum_nil] at h2
      simp only [cdf_lookup]
      rw [if_pos (by omega)]
    | succ s =>
      simp only [cdf, List.take_succ_cons, List.sum_cons] at h1 h2
      have := ih s (t - h) (by simpa using hs) (by unfold cdf; omega) (by unfold cdf; omega)
      simp only [cdf_lookup]
      rw [if_neg (by omega), this]
      omega

theorem cdf_lookup_lt (hist : List Nat) (t : Nat) (h : t < hist.sum) :
    cdf_lookup hist t < hist.length := by
  induction hist generalizing t with
  | nil => simp at h
  | cons a rest ih =>
    simp only [cdf_lookup]
    split
    · simp
    · have := ih (t - a) (by simp only [List.sum_cons] at h; omega)
      simp only [List.length_cons]
      omega

theorem decode_table_fill_length (i : Nat) (hist : List Nat) :
    (decode_table_fill i hist).length = hist.sum := by
  induction hist generalizing i with
  | nil => simp [decode_table_fill]
  | cons h rest ih => simp [decode_table_fill, ih]

theorem decode_table_fill_getD (i : Nat) (hist : List Nat) (t : Nat) (h : t < hist.sum) :
    (decode_table_fill i hist).getD t 0 = (i + cdf_lookup hist t) % 256 := by
  induction hist generalizing i t with
  | nil => simp at h
  | cons a rest ih =>
    simp only [decode_table_fill, cdf_lookup]
    by_cases hta : t < a
    · rw [if_pos hta]
      simp [List.getD_eq_getElem?_getD, List.getElem?_append_left, hta, List.getElem?_replicate]
    · rw [if_neg hta]
      have hr := ih (i + 1) (t - a) (by simp only [List.sum_cons] at h; omega)
      rw [List.getD_eq_getElem?_getD] at hr ⊢
      rw [List.getElem?_append_right (by simp; omega)]
      simp only [List.length_replicate]
      rw [hr]
      congr 1
      omega

theorem decode_table_getD (hist : List Nat) (tot t : Nat) (h : t < hist.sum)
    (hlen : hist.length ≤ 256) :
    (decode_table hist tot).getD t 0 = cdf_lookup hist t := by
  unfold decode_table
  simp only []
  rw [List.getD_eq_getElem?_getD, List.getElem?_append_left (by rw [decode_table_fill_length]; exact h),
    ← List.getD_eq_getElem?_getD, decode_table_fill_getD 0 hist t h]
  have := cdf_lookup_lt hist t h
  omega


/-! ## Round trip of the 32-bit coders -/


/-- Round trip of an encoder block followed by a 32-bit decoder block, for any variant that
scales by `rn range` with `0 < rn range` and `rn range * 2 ^ c ≤ range`; the decoder ends
four bytes after the bytes the encoder stored during `renorm`. -/
theorem roundtrip_generic
    (put : recip_arith_encoder → Nat → Nat → Nat → Option recip_arith_encoder)
    (peek : recip_arith_decoder → Nat → Option (Nat × recip_arith_decoder))
    (remove : recip_arith_decoder → Nat → Nat → recip_arith_decoder)
    (lookup : Nat → Nat)
    (rn : Nat → Nat) (c : Nat) (hist : List Nat)
    (hput : ∀ ac lo fr, 2 ^ 24 ≤ ac.range → ac.range < 2 ^ 32 →
      put ac lo fr c = put_core ac lo fr (rn ac.range))
    (hpeek : ∀ d, 2 ^ 24 ≤ d.range → d.range < 2 ^ 32 → d.code < d.range →
      peek d c = some (d.code / rn d.range, { d with range := rn d.range }))
    (hremove : ∀ d lo fr, remove d lo fr = recip_arith_decoder_remove d lo fr)
    (hrn : ∀ range, 2 ^ 24 ≤ range → range < 2 ^ 32 → 0 < rn range ∧ rn range * 2 ^ c ≤ range)
    (syms : List Nat)
    (hv : ∀ s ∈ syms, 0 < cdf hist (s + 1) - cdf hist s ∧ cdf hist (s + 1) ≤ 2 ^ c)
    (hlookup : ∀ s ∈ syms, ∀ t, cdf hist s ≤ t → t < cdf hist (s + 1) → lookup t = s) :
    ∃ out, encode_with put hist c syms = some out ∧
      ∀ buf, StartsWith buf out →
        ∃ dN, decode_with peek remove lookup buf hist c syms.length = some (syms, dN) ∧
          ((2 ^ 25 < dN.range ∧ dN.ptr = out.length + 3) ∨
           (dN.range ≤ 2 ^ 25 ∧ dN.ptr = out.length + 2)) := by
  obtain ⟨hinv, h24⟩ := encoder_start_inv
  obtain ⟨acN, e1, e2, e3⟩ := encode_symbols_spec put rn c hist hput hrn syms hv
    recip_arith_encoder_start hinv h24
  obtain ⟨fin, f1, f2, f3⟩ := encoder_finish_spec acN e2 e3
  refine ⟨fin.written.reverse, ?_, ?_⟩
  · simp [encode_with, e1, f1]
  · intro buf hbuf
    obtain ⟨s1, s2, s3⟩ := decoder_start_spec buf
    obtain ⟨dN, g1, g2, g3⟩ := decode_symbols_spec put peek remove lookup rn c hist hput hpeek
      hremove hrn syms hv hlookup recip_arith_encoder_start acN fin hinv h24 e1 f1 buf hbuf
      (recip_arith_decoder_start buf 0) (by rw [s3]; simp [recip_arith_encoder_start])
      (by rw [s2]; simp [recip_arith_encoder_start])
      (by rw [s1]; simp [recip_arith_encoder_start, abs_low, be_value])
    refine ⟨dN, g1, ?_⟩
    rw [List.length_reverse, g2, g3]
    rcases f3 with ⟨k1, k2, -⟩ | ⟨k1, k2, -⟩
    · left; exact ⟨k1, by omega⟩
    · right; exact ⟨k1, by omega⟩

/-- Round trip of the reciprocal coder for `cdf_bits ≤ 16`. -/
theorem recip_roundtrip (hist syms : List Nat) (c : Nat) (lookup : Nat → Nat) (hc : c ≤ 16)
    (hv : ∀ s ∈ syms, 0 < cdf hist (s + 1) - cdf hist s ∧ cdf hist (s + 1) ≤ 2 ^ c)
    (hlookup : ∀ s ∈ syms, ∀ t, cdf hist s ≤ t → t < cdf hist (s + 1) → lookup t = s) :
    ∃ out, encode_with recip_arith_encoder_put hist c syms = some out ∧
      ∀ buf, StartsWith buf out →
        ∃ dN, decode_with (recip_arith_decoder_peek recip_arith_table)
            recip_arith_decoder_remove lookup buf hist c syms.length = some (syms, dN) ∧
          ((2 ^ 25 < dN.range ∧ dN.ptr = out.length + 3) ∨
           (dN.range ≤ 2 ^ 25 ∧ dN.ptr = out.length + 2)) := by
  apply roundtrip_generic recip_arith_encoder_put (recip_arith_decoder_peek recip_arith_table)
    recip_arith_decoder_remove lookup (fun range => recip_r_norm range c) c hist
  · intro ac lo fr h24 h32
    have := size_ge_of_le _ _ h24
    exact encoder_put_eq ac lo fr c h32 (by omega)
  · intro d h24 h32 hcode
    have := size_ge_of_le _ _ h24
    exact decoder_peek_eq d c h32 (by omega) hc hcode
  · intro d lo fr; rfl
  · intro range h24 h32
    have := size_ge_of_le _ _ h24
    obtain ⟨r1, r2, -⟩ := recip_r_norm_bounds range c (by omega)
    exact ⟨r1, r2⟩
  · exact hv
  · exact hlookup

/-- Round trip of the reference range coder for `cdf_bits ≤ 24`. -/
theorem rangecoder_roundtrip (hist syms : List Nat) (c : Nat) (lookup : Nat → Nat) (hc : c ≤ 24)
    (hv : ∀ s ∈ syms, 0 < cdf hist (s + 1) - cdf hist s ∧ cdf hist (s + 1) ≤ 2 ^ c)
    (hlookup : ∀ s ∈ syms, ∀ t, cdf hist s ≤ t → t < cdf hist (s + 1) → lookup t = s) :
    ∃ out, encode_with recip_arith_encoder_put_rangecoder hist c syms = some out ∧
      ∀ buf, StartsWith buf out →
        ∃ dN, decode_with recip_arith_decoder_peek_rangecoder
            recip_arith_decoder_remove_rangecoder lookup buf hist c syms.length
              = some (syms, dN) ∧
          ((2 ^ 25 < dN.range ∧ dN.ptr = out.length + 3) ∨
           (dN.range ≤ 2 ^ 25 ∧ dN.ptr = out.length + 2)) := by
  have hpc : 2 ^ c ≤ 2 ^ 24 := Nat.pow_le_pow_right (by norm_num) hc
  apply roundtrip_generic recip_arith_encoder_put_rangecoder recip_arith_decoder_peek_rangecoder
    recip_arith_decoder_remove_rangecoder lookup (fun range => range / 2 ^ c) c hist
  · intro ac lo fr h24 h32
    exact encoder_put_rangecoder_eq ac lo fr c (by omega)
  · intro d h24 h32 hcode
    exact decoder_peek_rangecoder_eq d c (by omega) (by omega)
  · intro d lo fr; rfl
  · intro range h24 h32
    exact ⟨Nat.div_pos (by omega) (Nat.pow_pos (by norm_num)), Nat.div_mul_le_self _ _⟩
  · exact hv
  · exact hlookup


/-! ## The 64-bit decoder -/


theorem top_bits_shift (x k : Nat) (hx : 8 ≤ Nat.size x) : top_bits (x * 2 ^ k) = top_bits x := by
  have h0 : 0 < x := Nat.size_pos.mp (by omega)
  unfold top_bits
  rw [size_mul_two_pow x k h0, show Nat.size x + k - 8 = (Nat.size x - 8) + k by omega, pow_add]
  exact Nat.mul_div_mul_right _ _ (Nat.pow_pos (by norm_num))

theorem recip_r_norm_shift (x k c : Nat) (hx : c + 8 ≤ Nat.size x) :
    recip_r_norm (x * 2 ^ k) c = recip_r_norm x c * 2 ^ k := by
  have h0 : 0 < x := Nat.size_pos.mp (by omega)
  unfold recip_r_norm
  rw [top_bits_shift x k (by omega), size_mul_two_pow x k h0,
    show Nat.size x + k - 8 - c = (Nat.size x - 8 - c) + k by omega, pow_add, Nat.mul_assoc]

theorem pow_256 (a : Nat) : 256 ^ a = 2 ^ (8 * a) := by
  rw [pow_mul]; norm_num

/-- Ranges equal up to a byte scale have `r_norm`s equal up to the same scale. -/
theorem recip_r_norm_scale (x y a c : Nat) (hx : c + 8 ≤ Nat.size x) (hy : c + 8 ≤ Nat.size y)
    (h : x * 256 ^ a = y * 2 ^ 32) :
    recip_r_norm x c * 256 ^ a = recip_r_norm y c * 2 ^ 32 := by
  rw [pow_256] at h ⊢
  rw [← recip_r_norm_shift x _ c hx, ← recip_r_norm_shift y _ c hy, h]

theorem clz64_eq (range : Nat) (h0 : 0 < range) (h64 : range < 2 ^ 64) :
    clz64 range = 64 - Nat.size range ∧ Nat.size range ≤ 64 ∧ 0 < Nat.size range := by
  have h1 := clz_bits_eq_size 64 range h0 h64
  have h2 := clz_bits_le 64 range
  have h3 : 0 < Nat.size range := Nat.size_pos.mpr h0
  unfold clz64
  omega

theorem decoder64_peek_eq (d : recip_arith64_decoder) (c : Nat) (h64 : d.range < 2 ^ 64)
    (hs : c + 8 ≤ Nat.size d.range) (hc16 : c ≤ 16) (hcode : d.code < d.range) :
    recip_arith64_decoder_peek recip_arith_table d c =
      some (d.code / recip_r_norm d.range c, { d with range := recip_r_norm d.range c }) := by
  have h0 : 0 < d.range := Nat.size_pos.mp (by omega)
  obtain ⟨hclz, hs64, hs0⟩ := clz64_eq d.range h0 h64
  obtain ⟨r1, r2, r3, r4⟩ := recip_r_norm_bounds d.range c hs
  obtain ⟨t1, t2, t3⟩ := top_bits_bounds d.range (by omega)
  have hpow : 2 ^ (Nat.size d.range - c) ≤ 2 ^ 64 := Nat.pow_le_pow_right (by norm_num) (by omega)
  unfold recip_arith64_decoder_peek
  simp only [hclz, RECIP_ARITH_TABLE_BITS, RECIP_ARITH_NUMERATOR_BITS]
  have e1 : ((64 : Int) - ((64 - Nat.size d.range : Nat) : Int) - ((8 : Nat) : Int))
      = ((Nat.size d.range - 8 : Nat) : Int) := by omega
  have e2 : ((64 : Int) - ((64 - Nat.size d.range : Nat) : Int) - ((8 : Nat) : Int) - (c : Int))
      % 2 ^ 32 = ((Nat.size d.range - 8 - c : Nat) : Int) := by omega
  rw [e2, e1]
  rw [if_neg (by omega), if_neg (by omega), if_neg (by omega)]
  simp only [Int.toNat_ofNat, Nat.shiftRight_eq_div_pow, Nat.shiftLeft_eq]
  have etop : d.range / 2 ^ (Nat.size d.range - 8) = top_bits d.range := rfl
  have e3 : (top_bits d.range * 2 ^ (Nat.size d.range - 8 - c)) % 2 ^ 64
      = recip_r_norm d.range c := by
    apply Nat.mod_eq_of_lt
    have : top_bits d.range * 2 ^ (Nat.size d.range - 8 - c)
      = recip_r_norm d.range c := rfl
    omega
  rw [etop, e3, recip_arith_table_getD _ t1 t2]
  have hp : 0 < 2 ^ (Nat.size d.range - 8 - c) := Nat.pow_pos (by norm_num)
  have hcnb : d.code / 2 ^ (Nat.size d.range - 8 - c) < 2 ^ 24 := by
    rw [Nat.div_lt_iff_lt_mul hp]
    have hsz := Nat.lt_size_self d.range
    have e4 : 2 ^ Nat.size d.range = 2 ^ (c + 8) * 2 ^ (Nat.size d.range - 8 - c) := by
      rw [← pow_add]; congr 1; omega
    have e5 : 2 ^ (c + 8) ≤ 2 ^ 24 := Nat.pow_le_pow_right (by norm_num) (by omega)
    have e6 : 2 ^ (c + 8) * 2 ^ (Nat.size d.range - 8 - c) ≤
        2 ^ 24 * 2 ^ (Nat.size d.range - 8 - c) := Nat.mul_le_mul_right _ e5
    omega
  have hrecip : (2 ^ 32 + top_bits d.range - 1) / top_bits d.range < 2 ^ 32 := by
    apply Nat.div_lt_of_lt_mul
    omega
  have hprod : d.code / 2 ^ (Nat.size d.range - 8 - c) *
      ((2 ^ 32 + top_bits d.range - 1) / top_bits d.range) < 2 ^ 64 := by
    calc d.code / 2 ^ (Nat.size d.range - 8 - c) *
          ((2 ^ 32 + top_bits d.range - 1) / top_bits d.range)
        < 2 ^ 24 * 2 ^ 32 := Nat.mul_lt_mul'' hcnb hrecip
      _ ≤ 2 ^ 64 := by norm_num
  rw [Nat.mod_eq_of_lt hprod, recip_mul_exact _ _ t1 t2 hcnb]
  have htarget : d.code / 2 ^ (Nat.size d.range - 8 - c) / top_bits d.range =
      d.code / recip_r_norm d.range c := by
    rw [Nat.div_div_eq_div_mul]
    unfold recip_r_norm
    rw [Nat.mul_comm]
  have hlt : d.code / 2 ^ (Nat.size d.range - 8 - c) / top_bits d.range < 2 ^ 32 := by
    have := Nat.div_le_self (d.code / 2 ^ (Nat.size d.range - 8 - c)) (top_bits d.range)
    omega
  rw [Nat.mod_eq_of_lt hlt, htarget]

theorem decoder64_renorm_loop_spec (buf : Nat → Nat) (fuel : Nat) (d : recip_arith64_decoder)
    (h0 : 0 < d.range) (hc : d.code < d.range) (h64 : d.range < 2 ^ 64)
    (hfuel : renorm_count 56 d.range ≤ fuel) :
    ∃ d', recip_arith64_decoder_renorm_loop buf fuel d = some d' ∧
      d'.range = d.range * 256 ^ renorm_count 56 d.range ∧
      d'.ptr = d.ptr + renorm_count 56 d.range ∧
      d'.code = d.code * 256 ^ renorm_count 56 d.range +
        be_window buf d.ptr (renorm_count 56 d.range) := by
  induction fuel generalizing d with
  | zero =>
    have hz : renorm_count 56 d.range = 0 := by omega
    have hge : ¬ d.range < 2 ^ 56 := by
      intro hlt
      have := renorm_count_step 56 d.range h0 hlt
      omega
    refine ⟨d, ?_, ?_, ?_, ?_⟩
    · simp only [recip_arith64_decoder_renorm_loop]
      rw [if_neg]
      simpa using hge
    · simp [hz]
    · simp [hz]
    · simp [hz, be_window]
  | succ fuel ih =>
    by_cases hlt : d.range < 2 ^ 56
    · have hstep := renorm_count_step 56 d.range h0 hlt
      have hr : (d.range <<< 8) % 2 ^ 64 = d.range * 256 := by
        rw [Nat.shiftLeft_eq]; omega
      have hcode : shift_in_byte 64 d.code (buf d.ptr) = d.code * 256 + buf d.ptr % 256 :=
        shift_in_byte_eq 64 _ _ (by omega)
      have hb := Nat.mod_lt (buf d.ptr) (by norm_num : 0 < 256)
      obtain ⟨d', e1, e2, e3, e4⟩ := ih ⟨shift_in_byte 64 d.code (buf d.ptr),
        (d.range <<< 8) % 2 ^ 64, d.ptr + 1⟩ (by simp only [hr]; omega)
        (by simp only [hr, hcode]; omega) (by simp only [hr]; omega) (by simp only [hr]; omega)
      simp only [hr, hcode] at e2 e3 e4
      refine ⟨d', ?_, ?_, ?_, ?_⟩
      · simp only [recip_arith64_decoder_renorm_loop]
        rw [if_pos (by simpa using hlt)]
        exact e1
      · rw [e2, hstep]; ring
      · rw [e3, hstep]; omega
      · rw [e4, hstep]
        have hadd := be_window_add buf d.ptr 1 (renorm_count 56 (d.range * 256))
        rw [show renorm_count 56 (d.range * 256) + 1 = 1 + renorm_count 56 (d.range * 256)
          by omega, hadd]
        simp only [be_window, Nat.add_zero]
        ring
    · have hz : renorm_count 56 d.range = 0 := renorm_count_zero 56 _ (by omega)
      refine ⟨d, ?_, ?_, ?_, ?_⟩
      · simp only [recip_arith64_decoder_renorm_loop]
        rw [if_neg]
        simpa using hlt
      · simp [hz]
      · simp [hz]
      · simp [hz, be_window]

theorem decoder64_renorm_spec (buf : Nat → Nat) (d : recip_arith64_decoder)
    (h0 : 0 < d.range) (hc : d.code < d.range) (h64 : d.range < 2 ^ 64) :
    ∃ d', recip_arith64_decoder_renorm buf d = some d' ∧
      d'.range = d.range * 256 ^ renorm_count 56 d.range ∧
      d'.ptr = d.ptr + renorm_count 56 d.range ∧
      d'.code = d.code * 256 ^ renorm_count 56 d.range +
        be_window buf d.ptr (renorm_count 56 d.range) := by
  have := renorm_count_le 56 d.range h0
  exact decoder64_renorm_loop_spec buf 8 d h0 hc h64 (by omega)

theorem decoder64_start_spec (buf : Nat → Nat) :
    (recip_arith64_decoder_start buf 0).code = be_window buf 0 8 ∧
    (recip_arith64_decoder_start buf 0).range = (2 ^ 32 - 1) * 2 ^ 32 ∧
    (recip_arith64_decoder_start buf 0).ptr = 8 := by
  have b0 := Nat.mod_lt (buf 0) (by norm_num : 0 < 256)
  have b1 := Nat.mod_lt (buf 1) (by norm_num : 0 < 256)
  have b2 := Nat.mod_lt (buf 2) (by norm_num : 0 < 256)
  have b3 := Nat.mod_lt (buf 3) (by norm_num : 0 < 256)
  have b4 := Nat.mod_lt (buf 4) (by norm_num : 0 < 256)
  have b5 := Nat.mod_lt (buf 5) (by norm_num : 0 < 256)
  have b6 := Nat.mod_lt (buf 6) (by norm_num : 0 < 256)
  have b7 := Nat.mod_lt (buf 7) (by norm_num : 0 < 256)
  refine ⟨?_, ?_, rfl⟩
  swap
  · simp only [recip_arith64_decoder_start, Nat.shiftLeft_eq]; norm_num
  simp only [recip_arith64_decoder_start, Nat.zero_add]
  rw [shift_in_byte_eq 64 (buf 0 % 256) _ (by omega)]
  rw [shift_in_byte_eq 64 (buf 0 % 256 * 256 + buf 1 % 256) _ (by omega)]
  rw [shift_in_byte_eq 64 (_ * 256 + buf 2 % 256) _ (by omega)]
  rw [shift_in_byte_eq 64 (_ * 256 + buf 3 % 256) _ (by omega)]
  rw [shift_in_byte_eq 64 (_ * 256 + buf 4 % 256) _ (by omega)]
  rw [shift_in_byte_eq 64 (_ * 256 + buf 5 % 256) _ (by omega)]
  rw [shift_in_byte_eq 64 (_ * 256 + buf 6 % 256) _ (by omega)]
  simp only [be_window, Nat.zero_add, Nat.zero_mul, Nat.add_zero]



theorem recip_put_core (c : Nat) (hc : c ≤ 16) :
    ∀ (ac : recip_arith_encoder) (lo fr : Nat), 2 ^ 24 ≤ ac.range → ac.range < 2 ^ 32 →
      recip_arith_encoder_put ac lo fr c =
        put_core ac lo fr ((fun range => recip_r_norm range c) ac.range) := by
  intro ac lo fr h24 h32
  have := size_ge_of_le _ _ h24
  exact encoder_put_eq ac lo fr c h32 (by omega)

theorem recip_rn_ok (c : Nat) (hc : c ≤ 16) :
    ∀ range, 2 ^ 24 ≤ range → range < 2 ^ 32 →
      0 < (fun range => recip_r_norm range c) range ∧
        (fun range => recip_r_norm range c) range * 2 ^ c ≤ range := by
  intro range h24 h32
  have := size_ge_of_le _ _ h24
  obtain ⟨r1, r2, -⟩ := recip_r_norm_bounds range c (by omega)
  exact ⟨r1, r2⟩

theorem slice64 (A lo fr r W4 t4 L r64 P Wp ta : Nat)
    (hAlo : A + lo * r ≤ W4) (hAhi : W4 < A + (lo + fr) * r) (ht4 : t4 < 2 ^ 32) (hta : ta < P)
    (hL : L * P = A * 2 ^ 32) (hr : r64 * P = r * 2 ^ 32)
    (hW : Wp * P + ta = W4 * 2 ^ 32 + t4) :
    L + lo * r64 ≤ Wp ∧ Wp < L + (lo + fr) * r64 := by
  have e1 : (L + lo * r64) * P = (A + lo * r) * 2 ^ 32 := by
    calc (L + lo * r64) * P = L * P + lo * (r64 * P) := by ring
      _ = (A + lo * r) * 2 ^ 32 := by rw [hL, hr]; ring
  have e2 : (L + (lo + fr) * r64) * P = (A + (lo + fr) * r) * 2 ^ 32 := by
    calc (L + (lo + fr) * r64) * P = L * P + (lo + fr) * (r64 * P) := by ring
      _ = (A + (lo + fr) * r) * 2 ^ 32 := by rw [hL, hr]; ring
  have e3 : (A + lo * r) * 2 ^ 32 ≤ W4 * 2 ^ 32 := Nat.mul_le_mul_right _ hAlo
  have e4 : (W4 + 1) * 2 ^ 32 ≤ (A + (lo + fr) * r) * 2 ^ 32 := Nat.mul_le_mul_right _ hAhi
  apply scaled_between _ _ _ ta P hta
  · rw [e1, hW]; omega
  · rw [e2, hW]; omega

theorem decode64_symbol_spec (c : Nat) (hist : List Nat) (lookup : Nat → Nat) (buf : Nat → Nat)
    (hc : c ≤ 16) (s : Nat) (rest : List Nat)
    (hs : 0 < cdf hist (s + 1) - cdf hist s ∧ cdf hist (s + 1) ≤ 2 ^ c)
    (hvr : ∀ x ∈ rest, 0 < cdf hist (x + 1) - cdf hist x ∧ cdf hist (x + 1) ≤ 2 ^ c)
    (hlk : ∀ t, cdf hist s ≤ t → t < cdf hist (s + 1) → lookup t = s)
    (ac acN fin : recip_arith_encoder) (hinv : EncInv ac) (h24 : 2 ^ 24 ≤ ac.range)
    (henc : encode_symbols recip_arith_encoder_put hist c ac (s :: rest) = some acN)
    (hfin : recip_arith_encoder_finish acN = some fin)
    (hbuf : StartsWith buf fin.written.reverse)
    (D : recip_arith64_decoder) (a L : Nat) (hrel : Rel64 buf ac D a L)
    (h64 : D.range < 2 ^ 64) (hsz : c + 8 ≤ Nat.size D.range) :
    ∃ ac2 D' a' L', encode_symbols recip_arith_encoder_put hist c ac2 rest = some acN ∧
      EncInv ac2 ∧ 2 ^ 24 ≤ ac2.range ∧
      decode64_symbol recip_arith_table lookup hist c D = some (s, D') ∧
      Rel64 buf ac2 D' a' L' ∧ D'.range < 2 ^ 64 ∧
      Nat.size D.range ≤ Nat.size D'.range + c ∧ 0 < D'.range ∧ D'.code < D'.range := by
  obtain ⟨hs1, hs2⟩ := hs
  obtain ⟨ac1, ac2, e1, e2, e3, e4, e5, e6, e7, e8, e9⟩ := encoder_step_spec
    recip_arith_encoder_put (fun range => recip_r_norm range c) c (recip_put_core c hc)
    (recip_rn_ok c hc) ac (cdf hist s) (cdf hist (s + 1) - cdf hist s) hinv h24 hs1 (by omega)
  simp only [encode_symbols, e1, e2, Option.bind_some, Option.some_bind] at henc
  obtain ⟨i1, i2⟩ := encode_interval recip_arith_encoder_put (fun range => recip_r_norm range c) c
    hist (recip_put_core c hc) (recip_rn_ok c hc) rest hvr ac2 acN fin e3 e4 henc hfin buf hbuf
  rw [e7, e6] at i1
  rw [e7, e6, e5] at i2
  set r := recip_r_norm ac.range c with hr
  set lo := cdf hist s with hlo
  set fr := cdf hist (s + 1) - cdf hist s with hfr
  set j := renorm_count 24 (fr * r) with hj
  have hadd := be_window_add buf 0 (ac.written.length + 4) j
  have hlt := be_window_lt buf (0 + (ac.written.length + 4)) j
  have hlen : ac.written.length + j + 4 = ac.written.length + 4 + j := by omega
  rw [hlen, hadd] at i1 i2
  have i2' : be_window buf 0 (ac.written.length + 4) * 256 ^ j +
      be_window buf (0 + (ac.written.length + 4)) j < (abs_low ac + (lo + fr) * r) * 256 ^ j := by
    have : (abs_low ac + (lo + fr) * r) * 256 ^ j
        = (abs_low ac + lo * r) * 256 ^ j + fr * r * 256 ^ j := by ring
    rw [this]; exact i2
  obtain ⟨b1, b2⟩ := scaled_between _ _ _ _ _ hlt i1 i2'
  -- the 64-bit decoder's scale
  obtain ⟨q1, q2, q3, q4⟩ := hrel
  have hsa := size_ge_of_le _ _ h24
  set r64 := recip_r_norm D.range c with hr64
  have hscale : r64 * 256 ^ a = r * 2 ^ 32 :=
    recip_r_norm_scale D.range ac.range a c hsz (by omega) q2
  obtain ⟨n1, n2, n3, n4⟩ := recip_r_norm_bounds D.range c hsz
  rw [← hr64] at n1 n2 n3 n4
  have w1 := be_window_add buf 0 (ac.written.length + 4) 4
  have w2 := be_window_lt buf (0 + (ac.written.length + 4)) 4
  have w3 := be_window_add buf 0 D.ptr a
  have w4 := be_window_lt buf (0 + D.ptr) a
  rw [q1, show ac.written.length + 8 = ac.written.length + 4 + 4 by omega, w1] at w3
  obtain ⟨c1, c2⟩ := slice64 (abs_low ac) lo fr r (be_window buf 0 (ac.written.length + 4))
    (be_window buf (0 + (ac.written.length + 4)) 4) L r64 (256 ^ a) (be_window buf 0 D.ptr)
    (be_window buf (0 + D.ptr) a) b1 b2 (by norm_num at w2 ⊢; exact w2) w4 q3 hscale
    (by rw [← w3]; norm_num)
  rw [← q4] at c1 c2
  have hle64 : (lo + fr) * r64 ≤ D.range := by
    have h1 : lo + fr ≤ 2 ^ c := by omega
    calc (lo + fr) * r64 ≤ 2 ^ c * r64 := Nat.mul_le_mul_right _ h1
      _ = r64 * 2 ^ c := Nat.mul_comm _ _
      _ ≤ D.range := n2
  have e10 : (lo + fr) * r64 = lo * r64 + fr * r64 := by ring
  have d1 : lo * r64 ≤ D.code := by omega
  have d2 : D.code < (lo + fr) * r64 := by omega
  have hdc : D.code < D.range := by omega
  have t1 : lo ≤ D.code / r64 := (Nat.le_div_iff_mul_le n1).mpr d1
  have t2 : D.code / r64 < lo + fr := (Nat.div_lt_iff_lt_mul n1).mpr d2
  have hsym : lookup (D.code / r64) = s := hlk _ t1 (by omega)
  have hpk := decoder64_peek_eq D c h64 hsz hc hdc
  rw [← hr64] at hpk
  have hlor : lo * r64 < 2 ^ 64 := by omega
  have hfrr : fr * r64 < 2 ^ 64 := by omega
  have hrem : recip_arith64_decoder_remove { D with range := r64 } lo fr =
      ⟨D.code - lo * r64, fr * r64, D.ptr⟩ := by
    simp only [recip_arith64_decoder_remove, Nat.mod_eq_of_lt hlor, Nat.mod_eq_of_lt hfrr]
    congr 1
    omega
  have hfpos : 0 < fr * r64 := Nat.mul_pos hs1 n1
  refine ⟨ac2, ⟨D.code - lo * r64, fr * r64, D.ptr⟩, a + j, L + lo * r64, henc, e3, e4, ?_,
    ⟨?_, ?_, ?_, ?_⟩, hfrr, ?_, hfpos, ?_⟩
  · simp only [decode64_symbol, hpk, Option.map_some', hsym, ← hlo, ← hfr, hrem]
  · simp only []; rw [e7]; omega
  · simp only []
    rw [e5, pow_add]
    calc fr * r64 * (256 ^ a * 256 ^ j) = fr * (r64 * 256 ^ a) * 256 ^ j := by ring
      _ = fr * r * 256 ^ j * 2 ^ 32 := by rw [hscale]; ring
  · rw [e6, pow_add]
    calc (L + lo * r64) * (256 ^ a * 256 ^ j)
        = (L * 256 ^ a + lo * (r64 * 256 ^ a)) * 256 ^ j := by ring
      _ = (abs_low ac + lo * r) * 256 ^ j * 2 ^ 32 := by rw [q3, hscale]; ring
  · simp only []; omega
  · simp only []
    have hge : 2 ^ (Nat.size D.range - 1 - c) ≤ fr * r64 := by
      calc 2 ^ (Nat.size D.range - 1 - c) ≤ r64 := n4
        _ = 1 * r64 := (Nat.one_mul _).symm
        _ ≤ fr * r64 := Nat.mul_le_mul_right _ hs1
    have := Nat.lt_size.mpr hge
    omega
  · simp only []; omega

theorem decoder64_sync (buf : Nat → Nat) (ac : recip_arith_encoder) (D : recip_arith64_decoder)
    (a L : Nat) (hrel : Rel64 buf ac D a L) (h24 : 2 ^ 24 ≤ ac.range) (h32 : ac.range < 2 ^ 32)
    (h0 : 0 < D.range) (hcode : D.code < D.range) (h64 : D.range < 2 ^ 64) :
    ∃ D', recip_arith64_decoder_renorm buf D = some D' ∧
      Rel64 buf ac D' 0 (abs_low ac * 2 ^ 32) ∧ 2 ^ 56 ≤ D'.range ∧ D'.range < 2 ^ 64 := by
  obtain ⟨q1, q2, q3, q4⟩ := hrel
  have hcount : renorm_count 56 D.range = a := by
    have s1 : Nat.size (D.range * 256 ^ a) = Nat.size D.range + 8 * a := by
      rw [pow_256]; exact size_mul_two_pow _ _ h0
    have s2 : Nat.size (ac.range * 2 ^ 32) = Nat.size ac.range + 32 :=
      size_mul_two_pow _ _ (by omega)
    rw [q2, s2] at s1
    have s3 := size_ge_of_le _ _ h24
    have s4 : Nat.size ac.range ≤ 32 := Nat.size_le.mpr h32
    unfold renorm_count
    omega
  obtain ⟨D', r1, r2, r3, r4⟩ := decoder64_renorm_spec buf D h0 hcode h64
  rw [hcount] at r2 r3 r4
  refine ⟨D', r1, ⟨?_, ?_, ?_, ?_⟩, ?_, ?_⟩
  · omega
  · rw [r2, q2]; simp
  · simp
  · have w := be_window_add buf 0 D.ptr a
    rw [r3, w, r4, ← q4, ← q3, Nat.zero_add]
    ring
  · rw [r2, q2]; omega
  · rw [r2, q2]; omega



theorem decode64_singles_spec (c : Nat) (hist : List Nat) (lookup : Nat → Nat) (buf : Nat → Nat)
    (hc : c ≤ 16) (back : List Nat)
    (hv : ∀ x ∈ back, 0 < cdf hist (x + 1) - cdf hist x ∧ cdf hist (x + 1) ≤ 2 ^ c)
    (hlk : ∀ s ∈ back, ∀ t, cdf hist s ≤ t → t < cdf hist (s + 1) → lookup t = s)
    (ac acN fin : recip_arith_encoder) (hinv : EncInv ac) (h24 : 2 ^ 24 ≤ ac.range)
    (henc : encode_symbols recip_arith_encoder_put hist c ac back = some acN)
    (hfin : recip_arith_encoder_finish acN = some fin)
    (hbuf : StartsWith buf fin.written.reverse)
    (D : recip_arith64_decoder) (hrel : Rel64 buf ac D 0 (abs_low ac * 2 ^ 32))
    (h56 : 2 ^ 56 ≤ D.range) (h64 : D.range < 2 ^ 64) :
    ∃ D', decode64_singles recip_arith_table lookup buf hist c back.length D = some (back, D') ∧
      D'.ptr = acN.written.length + 8 := by
  induction back generalizing ac D with
  | nil =>
    simp only [encode_symbols, Option.some.injEq] at henc
    subst henc
    refine ⟨D, rfl, ?_⟩
    have := hrel.1
    omega
  | cons s rest ih =>
    have hsz := size_ge_of_le _ _ h56
    obtain ⟨ac2, D1, a1, L1, k1, k2, k3, k4, k5, k6, k7, k8, k9⟩ := decode64_symbol_spec c hist
      lookup buf hc s rest (hv s (by simp)) (fun x hx => hv x (by simp [hx]))
      (hlk s (by simp)) ac acN fin hinv h24 henc hfin hbuf D 0 _ hrel h64 (by omega)
    obtain ⟨D2, m1, m2, m3, m4⟩ := decoder64_sync buf ac2 D1 a1 L1 k5 k3 k2.2.1 k8 k9 k6
    obtain ⟨D', n1, n2⟩ := ih (fun x hx => hv x (by simp [hx]))
      (fun x hx => hlk x (by simp [hx])) ac2 k2 k3 k1 D2 m2 m3 m4
    refine ⟨D', ?_, n2⟩
    simp only [List.length_cons, decode64_singles, k4, Option.some_bind, m1, n1, Option.map_some']

theorem decode64_triples_spec (c : Nat) (hist : List Nat) (lookup : Nat → Nat) (buf : Nat → Nat)
    (hc : c ≤ 16) (q : Nat) (front back : List Nat) (hlen : front.length = 3 * q)
    (hv : ∀ x ∈ front ++ back, 0 < cdf hist (x + 1) - cdf hist x ∧ cdf hist (x + 1) ≤ 2 ^ c)
    (hlk : ∀ s ∈ front ++ back, ∀ t, cdf hist s ≤ t → t < cdf hist (s + 1) → lookup t = s)
    (ac acN fin : recip_arith_encoder) (hinv : EncInv ac) (h24 : 2 ^ 24 ≤ ac.range)
    (henc : encode_symbols recip_arith_encoder_put hist c ac (front ++ back) = some acN)
    (hfin : recip_arith_encoder_finish acN = some fin)
    (hbuf : StartsWith buf fin.written.reverse)
    (D : recip_arith64_decoder) (hrel : Rel64 buf ac D 0 (abs_low ac * 2 ^ 32))
    (h56 : 2 ^ 56 ≤ D.range) (h64 : D.range < 2 ^ 64) :
    ∃ ac' D', decode64_triples recip_arith_table lookup buf hist c q D = some (front, D') ∧
      encode_symbols recip_arith_encoder_put hist c ac' back = some acN ∧
      EncInv ac' ∧ 2 ^ 24 ≤ ac'.range ∧ Rel64 buf ac' D' 0 (abs_low ac' * 2 ^ 32) ∧
      2 ^ 56 ≤ D'.range ∧ D'.range < 2 ^ 64 := by
  induction q generalizing front ac D with
  | zero =>
    have : front = [] := List.length_eq_zero.mp (by omega)
    subst this
    exact ⟨ac, D, rfl, henc, hinv, h24, hrel, h56, h64⟩
  | succ q ih =>
    match front, hlen with
    | s0 :: s1 :: s2 :: rest, hlen =>
      have hlen' : rest.length = 3 * q := by simp only [List.length_cons] at hlen; omega
      have hsz := size_ge_of_le _ _ h56
      simp only [List.cons_append] at henc hv hlk
      have v0 := hv s0 (by simp)
      have v1 := hv s1 (by simp)
      have v2 := hv s2 (by simp)
      have vr : ∀ x ∈ rest ++ back,
          0 < cdf hist (x + 1) - cdf hist x ∧ cdf hist (x + 1) ≤ 2 ^ c :=
        fun x hx => hv x (by simp only [List.mem_cons]; right; right; right; exact hx)
      have lr : ∀ s ∈ rest ++ back, ∀ t, cdf hist s ≤ t → t < cdf hist (s + 1) → lookup t = s :=
        fun x hx => hlk x (by simp only [List.mem_cons]; right; right; right; exact hx)
      have v12r : ∀ x ∈ s1 :: s2 :: (rest ++ back),
          0 < cdf hist (x + 1) - cdf hist x ∧ cdf hist (x + 1) ≤ 2 ^ c :=
        fun x hx => hv x (by simp only [List.mem_cons] at hx ⊢; right; exact hx)
      have v2r : ∀ x ∈ s2 :: (rest ++ back),
          0 < cdf hist (x + 1) - cdf hist x ∧ cdf hist (x + 1) ≤ 2 ^ c :=
        fun x hx => hv x (by simp only [List.mem_cons] at hx ⊢; right; right; exact hx)
      obtain ⟨ac1, D1, a1, L1, k1, k2, k3, k4, k5, k6, k7, k8, k9⟩ := decode64_symbol_spec c hist
        lookup buf hc s0 _ v0 v12r (hlk s0 (by simp)) ac acN fin hinv h24 henc hfin hbuf D 0 _
        hrel h64 (by omega)
      obtain ⟨ac2, D2, a2, L2, l1, l2, l3, l4, l5, l6, l7, l8, l9⟩ := decode64_symbol_spec c hist
        lookup buf hc s1 _ v1 v2r (hlk s1 (by simp)) ac1 acN fin k2 k3 k1 hfin hbuf D1 a1 L1
        k5 k6 (by omega)
      obtain ⟨ac3, D3, a3, L3, m1, m2, m3, m4, m5, m6, m7, m8, m9⟩ := decode64_symbol_spec c hist
        lookup buf hc s2 _ v2 vr (hlk s2 (by simp)) ac2 acN fin l2 l3 l1 hfin hbuf D2 a2 L2
        l5 l6 (by omega)
      obtain ⟨D4, n1, n2, n3, n4⟩ := decoder64_sync buf ac3 D3 a3 L3 m5 m3 m2.2.1 m8 m9 m6
      obtain ⟨ac', D', p1, p2, p3, p4, p5, p6, p7⟩ := ih rest hlen' vr lr ac3 m2 m3 m1 D4 n2 n3 n4
      refine ⟨ac', D', ?_, p2, p3, p4, p5, p6, p7⟩
      simp only [decode64_triples, k4, l4, m4, Option.some_bind, n1, p1, Option.map_some']

/-- The 64-bit decoder block decodes the output of the reciprocal encoder, `cdf_bits ≤ 16`. -/
theorem decode64_roundtrip (hist syms : List Nat) (c : Nat) (lookup : Nat → Nat) (hc : c ≤ 16)
    (hv : ∀ s ∈ syms, 0 < cdf hist (s + 1) - cdf hist s ∧ cdf hist (s + 1) ≤ 2 ^ c)
    (hlookup : ∀ s ∈ syms, ∀ t, cdf hist s ≤ t → t < cdf hist (s + 1) → lookup t = s) :
    ∃ out, encode_with recip_arith_encoder_put hist c syms = some out ∧
      ∀ buf, StartsWith buf out →
        ∃ dN, decode64_with recip_arith_table lookup buf hist c syms.length = some (syms, dN) := by
  obtain ⟨hinv, h24⟩ := encoder_start_inv
  obtain ⟨acN, e1, e2, e3⟩ := encode_symbols_spec recip_arith_encoder_put
    (fun range => recip_r_norm range c) c hist (recip_put_core c hc) (recip_rn_ok c hc) syms hv
    recip_arith_encoder_start hinv h24
  obtain ⟨fin, f1, f2, f3⟩ := encoder_finish_spec acN e2 e3
  refine ⟨fin.written.reverse, ?_, ?_⟩
  · simp [encode_with, e1, f1]
  · intro buf hbuf
    obtain ⟨s1, s2, s3⟩ := decoder64_start_spec buf
    have hsplit : syms.take (3 * (syms.length / 3)) ++ syms.drop (3 * (syms.length / 3)) = syms :=
      List.take_append_drop _ _
    have hl1 : (syms.take (3 * (syms.length / 3))).length = 3 * (syms.length / 3) := by
      rw [List.length_take]; omega
    have hl2 : (syms.drop (3 * (syms.length / 3))).length = syms.length % 3 := by
      rw [List.length_drop]; omega
    have hrel : Rel64 buf recip_arith_encoder_start (recip_arith64_decoder_start buf 0) 0
        (abs_low recip_arith_encoder_start * 2 ^ 32) := by
      refine ⟨?_, ?_, ?_, ?_⟩
      · rw [s3]; simp [recip_arith_encoder_start]
      · rw [s2]; simp [recip_arith_encoder_start]
      · simp
      · rw [s1, s3]; simp [recip_arith_encoder_start, abs_low, be_value]
    obtain ⟨ac', D', p1, p2, p3, p4, p5, p6, p7⟩ := decode64_triples_spec c hist lookup buf hc
      (syms.length / 3) (syms.take (3 * (syms.length / 3))) (syms.drop (3 * (syms.length / 3)))
      hl1 (by rw [hsplit]; exact hv) (by rw [hsplit]; exact hlookup)
      recip_arith_encoder_start acN fin hinv h24 (by rw [hsplit]; exact e1) f1 hbuf
      (recip_arith64_decoder_start buf 0) hrel (by rw [s2]; norm_num) (by rw [s2]; norm_num)
    obtain ⟨D'', q1, q2⟩ := decode64_singles_spec c hist lookup buf hc
      (syms.drop (3 * (syms.length / 3)))
      (fun x hx => hv x (List.mem_of_mem_drop hx))
      (fun x hx => hlookup x (List.mem_of_mem_drop hx)) ac' acN fin p3 p4 p2 f1 hbuf D' p5 p6 p7
    rw [hl2] at q1
    refine ⟨D'', ?_⟩
    simp only [decode64_with, p1, Option.some_bind, q1, Option.map_some', hsplit]


/-! ## Reciprocal against reference: stored lengths -/


theorem rangecoder_put_core (c : Nat) (hc : c ≤ 24) :
    ∀ (ac : recip_arith_encoder) (lo fr : Nat), 2 ^ 24 ≤ ac.range → ac.range < 2 ^ 32 →
      recip_arith_encoder_put_rangecoder ac lo fr c =
        put_core ac lo fr ((fun range => range / 2 ^ c) ac.range) := by
  intro ac lo fr _ _
  exact encoder_put_rangecoder_eq ac lo fr c (by omega)

theorem rangecoder_rn_ok (c : Nat) (hc : c ≤ 24) :
    ∀ range, 2 ^ 24 ≤ range → range < 2 ^ 32 →
      0 < (fun range => range / 2 ^ c) range ∧ (fun range => range / 2 ^ c) range * 2 ^ c ≤ range := by
  intro range h24 _
  have hpc : 2 ^ c ≤ 2 ^ 24 := Nat.pow_le_pow_right (by norm_num) hc
  exact ⟨Nat.div_pos (by omega) (Nat.pow_pos (by norm_num)), Nat.div_mul_le_self _ _⟩

/-- The reciprocal `r_norm` is at most the reference `r_norm`, also across a byte scale. -/
theorem r_norm_compare (x y d c : Nat) (hc : c ≤ 16) (hx24 : 2 ^ 24 ≤ x) (hx32 : x < 2 ^ 32)
    (hy24 : 2 ^ 24 ≤ y) (h : x ≤ y * 256 ^ d) : recip_r_norm x c ≤ (y / 2 ^ c) * 256 ^ d := by
  have hsx := size_ge_of_le _ _ hx24
  have hsx32 : Nat.size x ≤ 32 := Nat.size_le.mpr hx32
  obtain ⟨r1, r2, r3, r4⟩ := recip_r_norm_bounds x c (by omega)
  have hp : 0 < 2 ^ c := Nat.pow_pos (by norm_num)
  cases d with
  | zero =>
    simp only [pow_zero, Nat.mul_one] at h ⊢
    exact (Nat.le_div_iff_mul_le hp).mpr (le_trans r2 h)
  | succ d =>
    have h1 : 2 ^ (24 - c) ≤ y / 2 ^ c := by
      rw [Nat.le_div_iff_mul_le hp, ← pow_add, show 24 - c + c = 24 by omega]
      exact hy24
    have h2 : 2 ^ (Nat.size x - c) ≤ 2 ^ (24 - c) * 256 := by
      rw [show (256 : Nat) = 2 ^ 8 by norm_num, ← pow_add]
      exact Nat.pow_le_pow_right (by norm_num) (by omega)
    have h3 : 1 ≤ 256 ^ d := Nat.pow_pos (by norm_num)
    calc recip_r_norm x c ≤ 2 ^ (Nat.size x - c) := le_of_lt r3
      _ ≤ 2 ^ (24 - c) * 256 := h2
      _ ≤ (y / 2 ^ c) * 256 := Nat.mul_le_mul_right _ h1
      _ = (y / 2 ^ c) * (256 * 1) := by ring
      _ ≤ (y / 2 ^ c) * (256 * 256 ^ d) :=
          Nat.mul_le_mul_left _ (Nat.mul_le_mul_left _ h3)
      _ = (y / 2 ^ c) * 256 ^ (d + 1) := by rw [pow_succ]; ring

theorem renorm_compare (Ra Rb d ja jb : Nat) (h : Ra ≤ Rb * 256 ^ d)
    (ha : 2 ^ 24 ≤ Ra * 256 ^ ja) (hb : Rb * 256 ^ jb < 2 ^ 32) :
    jb ≤ d + ja ∧ Ra * 256 ^ ja ≤ Rb * 256 ^ jb * 256 ^ (d + ja - jb) := by
  have hle : jb ≤ d + ja := by
    by_contra hcon
    push_neg at hcon
    have e : jb = d + ja + 1 + (jb - (d + ja + 1)) := by omega
    have h1 : 1 ≤ 256 ^ (jb - (d + ja + 1)) := Nat.pow_pos (by norm_num)
    have h2 : Ra * 256 ^ ja * 256 ≤ Rb * 256 ^ jb := by
      calc Ra * 256 ^ ja * 256 ≤ Rb * 256 ^ d * 256 ^ ja * 256 :=
            Nat.mul_le_mul_right _ (Nat.mul_le_mul_right _ h)
        _ = Rb * 256 ^ (d + ja + 1) * 1 := by rw [pow_succ, pow_add]; ring
        _ ≤ Rb * 256 ^ (d + ja + 1) * 256 ^ (jb - (d + ja + 1)) := Nat.mul_le_mul_left _ h1
        _ = Rb * 256 ^ jb := by rw [Nat.mul_assoc, ← pow_add, ← e]
    omega
  refine ⟨hle, ?_⟩
  calc Ra * 256 ^ ja ≤ Rb * 256 ^ d * 256 ^ ja := Nat.mul_le_mul_right _ h
    _ = Rb * 256 ^ (jb + (d + ja - jb)) := by
        rw [show jb + (d + ja - jb) = d + ja by omega, pow_add]; ring
    _ = Rb * 256 ^ jb * 256 ^ (d + ja - jb) := by rw [pow_add]; ring

/-- Along the same symbols the reciprocal encoder has stored at least as many bytes as the
reference encoder, and its range is at most the reference range at the common scale. -/
theorem encode_symbols_compare (hist : List Nat) (c : Nat) (hc : c ≤ 16) (syms : List Nat)
    (hv : ∀ s ∈ syms, 0 < cdf hist (s + 1) - cdf hist s ∧ cdf hist (s + 1) ≤ 2 ^ c)
    (a b : recip_arith_encoder) (ha : EncInv a) (hb : EncInv b)
    (ha24 : 2 ^ 24 ≤ a.range) (hb24 : 2 ^ 24 ≤ b.range) (d : Nat)
    (hd : a.written.length = b.written.length + d) (hr : a.range ≤ b.range * 256 ^ d) :
    ∃ aN bN d', encode_symbols recip_arith_encoder_put hist c a syms = some aN ∧
      encode_symbols recip_arith_encoder_put_rangecoder hist c b syms = some bN ∧
      EncInv aN ∧ EncInv bN ∧ 2 ^ 24 ≤ aN.range ∧ 2 ^ 24 ≤ bN.range ∧
      aN.written.length = bN.written.length + d' ∧ aN.range ≤ bN.range * 256 ^ d' := by
  induction syms generalizing a b d with
  | nil => exact ⟨a, b, d, rfl, rfl, ha, hb, ha24, hb24, hd, hr⟩
  | cons s rest ih =>
    obtain ⟨hs1, hs2⟩ := hv s (by simp)
    obtain ⟨a1, a2, e1, e2, e3, e4, e5, e6, e7, e8, e9⟩ := encoder_step_spec
      recip_arith_encoder_put (fun range => recip_r_norm range c) c (recip_put_core c hc)
      (recip_rn_ok c hc) a (cdf hist s) (cdf hist (s + 1) - cdf hist s) ha ha24 hs1 (by omega)
    obtain ⟨b1, b2, f1, f2, f3, f4, f5, f6, f7, f8, f9⟩ := encoder_step_spec
      recip_arith_encoder_put_rangecoder (fun range => range / 2 ^ c) c
      (rangecoder_put_core c (by omega)) (rangecoder_rn_ok c (by omega)) b (cdf hist s)
      (cdf hist (s + 1) - cdf hist s) hb hb24 hs1 (by omega)
    have hcmp := r_norm_compare a.range b.range d c hc ha24 ha.2.1 hb24 hr
    set fr := cdf hist (s + 1) - cdf hist s with hfr
    have hR : fr * recip_r_norm a.range c ≤ fr * (b.range / 2 ^ c) * 256 ^ d := by
      rw [Nat.mul_assoc]; exact Nat.mul_le_mul_left _ hcmp
    obtain ⟨g1, g2⟩ := renorm_compare _ _ d _ _ hR (by rw [← e5]; exact e4)
      (by rw [← f5]; exact f3.2.1)
    obtain ⟨aN, bN, d', k1, k2, k3⟩ := ih (fun x hx => hv x (by simp [hx])) a2 b2 e3 f3 e4 f4
      (d + renorm_count 24 (fr * recip_r_norm a.range c) -
        renorm_count 24 (fr * (b.range / 2 ^ c)))
      (by rw [e7, f7, hd]; omega) (by rw [e5, f5]; exact g2)
    refine ⟨aN, bN, d', ?_, ?_, k3⟩
    · simp only [encode_symbols, ← hfr, e1, e2, Option.some_bind]; exact k1
    · simp only [encode_symbols, ← hfr, f1, f2, Option.some_bind]; exact k2

theorem encode_lengths_compare (hist syms : List Nat) (c : Nat) (hc : c ≤ 16)
    (hv : ∀ s ∈ syms, 0 < cdf hist (s + 1) - cdf hist s ∧ cdf hist (s + 1) ≤ 2 ^ c) :
    ∃ out_recip out_ref, encode_with recip_arith_encoder_put hist c syms = some out_recip ∧
      encode_with recip_arith_encoder_put_rangecoder hist c syms = some out_ref ∧
      out_ref.length ≤ out_recip.length := by
  obtain ⟨hinv, h24⟩ := encoder_start_inv
  obtain ⟨aN, bN, d, k1, k2, k3, k4, k5, k6, k7, k8⟩ := encode_symbols_compare hist c hc syms hv
    recip_arith_encoder_start recip_arith_encoder_start hinv hinv h24 h24 0 (by simp) (by simp)
  obtain ⟨fa, a1, a2, a3⟩ := encoder_finish_spec aN k3 k5
  obtain ⟨fb, b1, b2, b3⟩ := encoder_finish_spec bN k4 k6
  refine ⟨fa.written.reverse, fb.written.reverse, by simp [encode_with, k1, a1],
    by simp [encode_with, k2, b1], ?_⟩
  rw [List.length_reverse, List.length_reverse]
  cases d with
  | zero =>
    simp only [pow_zero, Nat.mul_one] at k8
    rcases a3 with ⟨x1, x2, -⟩ | ⟨x1, x2, -⟩ <;> rcases b3 with ⟨y1, y2, -⟩ | ⟨y1, y2, -⟩ <;> omega
  | succ d =>
    rcases a3 with ⟨x1, x2, -⟩ | ⟨x1, x2, -⟩ <;> rcases b3 with ⟨y1, y2, -⟩ | ⟨y1, y2, -⟩ <;> omega


/-! ## Ceiling of the reciprocal; the carry walk -/


theorem ceil_recip (i : Nat) (h1 : 0 < i) :
    ⌈((2 : ℚ) ^ 32) / (i : ℚ)⌉₊ = (2 ^ 32 + i - 1) / i := by
  set m := (2 ^ 32 + i - 1) / i with hm
  have hm1 : 2 ^ 32 ≤ m * i := by
    have := Nat.lt_div_mul_add (a := 2 ^ 32 + i - 1) h1
    rw [← hm] at this
    omega
  have hm2 : m * i < 2 ^ 32 + i := by
    have := Nat.div_mul_le_self (2 ^ 32 + i - 1) i
    rw [← hm] at this
    omega
  have hm0 : m ≠ 0 := by
    intro h0
    rw [h0] at hm1
    omega
  have hiq : (0 : ℚ) < (i : ℚ) := by exact_mod_cast h1
  rw [Nat.ceil_eq_iff hm0]
  constructor
  · rw [lt_div_iff₀ hiq]
    have h3 : (m - 1) * i < 2 ^ 32 := by
      have : (m - 1) * i + i = m * i := by
        have hm1' : 1 ≤ m := Nat.one_le_iff_ne_zero.mpr hm0
        calc (m - 1) * i + i = (m - 1 + 1) * i := by ring
          _ = m * i := by rw [Nat.sub_add_cancel hm1']
      omega
    exact_mod_cast h3
  · rw [div_le_iff₀ hiq]
    exact_mod_cast hm1

theorem carry_bytes_some (w : List Nat) (h : ∃ b ∈ w, (b + 1) % 256 ≠ 0) :
    ∃ w', recip_arith_encoder_carry_bytes w = some w' ∧ w'.length = w.length := by
  induction w with
  | nil => simp at h
  | cons b rest ih =>
    unfold recip_arith_encoder_carry_bytes
    by_cases hb : (b + 1) % 256 = 0
    · obtain ⟨x, hx, hx2⟩ := h
      simp only [List.mem_cons] at hx
      rcases hx with hx | hx
      · subst hx; exact absurd hb hx2
      · obtain ⟨w', e1, e2⟩ := ih ⟨x, hx, hx2⟩
        exact ⟨(b + 1) % 256 :: w', by simp [hb, e1], by simp [e2]⟩
    · exact ⟨(b + 1) % 256 :: rest, by simp [hb], by simp⟩

theorem exists_non_ff (w : List Nat) (hb : ∀ b ∈ w, b < 256)
    (hv : be_value w + 1 < 256 ^ w.length) : ∃ b ∈ w, b ≠ 255 := by
  induction w with
  | nil => simp [be_value] at hv
  | cons b rest ih =>
    by_cases h : b = 255
    · have hrest : ∀ x ∈ rest, x < 256 := fun x hx => hb x (by simp [hx])
      simp only [be_value, List.length_cons, pow_succ] at hv
      obtain ⟨x, hx, hx2⟩ := ih hrest (by omega)
      exact ⟨x, by simp [hx], hx2⟩
    · exact ⟨b, by simp, h⟩

/-! ## States of an encoder run -/

theorem encoder_put_defined (ac ac1 : recip_arith_encoder) (lo fr c : Nat)
    (h0 : 0 < ac.range) (h32 : ac.range < 2 ^ 32) (hc : c < 32)
    (h : recip_arith_encoder_put ac lo fr c = some ac1) : c + 8 ≤ Nat.size ac.range := by
  by_contra hcon
  push_neg at hcon
  obtain ⟨hclz, hs32, hs0⟩ := clz32_eq ac.range h0 h32
  unfold recip_arith_encoder_put at h
  simp only [hclz, RECIP_ARITH_TABLE_BITS] at h
  rw [if_neg (by omega)] at h
  by_cases h8 : Nat.size ac.range < 8
  · rw [if_pos (by omega)] at h
    exact absurd h (by simp)
  · rw [if_neg (by omega), if_pos (by omega)] at h
    exact absurd h (by simp)

theorem encoder_renorm_loop_zero (fuel : Nat) (ac : recip_arith_encoder) (h : ac.range = 0) :
    recip_arith_encoder_renorm_loop fuel ac = none := by
  induction fuel generalizing ac with
  | zero => simp [recip_arith_encoder_renorm_loop, h]
  | succ fuel ih =>
    simp only [recip_arith_encoder_renorm_loop, h]
    rw [if_pos (by decide)]
    exact ih _ (by simp)

theorem reachable_inv (ac : recip_arith_encoder) (h : Reachable ac) :
    EncInv ac ∧ 2 ^ 24 ≤ ac.range := by
  induction h with
  | start => exact encoder_start_inv
  | put ac ac1 ac2 lo fr c _ hfr hc hle hput hren ih =>
    obtain ⟨hinv, h24⟩ := ih
    have hs := encoder_put_defined ac ac1 lo fr c (by omega) hinv.2.1 hc hput
    obtain ⟨r1, r2, -⟩ := recip_r_norm_bounds ac.range c hs
    have hle2 : (lo + fr) * recip_r_norm ac.range c ≤ ac.range :=
      le_trans (by rw [Nat.mul_comm]; exact Nat.mul_le_mul_left _ hle) r2
    obtain ⟨a1, p1, p2, p3, -⟩ := put_core_spec ac lo fr _ hinv hle2 (Nat.mul_pos hfr r1)
    rw [encoder_put_eq ac lo fr c hinv.2.1 hs, p1] at hput
    simp only [Option.some.injEq] at hput
    subst hput
    obtain ⟨a2, q1, q2, -, -, -, q6⟩ := encoder_renorm_spec a1 p2 (by rw [p3]; exact Nat.mul_pos hfr r1)
    rw [q1] at hren
    simp only [Option.some.injEq] at hren
    subst hren
    exact ⟨q2, q6⟩
  | put_rangecoder ac ac1 ac2 lo fr c _ hfr hc hle hput hren ih =>
    obtain ⟨hinv, h24⟩ := ih
    rw [encoder_put_rangecoder_eq ac lo fr c hc] at hput
    by_cases hr0 : ac.range / 2 ^ c = 0
    · -- `r_norm` is zero: the new range is zero and `renorm` never returns
      exfalso
      have hlow := hinv.1
      rw [hr0] at hput
      simp only [put_core, Nat.mul_zero, Nat.zero_mod, Nat.add_zero, Nat.mod_eq_of_lt hlow,
        lt_irrefl, if_false, Option.some.injEq] at hput
      subst hput
      have := encoder_renorm_loop_zero 4 ⟨ac.low, 0, ac.written⟩ rfl
      unfold recip_arith_encoder_renorm at hren
      rw [this] at hren
      exact absurd hren (by simp)
    · have r1 : 0 < ac.range / 2 ^ c := Nat.pos_of_ne_zero hr0
      have r2 : ac.range / 2 ^ c * 2 ^ c ≤ ac.range := Nat.div_mul_le_self _ _
      have hle2 : (lo + fr) * (ac.range / 2 ^ c) ≤ ac.range :=
        le_trans (by rw [Nat.mul_comm]; exact Nat.mul_le_mul_left _ hle) r2
      obtain ⟨a1, p1, p2, p3, -⟩ := put_core_spec ac lo fr _ hinv hle2 (Nat.mul_pos hfr r1)
      rw [p1] at hput
      simp only [Option.some.injEq] at hput
      subst hput
      obtain ⟨a2, q1, q2, -, -, -, q6⟩ := encoder_renorm_spec a1 p2
        (by rw [p3]; exact Nat.mul_pos hfr r1)
      rw [q1] at hren
      simp only [Option.some.injEq] at hren
      subst hren
      exact ⟨q2, q6⟩

/-- Under the invariant, an addition to `low` that leaves the word happens only when the
stored bytes are not all `0xFF`. -/
theorem carry_safe_of_wrap (ac : recip_arith_encoder) (hinv : EncInv ac) (x : Nat)
    (hx : x < ac.range) (hw : 2 ^ 32 ≤ ac.low + x) : carry_stays_in_buffer ac.written := by
  obtain ⟨h1, h2, h3, h4⟩ := hinv
  have hv : be_value ac.written + 1 < 256 ^ ac.written.length := by
    by_contra hcon
    push_neg at hcon
    have : 256 ^ ac.written.length * 2 ^ 32 ≤ (be_value ac.written + 1) * 2 ^ 32 :=
      Nat.mul_le_mul_right _ hcon
    unfold abs_low at h4
    omega
  obtain ⟨w', e1, -, e3, -⟩ := carry_bytes_spec ac.written h3 hv
  obtain ⟨b, hb1, hb2⟩ := exists_non_ff ac.written h3 hv
  refine ⟨?_, ⟨b, hb1, hb2⟩, w', e1, e3⟩
  intro hnil
  rw [hnil] at hb1
  simp at hb1

theorem recip_arith_r_norm_eq (range c : Nat) (h0 : 0 < range) (h32 : range < 2 ^ 32)
    (hs : c + 8 ≤ Nat.size range) : recip_arith_r_norm range c = recip_r_norm range c := by
  obtain ⟨hclz, hs32, hs0⟩ := clz32_eq range h0 h32
  obtain ⟨r1, r2, r3, r4⟩ := recip_r_norm_bounds range c hs
  have hpow : 2 ^ (Nat.size range - c) ≤ 2 ^ 32 := Nat.pow_le_pow_right (by norm_num) (by omega)
  unfold recip_arith_r_norm
  simp only [hclz, RECIP_ARITH_TABLE_BITS, Nat.shiftRight_eq_div_pow, Nat.shiftLeft_eq]
  rw [show 32 - (32 - Nat.size range) - 8 = Nat.size range - 8 by omega]
  apply Nat.mod_eq_of_lt
  have : range / 2 ^ (Nat.size range - 8) * 2 ^ (Nat.size range - 8 - c)
      = recip_r_norm range c := rfl
  omega

/-! ## `put` and `peek` in terms of `r_top` and `r_norm` -/

theorem decoder_peek_raw (table : List Nat) (d : recip_arith_decoder) (c : Nat)
    (h0 : 0 < d.range) (hs : c + 8 ≤ 32 - clz32 d.range) :
    recip_arith_decoder_peek table d c =
      some (((((d.code >>> (32 - clz32 d.range - 8 - c)) *
          table.getD (recip_arith_r_top d.range) 0) % 2 ^ 64) >>> 32) % 2 ^ 32,
        { d with range := recip_arith_r_norm d.range c }) := by
  unfold recip_arith_decoder_peek recip_arith_r_top recip_arith_r_norm
  simp only [RECIP_ARITH_TABLE_BITS, RECIP_ARITH_NUMERATOR_BITS]
  generalize clz32 d.range = k at hs ⊢
  have e1 : ((32 : Int) - (k : Int) - ((8 : Nat) : Int)) = ((32 - k - 8 : Nat) : Int) := by omega
  have e2 : ((32 : Int) - (k : Int) - ((8 : Nat) : Int) - (c : Int)) % 2 ^ 32
      = ((32 - k - 8 - c : Nat) : Int) := by omega
  rw [e2, e1]
  rw [if_neg (by omega), if_neg (by omega), if_neg (by omega)]
  simp only [Int.toNat_ofNat]

theorem encoder_put_raw (ac : recip_arith_encoder) (lo fr c : Nat)
    (h0 : 0 < ac.range) (hs : c + 8 ≤ 32 - clz32 ac.range) :
    recip_arith_encoder_put ac lo fr c = put_core ac lo fr (recip_arith_r_norm ac.range c) := by
  unfold recip_arith_encoder_put recip_arith_r_norm put_core
  simp only [RECIP_ARITH_TABLE_BITS]
  generalize clz32 ac.range = k at hs ⊢
  have e1 : ((32 : Int) - (k : Int) - ((8 : Nat) : Int)) = ((32 - k - 8 : Nat) : Int) := by omega
  have e2 : ((32 : Int) - (k : Int) - ((8 : Nat) : Int) - (c : Int)) % 2 ^ 32
      = ((32 - k - 8 - c : Nat) : Int) := by omega
  rw [e2, e1]
  rw [if_neg (by omega), if_neg (by omega), if_neg (by omega)]
  simp only [Int.toNat_ofNat]

theorem decoder64_peek_raw (table : List Nat) (d : recip_arith64_decoder) (c : Nat)
    (h0 : 0 < d.range) (hs : c + 8 ≤ 64 - clz64 d.range) :
    recip_arith64_decoder_peek table d c =
      some (((((d.code >>> (64 - clz64 d.range - 8 - c)) *
          table.getD (recip_arith64_r_top d.range) 0) % 2 ^ 64) >>> 32) % 2 ^ 32,
        { d with range := ((recip_arith64_r_top d.range) <<< (64 - clz64 d.range - 8 - c))
          % 2 ^ 64 }) := by
  unfold recip_arith64_decoder_peek recip_arith64_r_top
  simp only [RECIP_ARITH_TABLE_BITS, RECIP_ARITH_NUMERATOR_BITS]
  generalize clz64 d.range = k at hs ⊢
  have e1 : ((64 : Int) - (k : Int) - ((8 : Nat) : Int)) = ((64 - k - 8 : Nat) : Int) := by omega
  have e2 : ((64 : Int) - (k : Int) - ((8 : Nat) : Int) - (c : Int)) % 2 ^ 32
      = ((64 - k - 8 - c : Nat) : Int) := by omega
  rw [e2, e1]
  rw [if_neg (by omega), if_neg (by omega), if_neg (by omega)]
  simp only [Int.toNat_ofNat]

theorem clz_bits_zero (w : Nat) : clz_bits w 0 = w := by
  induction w with
  | zero => rfl
  | succ w ih =>
    unfold clz_bits
    rw [if_neg (by have := Nat.pow_pos (n := w) (by norm_num : 0 < 2); omega), ih]
    omega

/-- The bit length `32 - clz32 range` of a 32-bit `range` is `Nat.size range`. -/
theorem bit_length32 (range : Nat) (h32 : range < 2 ^ 32) : 32 - clz32 range = Nat.size range := by
  by_cases h0 : range = 0
  · subst h0
    unfold clz32
    rw [clz_bits_zero]
    simp
  · exact clz_bits_eq_size 32 range (by omega) h32

theorem bit_length64 (range : Nat) (h64 : range < 2 ^ 64) : 64 - clz64 range = Nat.size range := by
  by_cases h0 : range = 0
  · subst h0
    unfold clz64
    rw [clz_bits_zero]
    simp
  · exact clz_bits_eq_size 64 range (by omega) h64

theorem recip_arith_r_top_eq (range : Nat) (h32 : range < 2 ^ 32) :
    recip_arith_r_top range = top_bits range := by
  unfold recip_arith_r_top top_bits
  rw [Nat.shiftRight_eq_div_pow, show 32 - clz32 range - RECIP_ARITH_TABLE_BITS
    = (32 - clz32 range) - 8 from rfl, bit_length32 range h32]

theorem recip_arith64_r_top_eq (range : Nat) (h64 : range < 2 ^ 64) :
    recip_arith64_r_top range = top_bits range := by
  unfold recip_arith64_r_top top_bits
  rw [Nat.shiftRight_eq_div_pow, show 64 - clz64 range - RECIP_ARITH_TABLE_BITS
    = (64 - clz64 range) - 8 from rfl, bit_length64 range h64]

theorem decoder64_start_at (buf : Nat → Nat) (p : Nat) :
    recip_arith64_decoder_start buf p = ⟨be_window buf p 8, (2 ^ 32 - 1) * 2 ^ 32, p + 8⟩ := by
  have b0 := Nat.mod_lt (buf p) (by norm_num : 0 < 256)
  have b1 := Nat.mod_lt (buf (p + 1)) (by norm_num : 0 < 256)
  have b2 := Nat.mod_lt (buf (p + 2)) (by norm_num : 0 < 256)
  have b3 := Nat.mod_lt (buf (p + 3)) (by norm_num : 0 < 256)
  have b4 := Nat.mod_lt (buf (p + 4)) (by norm_num : 0 < 256)
  have b5 := Nat.mod_lt (buf (p + 5)) (by norm_num : 0 < 256)
  have b6 := Nat.mod_lt (buf (p + 6)) (by norm_num : 0 < 256)
  have b7 := Nat.mod_lt (buf (p + 7)) (by norm_num : 0 < 256)
  have hr : ((2 ^ 32 - 1) <<< 32) % 2 ^ 64 = (2 ^ 32 - 1) * 2 ^ 32 := by
    rw [Nat.shiftLeft_eq]; norm_num
  simp only [recip_arith64_decoder_start, hr]
  rw [shift_in_byte_eq 64 (buf p % 256) _ (by omega)]
  rw [shift_in_byte_eq 64 (buf p % 256 * 256 + buf (p + 1) % 256) _ (by omega)]
  rw [shift_in_byte_eq 64 (_ * 256 + buf (p + 2) % 256) _ (by omega)]
  rw [shift_in_byte_eq 64 (_ * 256 + buf (p + 3) % 256) _ (by omega)]
  rw [shift_in_byte_eq 64 (_ * 256 + buf (p + 4) % 256) _ (by omega)]
  rw [shift_in_byte_eq 64 (_ * 256 + buf (p + 5) % 256) _ (by omega)]
  rw [shift_in_byte_eq 64 (_ * 256 + buf (p + 6) % 256) _ (by omega)]
  simp only [be_window, Nat.zero_add, Nat.zero_mul, Nat.add_zero]

/-- Bound on the quotient `code / r_norm` for `code < range`. -/
theorem target_bound (range code c : Nat) (hs : c + 8 ≤ Nat.size range) (hcode : code < range) :
    code / recip_r_norm range c ≤ 2 ^ c + (2 ^ c - 1) / 128 := by
  obtain ⟨t1, t2, t3⟩ := top_bits_bounds range (by omega)
  obtain ⟨r1, -⟩ := recip_r_norm_bounds range c hs
  have hP : 0 < 2 ^ (Nat.size range - 8) := Nat.pow_pos (by norm_num)
  have hQ : 0 < 2 ^ (Nat.size range - 8 - c) := Nat.pow_pos (by norm_num)
  have hC : 0 < 2 ^ c := Nat.pow_pos (by norm_num)
  -- range < (top_bits + 1) * 2 ^ (size - 8)
  have hlt : range < (top_bits range + 1) * 2 ^ (Nat.size range - 8) := by
    have := Nat.lt_div_mul_add (a := range) hP
    unfold top_bits
    calc range < range / 2 ^ (Nat.size range - 8) * 2 ^ (Nat.size range - 8)
          + 2 ^ (Nat.size range - 8) := this
      _ = (range / 2 ^ (Nat.size range - 8) + 1) * 2 ^ (Nat.size range - 8) := by ring
  have hPQ : 2 ^ (Nat.size range - 8) = 2 ^ c * 2 ^ (Nat.size range - 8 - c) := by
    rw [← pow_add]; congr 1; omega
  set t := top_bits range with ht
  set Q := 2 ^ (Nat.size range - 8 - c) with hQdef
  set q := code / recip_r_norm range c with hq
  have hqr : q * (t * Q) ≤ code := Nat.div_mul_le_self _ _
  by_contra hcon
  push_neg at hcon
  set m := (2 ^ c - 1) / 128 with hm
  have hm1 : 2 ^ c ≤ (m + 1) * 128 := by
    have := Nat.lt_div_mul_add (a := 2 ^ c - 1) (b := 128) (by norm_num)
    rw [← hm] at this
    omega
  have h1 : (2 ^ c + m + 1) * t ≤ q * t := Nat.mul_le_mul_right _ (by omega)
  have h2 : (m + 1) * 128 ≤ (m + 1) * t := Nat.mul_le_mul_left _ t1
  have h3 : (t + 1) * 2 ^ c ≤ q * t := by
    have e : (2 ^ c + m + 1) * t = 2 ^ c * t + (m + 1) * t := by ring
    have e' : (t + 1) * 2 ^ c = 2 ^ c * t + 2 ^ c := by ring
    omega
  have h4 : (t + 1) * 2 ^ c * Q ≤ q * t * Q := Nat.mul_le_mul_right _ h3
  have h5 : (t + 1) * 2 ^ (Nat.size range - 8) = (t + 1) * 2 ^ c * Q := by
    rw [hPQ]; ring
  have h6 : q * (t * Q) = q * t * Q := by ring
  omega

theorem recip_arith_table_entry (i : Nat) (h1 : 128 ≤ i) (h2 : i < 256) :
    recip_arith_table.getD i 0 = (2 ^ 32 + i - 1) / i ∧ 0 < (2 ^ 32 + i - 1) / i ∧
      (2 ^ 32 + i - 1) / i < 2 ^ 32 := by
  refine ⟨recip_arith_table_getD i h1 h2, ?_, ?_⟩
  · apply Nat.div_pos <;> omega
  · apply Nat.div_lt_of_lt_mul
    omega


/-- The part of `range` below the top 8 bits is less than one unit of the top bits. -/
theorem top_bits_upper (range : Nat) :
    range < (top_bits range + 1) * 2 ^ (Nat.size range - 8) := by
  have hP : 0 < 2 ^ (Nat.size range - 8) := Nat.pow_pos (by norm_num)
  have := Nat.lt_div_mul_add (a := range) hP
  unfold top_bits
  calc range < range / 2 ^ (Nat.size range - 8) * 2 ^ (Nat.size range - 8)
        + 2 ^ (Nat.size range - 8) := this
    _ = (range / 2 ^ (Nat.size range - 8) + 1) * 2 ^ (Nat.size range - 8) := by ring

/-- The scaled `r_norm` misses less than `1/128` of `range`. -/
theorem recip_r_norm_loss (range c : Nat) (hs : c + 8 ≤ Nat.size range) :
    recip_r_norm range c ≤ range / 2 ^ c ∧
      128 * (range - recip_r_norm range c * 2 ^ c) < range := by
  have h0 : 0 < range := by
    rcases Nat.eq_zero_or_pos range with h | h
    · rw [h] at hs; simp at hs
    · exact h
  obtain ⟨r1, r2, -, -⟩ := recip_r_norm_bounds range c hs
  obtain ⟨s1, -⟩ := size_bounds range h0
  have hC : 0 < 2 ^ c := Nat.pow_pos (by norm_num)
  refine ⟨(Nat.le_div_iff_mul_le hC).2 r2, ?_⟩
  have hu := top_bits_upper range
  have e1 : recip_r_norm range c * 2 ^ c = top_bits range * 2 ^ (Nat.size range - 8) := by
    unfold recip_r_norm
    rw [mul_assoc, ← pow_add]
    congr 2
    omega
  have e2 : 128 * 2 ^ (Nat.size range - 8) = 2 ^ (Nat.size range - 1) := by
    have : Nat.size range - 1 = 7 + (Nat.size range - 8) := by omega
    rw [this, pow_add]
    norm_num
  have e3 : (top_bits range + 1) * 2 ^ (Nat.size range - 8)
      = top_bits range * 2 ^ (Nat.size range - 8) + 2 ^ (Nat.size range - 8) := by ring
  rw [e1]
  omega

/-- The effect of `put_core` on the interval `[0, 1)`: only `range` changes. -/
theorem put_core_unit (low range : Nat) (written : List Nat) (r : Nat) (hl : low < 2 ^ 32)
    (hr : r < 2 ^ 32) : put_core ⟨low, range, written⟩ 0 1 r = some ⟨low, r, written⟩ := by
  unfold put_core
  simp only [Nat.zero_mul, Nat.zero_mod, Nat.add_zero, Nat.one_mul, Nat.mod_eq_of_lt hl,
    Nat.mod_eq_of_lt hr, lt_irrefl, if_false]

/-! ## The one-symbol alphabet -/

theorem cdf_single (x : Nat) : cdf [x] 0 = 0 ∧ cdf [x] 1 = x := by
  constructor <;> simp [cdf]

set_option maxRecDepth 100000 in
/-- In the two ranges that occur with a one-symbol alphabet the top eight bits are all ones. -/
theorem degenerate_r_norm (R c : Nat) (hR : R = 4294967295 ∨ R = 4278190080) (hc : c ≤ 24) :
    0 < R ∧ clz32 R = 0 ∧ recip_arith_r_top R = 255 ∧
      recip_arith_r_norm R c = 255 * 2 ^ (24 - c) ∧ 2 ^ c * (255 * 2 ^ (24 - c)) = 4278190080 := by
  have hp : (2 : Nat) ^ (24 - c) ≤ 2 ^ 24 := Nat.pow_le_pow_right (by norm_num) (by omega)
  have hprod : 2 ^ c * (255 * 2 ^ (24 - c)) = 4278190080 := by
    have : 2 ^ c * 2 ^ (24 - c) = 2 ^ 24 := by
      rw [← pow_add]; congr 1; omega
    calc 2 ^ c * (255 * 2 ^ (24 - c)) = 255 * (2 ^ c * 2 ^ (24 - c)) := by ring
      _ = 4278190080 := by rw [this]; norm_num
  have hz : clz32 R = 0 := by
    rcases hR with h | h <;> subst h <;> decide
  have ht : recip_arith_r_top R = 255 := by
    rcases hR with h | h <;> subst h <;> decide
  refine ⟨by omega, hz, ht, ?_, hprod⟩
  have ht' : R >>> (32 - 0 - 8) = 255 := by
    have := ht
    unfold recip_arith_r_top at this
    simp only [hz, RECIP_ARITH_TABLE_BITS] at this
    exact this
  unfold recip_arith_r_norm
  simp only [hz, RECIP_ARITH_TABLE_BITS, ht', Nat.shiftLeft_eq]
  rw [show 32 - 0 - 8 - c = 24 - c by omega]
  apply Nat.mod_eq_of_lt
  omega

set_option maxRecDepth 100000 in
/-- One `put` of the whole interval followed by `renorm`, in the two states that occur. -/
theorem degenerate_put (R c : Nat) (hR : R = 4294967295 ∨ R = 4278190080) (hc : c ≤ 24) :
    recip_arith_encoder_put ⟨0, R, []⟩ (cdf [2 ^ c] 0) (cdf [2 ^ c] 1 - cdf [2 ^ c] 0) c
        = some ⟨0, 4278190080, []⟩ ∧
      recip_arith_encoder_renorm ⟨0, 4278190080, []⟩ = some ⟨0, 4278190080, []⟩ := by
  obtain ⟨h0, hz, -, hr, hprod⟩ := degenerate_r_norm R c hR hc
  refine ⟨?_, by decide⟩
  rw [(cdf_single (2 ^ c)).1, (cdf_single (2 ^ c)).2, Nat.sub_zero]
  rw [encoder_put_raw ⟨0, R, []⟩ 0 (2 ^ c) c h0 (by rw [hz]; omega), hr]
  unfold put_core
  simp only [Nat.zero_mul, Nat.zero_mod, Nat.add_zero, hprod, lt_irrefl, if_false]
  rfl

/-- The encoding loop on `k` copies of the only symbol: the state stays at `low = 0` with no
byte stored. -/
theorem degenerate_encode (c : Nat) (hc : c ≤ 24) (k : Nat) (R : Nat)
    (hR : R = 4294967295 ∨ R = 4278190080) :
    ∃ R', (R' = 4294967295 ∨ R' = 4278190080) ∧
      encode_symbols recip_arith_encoder_put [2 ^ c] c ⟨0, R, []⟩ (List.replicate k 0)
        = some ⟨0, R', []⟩ := by
  induction k generalizing R with
  | zero => exact ⟨R, hR, rfl⟩
  | succ k ih =>
    obtain ⟨p1, p2⟩ := degenerate_put R c hR hc
    obtain ⟨R', h1, h2⟩ := ih 4278190080 (Or.inr rfl)
    refine ⟨R', h1, ?_⟩
    rw [List.replicate_succ]
    simp only [encode_symbols, zero_add]
    rw [p1]
    simp only [Option.some_bind]
    rw [p2]
    simp only [Option.some_bind]
    exact h2

set_option maxRecDepth 100000 in
theorem degenerate_finish (R : Nat) (hR : R = 4294967295 ∨ R = 4278190080) :
    recip_arith_encoder_finish ⟨0, R, []⟩ = some ⟨0, R, [1]⟩ := by
  rcases hR with h | h <;> subst h <;> decide

set_option maxRecDepth 100000 in
/-- One decoding step on the one-symbol alphabet: the target is below `2 ^ c`, and `code` and
the cursor do not change. -/
theorem degenerate_decode_step (c : Nat) (hc : c ≤ 24) (code R p : Nat)
    (hR : R = 4294967295 ∨ R = 4278190080) (hcode : code < 2 ^ 25) :
    ∃ target, target < 2 ^ c ∧
      recip_arith_decoder_peek recip_arith_table ⟨code, R, p⟩ c
        = some (target, ⟨code, 255 * 2 ^ (24 - c), p⟩) ∧
      recip_arith_decoder_remove ⟨code, 255 * 2 ^ (24 - c), p⟩ (cdf [2 ^ c] 0)
        (cdf [2 ^ c] 1 - cdf [2 ^ c] 0) = ⟨code, 4278190080, p⟩ := by
  obtain ⟨h0, hz, ht, hr, hprod⟩ := degenerate_r_norm R c hR hc
  have hT : recip_arith_table.getD 255 0 = 16843010 := by decide
  have hP : (2 : Nat) ^ c ≤ 2 ^ 24 := Nat.pow_le_pow_right (by norm_num) hc
  have hQ : 0 < 2 ^ (24 - c) := Nat.pow_pos (by norm_num)
  have hm : code / 2 ^ (24 - c) < 2 * 2 ^ c := by
    rw [Nat.div_lt_iff_lt_mul hQ]
    have : 2 * 2 ^ c * 2 ^ (24 - c) = 2 ^ 25 := by
      rw [mul_assoc, ← pow_add, show c + (24 - c) = 24 by omega]; norm_num
    omega
  have hx : code / 2 ^ (24 - c) * 16843010 < 2 ^ 32 * 2 ^ c := by omega
  have hx64 : code / 2 ^ (24 - c) * 16843010 < 2 ^ 64 := by omega
  have hq : code / 2 ^ (24 - c) * 16843010 / 2 ^ 32 < 2 ^ c := Nat.div_lt_of_lt_mul hx
  have ht32 : (((code / 2 ^ (24 - c) * 16843010) % 2 ^ 64) / 2 ^ 32) % 2 ^ 32 < 2 ^ c := by
    rw [Nat.mod_eq_of_lt hx64, Nat.mod_eq_of_lt (by omega)]
    exact hq
  refine ⟨(((code / 2 ^ (24 - c) * 16843010) % 2 ^ 64) / 2 ^ 32) % 2 ^ 32, ht32, ?_, ?_⟩
  · rw [decoder_peek_raw recip_arith_table ⟨code, R, p⟩ c h0 (by rw [hz]; omega)]
    simp only [hz, ht, hT, hr, Nat.shiftRight_eq_div_pow]
  · rw [(cdf_single (2 ^ c)).1, (cdf_single (2 ^ c)).2, Nat.sub_zero]
    unfold recip_arith_decoder_remove
    simp only [Nat.zero_mul, Nat.zero_mod, Nat.sub_zero, hprod]
    have : (code + 2 ^ 32) % 2 ^ 32 = code := by omega
    rw [this]
    rfl

set_option maxRecDepth 100000 in
/-- The decoding loop on the one-symbol alphabet returns `n` copies of the symbol. -/
theorem degenerate_decode (c : Nat) (hc : c ≤ 24) (lookup : Nat → Nat)
    (hl : ∀ t, t < 2 ^ c → lookup t = 0) (buf : Nat → Nat) (n : Nat) (code R p : Nat)
    (hR : R = 4294967295 ∨ R = 4278190080) (hcode : code < 2 ^ 25) :
    ∃ R', decode_symbols (recip_arith_decoder_peek recip_arith_table) recip_arith_decoder_remove
        lookup buf [2 ^ c] c n ⟨code, R, p⟩ = some (List.replicate n 0, ⟨code, R', p⟩) := by
  induction n generalizing R with
  | zero => exact ⟨R, rfl⟩
  | succ n ih =>
    obtain ⟨target, t1, t2, t3⟩ := degenerate_decode_step c hc code R p hR hcode
    obtain ⟨R', h⟩ := ih 4278190080 (Or.inr rfl)
    have hren : recip_arith_decoder_renorm buf ⟨code, 4278190080, p⟩
        = some ⟨code, 4278190080, p⟩ := by
      unfold recip_arith_decoder_renorm recip_arith_decoder_renorm_loop
      rw [if_neg (show ¬ ((4278190080 : Nat) < 1 <<< 24) by decide)]
    refine ⟨R', ?_⟩
    simp only [decode_symbols]
    rw [t2]
    simp only [Option.some_bind, hl target t1]
    rw [t3, hren]
    simp only [Option.some_bind]
    rw [h]
    rfl

/-! ## The bytes stored by the encoder's `renorm` -/

theorem encoder_renorm_loop_exit (fuel : Nat) (ac : recip_arith_encoder)
    (h : 2 ^ 24 ≤ ac.range) : recip_arith_encoder_renorm_loop fuel ac = some ac := by
  have h' : ¬ ac.range < 1 <<< 24 := by
    rw [Nat.shiftLeft_eq]; omega
  cases fuel <;> simp only [recip_arith_encoder_renorm_loop, if_neg h']

theorem encoder_renorm_loop_stuck (ac : recip_arith_encoder) (h : ac.range < 2 ^ 24) :
    recip_arith_encoder_renorm_loop 0 ac = none := by
  have h' : ac.range < 1 <<< 24 := by
    rw [Nat.shiftLeft_eq]; omega
  simp only [recip_arith_encoder_renorm_loop, if_pos h']

theorem encoder_renorm_loop_step (fuel : Nat) (low range : Nat) (written : List Nat)
    (h : range < 2 ^ 24) :
    recip_arith_encoder_renorm_loop (fuel + 1) ⟨low, range, written⟩ =
      recip_arith_encoder_renorm_loop fuel
        ⟨(low * 256) % 4294967296, range * 256, (low / 16777216) % 256 :: written⟩ := by
  have h' : range < 1 <<< 24 := by
    rw [Nat.shiftLeft_eq]; omega
  have e : (range * 256) % 4294967296 = range * 256 := Nat.mod_eq_of_lt (by omega)
  rw [recip_arith_encoder_renorm_loop, if_pos h']
  simp only [Nat.shiftLeft_eq, Nat.shiftRight_eq_div_pow]
  norm_num [e]

/-- The loop of `recip_arith_encoder_renorm` in closed form: it runs `n ≤ 3` times, stores
the top `n` bytes of `low`, and multiplies `low` (modulo `2 ^ 32`) and `range` by `256 ^ n`. -/
theorem encoder_renorm_closed (low range : Nat) (written : List Nat) (hl : low < 2 ^ 32)
    (h0 : range ≠ 0) (h32 : range < 2 ^ 32) :
    ∃ n, n ≤ 3 ∧
      (∀ fuel, n ≤ fuel → recip_arith_encoder_renorm_loop fuel ⟨low, range, written⟩ =
        some ⟨(low * 256 ^ n) % 2 ^ 32, range * 256 ^ n,
          (([24, 16, 8].map (fun s => (low >>> s) % 256)).take n).reverse ++ written⟩) ∧
      (∀ fuel, fuel < n → recip_arith_encoder_renorm_loop fuel ⟨low, range, written⟩ = none) ∧
      2 ^ 24 ≤ range * 256 ^ n ∧ range * 256 ^ n < 2 ^ 32 ∧ (2 ^ 24 ≤ range → n = 0) := by
  by_cases hA : 2 ^ 24 ≤ range
  · refine ⟨0, by omega, ?_, ?_, by omega, by omega, fun _ => rfl⟩
    · intro fuel _
      have hl' : low % 4294967296 = low := Nat.mod_eq_of_lt hl
      rw [encoder_renorm_loop_exit fuel _ hA]
      simp [hl']
    · intro fuel hf; omega
  by_cases hB : 2 ^ 16 ≤ range
  · refine ⟨1, by omega, ?_, ?_, by omega, by omega, fun h => absurd h hA⟩
    · intro fuel hf
      obtain ⟨k, rfl⟩ : ∃ k, fuel = k + 1 := ⟨fuel - 1, by omega⟩
      rw [encoder_renorm_loop_step k low range written (by omega),
        encoder_renorm_loop_exit k _ (by simp only []; omega)]
      simp [Nat.shiftRight_eq_div_pow]
    · intro fuel hf
      obtain rfl : fuel = 0 := by omega
      exact encoder_renorm_loop_stuck _ (by simp only []; omega)
  by_cases hC : 2 ^ 8 ≤ range
  · refine ⟨2, by omega, ?_, ?_, by omega, by omega, fun h => absurd h hA⟩
    · intro fuel hf
      obtain ⟨k, rfl⟩ : ∃ k, fuel = k + 2 := ⟨fuel - 2, by omega⟩
      rw [encoder_renorm_loop_step (k + 1) low range written (by omega),
        encoder_renorm_loop_step k _ _ _ (by omega),
        encoder_renorm_loop_exit k _ (by simp only []; omega)]
      simp only [Option.some.injEq, recip_arith_encoder.mk.injEq, Nat.shiftRight_eq_div_pow,
        List.map, List.take, List.reverse_cons, List.reverse_nil, List.nil_append,
        List.cons_append, List.cons.injEq, and_true]
      norm_num
      refine ⟨by omega, by omega, by omega⟩
    · intro fuel hf
      have : fuel = 0 ∨ fuel = 1 := by omega
      rcases this with rfl | rfl
      · exact encoder_renorm_loop_stuck _ (by simp only []; omega)
      · rw [encoder_renorm_loop_step 0 low range written (by omega)]
        exact encoder_renorm_loop_stuck _ (by simp only []; omega)
  · refine ⟨3, by omega, ?_, ?_, by omega, by omega, fun h => absurd h hA⟩
    · intro fuel hf
      obtain ⟨k, rfl⟩ : ∃ k, fuel = k + 3 := ⟨fuel - 3, by omega⟩
      rw [encoder_renorm_loop_step (k + 2) low range written (by omega),
        encoder_renorm_loop_step (k + 1) _ _ _ (by omega),
        encoder_renorm_loop_step k _ _ _ (by omega),
        encoder_renorm_loop_exit k _ (by simp only []; omega)]
      simp only [Option.some.injEq, recip_arith_encoder.mk.injEq, Nat.shiftRight_eq_div_pow,
        List.map, List.take, List.reverse_cons, List.reverse_nil, List.nil_append,
        List.cons_append, List.cons.injEq, and_true]
      norm_num
      refine ⟨by omega, by omega, by omega, by omega⟩
    · intro fuel hf
      have : fuel = 0 ∨ fuel = 1 ∨ fuel = 2 := by omega
      rcases this with rfl | rfl | rfl
      · exact encoder_renorm_loop_stuck _ (by simp only []; omega)
      · rw [encoder_renorm_loop_step 0 low range written (by omega)]
        exact encoder_renorm_loop_stuck _ (by simp only []; omega)
      · rw [encoder_renorm_loop_step 1 low range written (by omega),
          encoder_renorm_loop_step 0 _ _ _ (by omega)]
        exact encoder_renorm_loop_stuck _ (by simp only []; omega)

/-! ## The bytes changed by `carry`, and `put` in a run -/

/-- The walk of `carry` turns the run of `0xFF` bytes stored last into `0x00` bytes and adds
one to the byte stored before the run. -/
theorem carry_bytes_shape (w : List Nat) (hb : ∀ b ∈ w, b < 256) (hex : ∃ b ∈ w, b ≠ 255) :
    ∃ k b rest, w = List.replicate k 255 ++ b :: rest ∧ b ≠ 255 ∧
      recip_arith_encoder_carry_bytes w = some (List.replicate k 0 ++ (b + 1) :: rest) := by
  induction w with
  | nil =>
    obtain ⟨b, hb1, -⟩ := hex
    simp at hb1
  | cons a t ih =>
    have ha : a < 256 := hb a (by simp)
    by_cases h : a = 255
    · subst h
      have hex' : ∃ b ∈ t, b ≠ 255 := by
        obtain ⟨b, hb1, hb2⟩ := hex
        rcases List.mem_cons.1 hb1 with e | e
        · exact absurd e hb2
        · exact ⟨b, e, hb2⟩
      obtain ⟨k, b, rest, e1, e2, e3⟩ := ih (fun x hx => hb x (by simp [hx])) hex'
      refine ⟨k + 1, b, rest, ?_, e2, ?_⟩
      · rw [e1, List.replicate_succ, List.cons_append]
      · simp only [recip_arith_encoder_carry_bytes]
        rw [if_pos (by decide), e3]
        simp [List.replicate_succ]
    · refine ⟨0, a, t, by simp, h, ?_⟩
      have h1 : (a + 1) % 256 = a + 1 := Nat.mod_eq_of_lt (by omega)
      simp only [recip_arith_encoder_carry_bytes, h1]
      rw [if_neg (by omega)]
      simp

/-- In a run, a defined `put` of a valid interval leaves a state on which `renorm` is
defined: 32-bit fields and a nonzero `range`. -/
theorem reachable_put_range (ac ac1 : recip_arith_encoder) (lo fr c : Nat)
    (h : Reachable ac) (hfr : 0 < fr) (hc : c < 32) (hle : lo + fr ≤ 2 ^ c)
    (hput : recip_arith_encoder_put ac lo fr c = some ac1) :
    ac1.low < 2 ^ 32 ∧ ac1.range ≠ 0 ∧ ac1.range < 2 ^ 32 := by
  obtain ⟨hinv, h24⟩ := reachable_inv ac h
  have hs := encoder_put_defined ac ac1 lo fr c (by omega) hinv.2.1 hc hput
  obtain ⟨r1, r2, -⟩ := recip_r_norm_bounds ac.range c hs
  have hle2 : (lo + fr) * recip_r_norm ac.range c ≤ ac.range :=
    le_trans (by rw [Nat.mul_comm]; exact Nat.mul_le_mul_left _ hle) r2
  obtain ⟨a1, p1, p2, p3, -⟩ := put_core_spec ac lo fr _ hinv hle2 (Nat.mul_pos hfr r1)
  rw [encoder_put_eq ac lo fr c hinv.2.1 hs, p1] at hput
  simp only [Option.some.injEq] at hput
  subst hput
  have hpos : 0 < a1.range := by rw [p3]; exact Nat.mul_pos hfr r1
  exact ⟨p2.1, by omega, p2.2.1⟩

/-! ## One `put`, and the `peek` and `remove` that invert it -/

/-- Whatever `carry` does, a `put` that returns leaves `low` and `range` as computed. -/
theorem put_core_result (ac ac1 : recip_arith_encoder) (lo fr r : Nat)
    (h : put_core ac lo fr r = some ac1) :
    ac1.low = (ac.low + (lo * r) % 2 ^ 32) % 2 ^ 32 ∧ ac1.range = (fr * r) % 2 ^ 32 := by
  unfold put_core at h
  simp only [] at h
  split at h
  · unfold recip_arith_encoder_carry at h
    simp only [Option.map_eq_some'] at h
    obtain ⟨w, -, hw⟩ := h
    subst hw
    exact ⟨rfl, rfl⟩
  · simp only [Option.some.injEq] at h
    subst h
    exact ⟨rfl, rfl⟩

/-- The products of a valid CDF interval with a scale `r` that fits `2 ^ c` times in `range`. -/
theorem nesting_arith (range r lo fr c : Nat) (hr0 : 0 < r) (hr : r * 2 ^ c ≤ range)
    (h32 : range < 2 ^ 32) (hfr : 0 < fr) (hle : lo + fr ≤ 2 ^ c) :
    lo * r < 2 ^ 32 ∧ fr * r < 2 ^ 32 ∧ 0 < fr * r ∧ lo * r + fr * r ≤ range := by
  have h1 : (lo + fr) * r ≤ range :=
    le_trans (by rw [Nat.mul_comm]; exact Nat.mul_le_mul_left _ hle) hr
  have e : (lo + fr) * r = lo * r + fr * r := by ring
  have hpos : 0 < fr * r := Nat.mul_pos hfr hr0
  rw [e] at h1
  exact ⟨by omega, by omega, hpos, h1⟩

/-- A `put` with scale `r` under the invariant: the new interval lies inside the old one. -/
theorem put_core_nested (ac : recip_arith_encoder) (lo fr r c : Nat) (hinv : EncInv ac)
    (hr0 : 0 < r) (hr : r * 2 ^ c ≤ ac.range) (hfr : 0 < fr) (hle : lo + fr ≤ 2 ^ c) :
    ∃ ac1, put_core ac lo fr r = some ac1 ∧ EncInv ac1 ∧ ac1.range = fr * r ∧
      abs_low ac1 = abs_low ac + lo * r ∧ abs_low ac ≤ abs_low ac1 ∧
      abs_low ac1 + ac1.range ≤ abs_low ac + ac.range ∧
      ac1.written.length = ac.written.length := by
  obtain ⟨n1, n2, n3, n4⟩ := nesting_arith ac.range r lo fr c hr0 hr hinv.2.1 hfr hle
  have e : (lo + fr) * r = lo * r + fr * r := by ring
  obtain ⟨ac1, p1, p2, p3, p4, p5⟩ := put_core_spec ac lo fr r hinv (by rw [e]; exact n4) n3
  exact ⟨ac1, p1, p2, p3, p4, by omega, by omega, p5⟩

/-- The reciprocal `r_norm` after `renorm`, for `cdf_bits ≤ 16`. -/
theorem recip_arith_r_norm_ok (range c : Nat) (hc : c ≤ 16) (h24 : 2 ^ 24 ≤ range)
    (h32 : range < 2 ^ 32) :
    c + 8 ≤ Nat.size range ∧ c + 8 ≤ 32 - clz32 range ∧
      recip_arith_r_norm range c = recip_r_norm range c ∧
      0 < recip_arith_r_norm range c ∧ recip_arith_r_norm range c * 2 ^ c ≤ range := by
  have hsz := size_ge_of_le range 24 h24
  have hs : c + 8 ≤ Nat.size range := by omega
  have hb := bit_length32 range h32
  have he := recip_arith_r_norm_eq range c (by omega) h32 hs
  obtain ⟨r1, r2, -⟩ := recip_r_norm_bounds range c hs
  exact ⟨hs, by omega, he, by rw [he]; exact r1, by rw [he]; exact r2⟩

/-! ## Encoder and decoder after each symbol -/

/-- The decoder follows the encoder through a prefix `pre` of the symbols: after `pre`, the
two have the same `range`, the decoder's cursor is four bytes ahead of the encoder's, and
`code` is the window of the input minus the encoder's lower bound. -/
theorem decode_prefix_spec
    (put : recip_arith_encoder → Nat → Nat → Nat → Option recip_arith_encoder)
    (peek : recip_arith_decoder → Nat → Option (Nat × recip_arith_decoder))
    (remove : recip_arith_decoder → Nat → Nat → recip_arith_decoder)
    (lookup : Nat → Nat)
    (rn : Nat → Nat) (c : Nat) (hist : List Nat)
    (hput : ∀ ac lo fr, 2 ^ 24 ≤ ac.range → ac.range < 2 ^ 32 →
      put ac lo fr c = put_core ac lo fr (rn ac.range))
    (hpeek : ∀ d, 2 ^ 24 ≤ d.range → d.range < 2 ^ 32 → d.code < d.range →
      peek d c = some (d.code / rn d.range, { d with range := rn d.range }))
    (hremove : ∀ d lo fr, remove d lo fr = recip_arith_decoder_remove d lo fr)
    (hrn : ∀ range, 2 ^ 24 ≤ range → range < 2 ^ 32 → 0 < rn range ∧ rn range * 2 ^ c ≤ range)
    (pre post : List Nat)
    (hv : ∀ s ∈ pre ++ post, 0 < cdf hist (s + 1) - cdf hist s ∧ cdf hist (s + 1) ≤ 2 ^ c)
    (hlookup : ∀ s ∈ pre, ∀ t, cdf hist s ≤ t → t < cdf hist (s + 1) → lookup t = s)
    (ac acN fin : recip_arith_encoder) (hinv : EncInv ac) (h24 : 2 ^ 24 ≤ ac.range)
    (henc : encode_symbols put hist c ac (pre ++ post) = some acN)
    (hfin : recip_arith_encoder_finish acN = some fin)
    (buf : Nat → Nat) (hbuf : StartsWith buf fin.written.reverse)
    (d : recip_arith_decoder) (hptr : d.ptr = ac.written.length + 4)
    (hrange : d.range = ac.range)
    (hcode : d.code + abs_low ac = be_window buf 0 (ac.written.length + 4)) :
    ∃ acI dI, encode_symbols put hist c ac pre = some acI ∧
      encode_symbols put hist c acI post = some acN ∧
      decode_symbols peek remove lookup buf hist c pre.length d = some (pre, dI) ∧
      dI.ptr = acI.written.length + 4 ∧ dI.range = acI.range ∧
      ac.written.length ≤ acI.written.length := by
  induction pre generalizing ac d with
  | nil =>
    exact ⟨ac, d, rfl, by simpa using henc, rfl, hptr, hrange, le_refl _⟩
  | cons s rest ih =>
    obtain ⟨hs1, hs2⟩ := hv s (by simp)
    obtain ⟨ac1, ac2, e1, e2, e3, e4, e5, e6, e7, e8, e9⟩ := encoder_step_spec put rn c hput hrn ac
      (cdf hist s) (cdf hist (s + 1) - cdf hist s) hinv h24 hs1 (by omega)
    simp only [List.cons_append, encode_symbols, e1, e2, Option.bind_some, Option.some_bind]
      at henc
    have hvr : ∀ x ∈ rest ++ post,
        0 < cdf hist (x + 1) - cdf hist x ∧ cdf hist (x + 1) ≤ 2 ^ c :=
      fun x hx => hv x (by simp only [List.cons_append, List.mem_cons]; exact Or.inr hx)
    obtain ⟨i1, i2⟩ := encode_interval put rn c hist hput hrn (rest ++ post) hvr ac2 acN fin
      e3 e4 henc hfin buf hbuf
    rw [e7, e6] at i1
    rw [e7, e6, e5] at i2
    set r := rn ac.range with hr
    set lo := cdf hist s with hlo
    set fr := cdf hist (s + 1) - cdf hist s with hfr
    set j := renorm_count 24 (fr * r) with hj
    have hadd := be_window_add buf 0 (ac.written.length + 4) j
    have hlt := be_window_lt buf (0 + (ac.written.length + 4)) j
    have hlen : ac.written.length + j + 4 = ac.written.length + 4 + j := by omega
    rw [hlen, hadd] at i1 i2
    have i2' : be_window buf 0 (ac.written.length + 4) * 256 ^ j +
        be_window buf (0 + (ac.written.length + 4)) j < (abs_low ac + (lo + fr) * r) * 256 ^ j := by
      have : (abs_low ac + (lo + fr) * r) * 256 ^ j
          = (abs_low ac + lo * r) * 256 ^ j + fr * r * 256 ^ j := by ring
      rw [this]; exact i2
    obtain ⟨b1, b2⟩ := scaled_between _ _ _ _ _ hlt i1 i2'
    have hr0 : 0 < r := (hrn ac.range h24 hinv.2.1).1
    have c1 : lo * r ≤ d.code := by omega
    have c2 : d.code < (lo + fr) * r := by omega
    have hdr : d.range < 2 ^ 32 := by rw [hrange]; exact hinv.2.1
    have hdc : d.code < d.range := by rw [hrange]; omega
    have t1 : lo ≤ d.code / r := (Nat.le_div_iff_mul_le hr0).mpr c1
    have t2 : d.code / r < lo + fr := (Nat.div_lt_iff_lt_mul hr0).mpr c2
    have hsym : lookup (d.code / r) = s := hlookup s (by simp) _ t1 (by omega)
    have hpk := hpeek d (by omega) hdr hdc
    rw [hrange, ← hr] at hpk
    have e10 : (lo + fr) * r = lo * r + fr * r := by ring
    have hlor : lo * r < 2 ^ 32 := by omega
    have hfrr : fr * r < 2 ^ 32 := by have := hinv.2.1; omega
    have hrem : recip_arith_decoder_remove { d with range := r } lo fr =
        ⟨d.code - lo * r, fr * r, d.ptr⟩ := by
      simp only [recip_arith_decoder_remove, Nat.mod_eq_of_lt hlor, Nat.mod_eq_of_lt hfrr]
      congr 1
      omega
    obtain ⟨d2, r1, r2, r3, r4⟩ := decoder_renorm_spec buf ⟨d.code - lo * r, fr * r, d.ptr⟩
      e9 (by simp only []; omega) hfrr
    simp only [] at r2 r3 r4
    rw [← hj] at r2 r3 r4
    have hd2code : d2.code + abs_low ac2 = be_window buf 0 (ac2.written.length + 4) := by
      rw [e7, e6, hlen, hadd, r4, hptr, Nat.zero_add, ← hcode]
      have : (d.code - lo * r) * 256 ^ j + (abs_low ac + lo * r) * 256 ^ j
          = (d.code + abs_low ac) * 256 ^ j := by
        rw [← Nat.add_mul]; congr 1; omega
      omega
    obtain ⟨acI, dI, k1, k2, k3, k4, k5, k6⟩ := ih hvr (fun x hx => hlookup x (by simp [hx]))
      ac2 e3 e4 henc d2 (by rw [r3, hptr, e7]; omega) (by rw [r2, e5]) hd2code
    refine ⟨acI, dI, ?_, k2, ?_, k4, k5, by omega⟩
    · simp only [encode_symbols, e1, e2, Option.bind_some, Option.some_bind]
      exact k1
    · simp only [List.length_cons, decode_symbols, hpk, Option.some_bind, hsym, hremove, hrem,
        r1, k3, Option.map_some', ← hlo, ← hfr]

/-- The reciprocal encoder and decoder after each symbol, for `cdf_bits ≤ 16`: same `range`,
and the decoder has consumed four bytes more than the encoder has stored. -/
theorem recip_lockstep (hist syms : List Nat) (c : Nat) (lookup : Nat → Nat) (hc : c ≤ 16)
    (hv : ∀ s ∈ syms, 0 < cdf hist (s + 1) - cdf hist s ∧ cdf hist (s + 1) ≤ 2 ^ c)
    (hlookup : ∀ s ∈ syms, ∀ t, cdf hist s ≤ t → t < cdf hist (s + 1) → lookup t = s) :
    ∃ acN fin, encode_symbols recip_arith_encoder_put hist c recip_arith_encoder_start syms
        = some acN ∧
      recip_arith_encoder_finish acN = some fin ∧
      encode_with recip_arith_encoder_put hist c syms = some fin.written.reverse ∧
      (fin.written.length = acN.written.length + 1 ∨
        fin.written.length = acN.written.length + 2) ∧
      ∀ buf, StartsWith buf fin.written.reverse → ∀ i, i ≤ syms.length →
        ∃ ac d, encode_symbols recip_arith_encoder_put hist c recip_arith_encoder_start
            (syms.take i) = some ac ∧
          encode_symbols recip_arith_encoder_put hist c ac (syms.drop i) = some acN ∧
          decode_with (recip_arith_decoder_peek recip_arith_table) recip_arith_decoder_remove
            lookup buf hist c i = some (syms.take i, d) ∧
          d.range = ac.range ∧ d.ptr = 4 + ac.written.length := by
  have hput : ∀ (ac : recip_arith_encoder) (lo fr : Nat), 2 ^ 24 ≤ ac.range → ac.range < 2 ^ 32 →
      recip_arith_encoder_put ac lo fr c
        = put_core ac lo fr ((fun range => recip_r_norm range c) ac.range) := by
    intro ac lo fr h24 h32
    have := size_ge_of_le _ _ h24
    exact encoder_put_eq ac lo fr c h32 (by omega)
  have hpeek : ∀ d : recip_arith_decoder, 2 ^ 24 ≤ d.range → d.range < 2 ^ 32 →
      d.code < d.range →
      recip_arith_decoder_peek recip_arith_table d c
        = some (d.code / (fun range => recip_r_norm range c) d.range,
            { d with range := (fun range => recip_r_norm range c) d.range }) := by
    intro d h24 h32 hcode
    have := size_ge_of_le _ _ h24
    exact decoder_peek_eq d c h32 (by omega) hc hcode
  have hrn : ∀ range, 2 ^ 24 ≤ range → range < 2 ^ 32 →
      0 < (fun range => recip_r_norm range c) range ∧
        (fun range => recip_r_norm range c) range * 2 ^ c ≤ range := by
    intro range h24 h32
    have := size_ge_of_le _ _ h24
    obtain ⟨r1, r2, -⟩ := recip_r_norm_bounds range c (by omega)
    exact ⟨r1, r2⟩
  obtain ⟨hinv, h24⟩ := encoder_start_inv
  obtain ⟨acN, e1, e2, e3⟩ := encode_symbols_spec recip_arith_encoder_put
    (fun range => recip_r_norm range c) c hist hput hrn syms hv recip_arith_encoder_start hinv h24
  obtain ⟨fin, f1, f2, f3⟩ := encoder_finish_spec acN e2 e3
  refine ⟨acN, fin, e1, f1, by simp [encode_with, e1, f1], ?_, ?_⟩
  · rcases f3 with ⟨-, k2, -⟩ | ⟨-, k2, -⟩
    · exact Or.inl k2
    · exact Or.inr k2
  · intro buf hbuf i hi
    obtain ⟨s1, s2, s3⟩ := decoder_start_spec buf
    have hsplit : syms.take i ++ syms.drop i = syms := List.take_append_drop i syms
    obtain ⟨acI, dI, k1, k2, k3, k4, k5, -⟩ := decode_prefix_spec recip_arith_encoder_put
      (recip_arith_decoder_peek recip_arith_table) recip_arith_decoder_remove lookup
      (fun range => recip_r_norm range c) c hist hput hpeek (fun _ _ _ => rfl) hrn
      (syms.take i) (syms.drop i) (by rw [hsplit]; exact hv)
      (fun s hs => hlookup s (List.mem_of_mem_take hs))
      recip_arith_encoder_start acN fin hinv h24 (by rw [hsplit]; exact e1) f1 buf hbuf
      (recip_arith_decoder_start buf 0) (by rw [s3]; simp [recip_arith_encoder_start])
      (by rw [s2]; simp [recip_arith_encoder_start])
      (by rw [s1]; simp [recip_arith_encoder_start, abs_low, be_value])
    have hlen : (syms.take i).length = i := by
      rw [List.length_take]; omega
    rw [hlen] at k3
    exact ⟨acI, dI, k1, k2, k3, k5, by omega⟩

/-! ## The 64-bit decoder against the 32-bit decoder -/

theorem shift_in_byte_mod (w code byte : Nat) (hw : 8 ≤ w) :
    shift_in_byte w code byte = (code * 256) % 2 ^ w + byte % 256 := by
  unfold shift_in_byte
  have hb : byte % 256 < 2 ^ 8 := Nat.mod_lt _ (by norm_num)
  have e : (code <<< 8) % 2 ^ w = 2 ^ 8 * (code % 2 ^ (w - 8)) := by
    rw [Nat.shiftLeft_eq, show w = 8 + (w - 8) by omega, pow_add, Nat.mul_comm code,
      Nat.mul_mod_mul_left]
    simp
  have e' : (code * 256) % 2 ^ w = 2 ^ 8 * (code % 2 ^ (w - 8)) := by
    rw [← e, Nat.shiftLeft_eq]
  rw [e, e', ← Nat.mul_add_lt_is_or hb]

theorem split_mod (y w : Nat) (hw : w < 2 ^ 32) :
    (y * 2 ^ 32 + w) % 2 ^ 64 = (y % 2 ^ 32) * 2 ^ 32 + w := by
  omega

theorem scale_mod (a : Nat) : (a * 2 ^ 32) % 2 ^ 64 = (a % 2 ^ 32) * 2 ^ 32 := by
  omega

theorem decoder_start_at (buf : Nat → Nat) (p : Nat) :
    recip_arith_decoder_start buf p = ⟨be_window buf p 4, 2 ^ 32 - 1, p + 4⟩ := by
  have b0 := Nat.mod_lt (buf p) (by norm_num : 0 < 256)
  have b1 := Nat.mod_lt (buf (p + 1)) (by norm_num : 0 < 256)
  have b2 := Nat.mod_lt (buf (p + 2)) (by norm_num : 0 < 256)
  have b3 := Nat.mod_lt (buf (p + 3)) (by norm_num : 0 < 256)
  simp only [recip_arith_decoder_start]
  rw [shift_in_byte_eq 32 (buf p % 256) _ (by omega)]
  rw [shift_in_byte_eq 32 (buf p % 256 * 256 + buf (p + 1) % 256) _ (by omega)]
  rw [shift_in_byte_eq 32 (_ * 256 + buf (p + 2) % 256) _ (by omega)]
  simp only [be_window, Nat.zero_add, Nat.zero_mul, Nat.add_zero]

theorem sim64_start (buf : Nat → Nat) (p : Nat) :
    Sim64 buf (recip_arith_decoder_start buf p) (recip_arith64_decoder_start buf p) := by
  rw [decoder_start_at, decoder64_start_at]
  refine ⟨rfl, rfl, ?_⟩
  simp only []
  rw [show 8 = 4 + 4 by rfl, be_window_add]
  norm_num

theorem sim64_remove (buf : Nat → Nat) (d32 : recip_arith_decoder) (d64 : recip_arith64_decoder)
    (lo fr : Nat) (h : Sim64 buf d32 d64) :
    Sim64 buf (recip_arith_decoder_remove d32 lo fr) (recip_arith64_decoder_remove d64 lo fr) := by
  obtain ⟨h1, h2, h3⟩ := h
  have hw := be_window_lt buf d32.ptr 4
  have m1 : (lo * (d32.range * 2 ^ 32)) % 2 ^ 64 = ((lo * d32.range) % 2 ^ 32) * 2 ^ 32 := by
    rw [← Nat.mul_assoc, scale_mod]
  have m2 : (fr * (d32.range * 2 ^ 32)) % 2 ^ 64 = ((fr * d32.range) % 2 ^ 32) * 2 ^ 32 := by
    rw [← Nat.mul_assoc, scale_mod]
  have hm := Nat.mod_lt (lo * d32.range) (by norm_num : 0 < 2 ^ 32)
  refine ⟨h1, ?_, ?_⟩
  · simp only [recip_arith_decoder_remove, recip_arith64_decoder_remove, h2, m2]
  · simp only [recip_arith_decoder_remove, recip_arith64_decoder_remove, h2, h3, m1]
    generalize (lo * d32.range) % 2 ^ 32 = m at hm ⊢
    generalize be_window buf d32.ptr 4 = w at hw ⊢
    generalize d32.code = x
    have e : x * 2 ^ 32 + w + 2 ^ 64 - m * 2 ^ 32 = (x + 2 ^ 32 - m) * 2 ^ 32 + w := by omega
    rw [e, split_mod _ _ (by omega)]

/-- One iteration of the two `renorm` loops keeps the relation. -/
theorem sim64_renorm_step (buf : Nat → Nat) (d32 : recip_arith_decoder)
    (d64 : recip_arith64_decoder) (h : Sim64 buf d32 d64) :
    Sim64 buf ⟨shift_in_byte 32 d32.code (buf d32.ptr), (d32.range <<< 8) % 2 ^ 32, d32.ptr + 1⟩
      ⟨shift_in_byte 64 d64.code (buf d64.ptr), (d64.range <<< 8) % 2 ^ 64, d64.ptr + 1⟩ := by
  obtain ⟨h1, h2, h3⟩ := h
  have b0 := Nat.mod_lt (buf d32.ptr) (by norm_num : 0 < 256)
  have b1 := Nat.mod_lt (buf (d32.ptr + 1)) (by norm_num : 0 < 256)
  have b2 := Nat.mod_lt (buf (d32.ptr + 2)) (by norm_num : 0 < 256)
  have b3 := Nat.mod_lt (buf (d32.ptr + 3)) (by norm_num : 0 < 256)
  have b4 := Nat.mod_lt (buf (d32.ptr + 4)) (by norm_num : 0 < 256)
  refine ⟨by simp only []; omega, ?_, ?_⟩
  · simp only [h2, Nat.shiftLeft_eq]
    omega
  · simp only [h1, h3, shift_in_byte_mod 32 _ _ (by norm_num),
      shift_in_byte_mod 64 _ _ (by norm_num), be_window, Nat.zero_add, Nat.zero_mul,
      Nat.add_zero, Nat.add_assoc]
    norm_num
    omega

/-- The two `renorm` loops with the same bound of iterations: both run out, or both return
and keep the relation. -/
theorem sim64_renorm_loop (buf : Nat → Nat) (fuel : Nat) (d32 : recip_arith_decoder)
    (d64 : recip_arith64_decoder) (h : Sim64 buf d32 d64) :
    (recip_arith_decoder_renorm_loop buf fuel d32 = none ∧
      recip_arith64_decoder_renorm_loop buf fuel d64 = none) ∨
    ∃ a32 a64, recip_arith_decoder_renorm_loop buf fuel d32 = some a32 ∧
      recip_arith64_decoder_renorm_loop buf fuel d64 = some a64 ∧ Sim64 buf a32 a64 := by
  induction fuel generalizing d32 d64 with
  | zero =>
    have h2 := h.2.1
    by_cases hlt : d32.range < 1 <<< 24
    · left
      have hlt64 : d64.range < 1 <<< 56 := by
        rw [Nat.shiftLeft_eq] at hlt ⊢; omega
      simp only [recip_arith_decoder_renorm_loop, recip_arith64_decoder_renorm_loop, if_pos hlt,
        if_pos hlt64, and_self]
    · right
      have hlt64 : ¬ d64.range < 1 <<< 56 := by
        rw [Nat.shiftLeft_eq] at hlt ⊢; omega
      exact ⟨d32, d64, by simp only [recip_arith_decoder_renorm_loop, if_neg hlt],
        by simp only [recip_arith64_decoder_renorm_loop, if_neg hlt64], h⟩
  | succ fuel ih =>
    have h2 := h.2.1
    by_cases hlt : d32.range < 1 <<< 24
    · have hlt64 : d64.range < 1 <<< 56 := by
        rw [Nat.shiftLeft_eq] at hlt ⊢; omega
      have := ih _ _ (sim64_renorm_step buf d32 d64 h)
      simp only [recip_arith_decoder_renorm_loop, recip_arith64_decoder_renorm_loop, if_pos hlt,
        if_pos hlt64]
      exact this
    · right
      have hlt64 : ¬ d64.range < 1 <<< 56 := by
        rw [Nat.shiftLeft_eq] at hlt ⊢; omega
      exact ⟨d32, d64, by simp only [recip_arith_decoder_renorm_loop, if_neg hlt],
        by simp only [recip_arith64_decoder_renorm_loop, if_neg hlt64], h⟩

/-- A loop of the 64-bit `renorm` that has returned returns the same with a larger bound. -/
theorem decoder64_renorm_loop_mono (buf : Nat → Nat) (fuel k : Nat) (d a : recip_arith64_decoder)
    (h : recip_arith64_decoder_renorm_loop buf fuel d = some a) :
    recip_arith64_decoder_renorm_loop buf (fuel + k) d = some a := by
  induction fuel generalizing d with
  | zero =>
    by_cases hlt : d.range < 1 <<< 56
    · simp only [recip_arith64_decoder_renorm_loop, if_pos hlt] at h
      exact absurd h (by simp)
    · simp only [recip_arith64_decoder_renorm_loop, if_neg hlt] at h
      cases k with
      | zero => simp only [recip_arith64_decoder_renorm_loop, if_neg hlt]; exact h
      | succ k =>
        rw [Nat.zero_add]
        simp only [recip_arith64_decoder_renorm_loop, if_neg hlt]; exact h
  | succ fuel ih =>
    rw [show fuel + 1 + k = (fuel + k) + 1 by omega]
    by_cases hlt : d.range < 1 <<< 56
    · simp only [recip_arith64_decoder_renorm_loop, if_pos hlt] at h ⊢
      exact ih _ h
    · simp only [recip_arith64_decoder_renorm_loop, if_neg hlt] at h ⊢
      exact h

theorem decoder_renorm_loop_exit (buf : Nat → Nat) (fuel : Nat) (d : recip_arith_decoder)
    (h : 2 ^ 24 ≤ d.range) : recip_arith_decoder_renorm_loop buf fuel d = some d := by
  have h' : ¬ d.range < 1 <<< 24 := by
    rw [Nat.shiftLeft_eq]; omega
  cases fuel <;> simp only [recip_arith_decoder_renorm_loop, if_neg h']

theorem decoder_renorm_loop_step (buf : Nat → Nat) (fuel : Nat) (code range ptr : Nat)
    (h : range < 2 ^ 24) :
    recip_arith_decoder_renorm_loop buf (fuel + 1) ⟨code, range, ptr⟩ =
      recip_arith_decoder_renorm_loop buf fuel
        ⟨shift_in_byte 32 code (buf ptr), range * 256, ptr + 1⟩ := by
  have h' : range < 1 <<< 24 := by
    rw [Nat.shiftLeft_eq]; omega
  have e : (range <<< 8) % 2 ^ 32 = range * 256 := by
    rw [Nat.shiftLeft_eq]; omega
  rw [recip_arith_decoder_renorm_loop, if_pos h']
  simp only [e]

/-- The 32-bit decoder `renorm` returns on every nonzero 32-bit `range`. -/
theorem decoder_renorm_defined (buf : Nat → Nat) (code range ptr : Nat) (h0 : range ≠ 0)
    (h32 : range < 2 ^ 32) : ∃ a, recip_arith_decoder_renorm buf ⟨code, range, ptr⟩ = some a := by
  unfold recip_arith_decoder_renorm
  by_cases hA : 2 ^ 24 ≤ range
  · exact ⟨_, decoder_renorm_loop_exit buf 4 _ hA⟩
  by_cases hB : 2 ^ 16 ≤ range
  · rw [decoder_renorm_loop_step buf 3 _ _ _ (by omega)]
    exact ⟨_, decoder_renorm_loop_exit buf 3 _ (by simp only []; omega)⟩
  by_cases hC : 2 ^ 8 ≤ range
  · rw [decoder_renorm_loop_step buf 3 _ _ _ (by omega),
      decoder_renorm_loop_step buf 2 _ _ _ (by omega)]
    exact ⟨_, decoder_renorm_loop_exit buf 2 _ (by simp only []; omega)⟩
  · rw [decoder_renorm_loop_step buf 3 _ _ _ (by omega),
      decoder_renorm_loop_step buf 2 _ _ _ (by omega),
      decoder_renorm_loop_step buf 1 _ _ _ (by omega)]
    exact ⟨_, decoder_renorm_loop_exit buf 1 _ (by simp only []; omega)⟩

/-- The two `renorm` functions keep the relation. -/
theorem sim64_renorm (buf : Nat → Nat) (d32 a32 : recip_arith_decoder)
    (d64 : recip_arith64_decoder) (h : Sim64 buf d32 d64)
    (hr : recip_arith_decoder_renorm buf d32 = some a32) :
    ∃ a64, recip_arith64_decoder_renorm buf d64 = some a64 ∧ Sim64 buf a32 a64 := by
  unfold recip_arith_decoder_renorm at hr
  unfold recip_arith64_decoder_renorm
  rcases sim64_renorm_loop buf 4 d32 d64 h with ⟨n1, -⟩ | ⟨b32, b64, s1, s2, s3⟩
  · rw [n1] at hr; exact absurd hr (by simp)
  · rw [s1] at hr
    obtain rfl := Option.some.inj hr
    exact ⟨b64, decoder64_renorm_loop_mono buf 4 4 d64 b64 s2, s3⟩

/-- The two `peek` functions return the same target and keep the relation, whenever the
shift counts of the 32-bit one are not negative. -/
theorem sim64_peek (table : List Nat) (buf : Nat → Nat) (d32 : recip_arith_decoder)
    (d64 : recip_arith64_decoder) (c : Nat) (h32 : d32.range < 2 ^ 32)
    (h : Sim64 buf d32 d64) (hs : c + 8 ≤ 32 - clz32 d32.range) :
    ∃ t a32 a64, recip_arith_decoder_peek table d32 c = some (t, a32) ∧
      recip_arith64_decoder_peek table d64 c = some (t, a64) ∧ Sim64 buf a32 a64 := by
  obtain ⟨h1, h2, h3⟩ := h
  have hb32 := bit_length32 d32.range h32
  have hsz : c + 8 ≤ Nat.size d32.range := by omega
  have h0 : 0 < d32.range := Nat.size_pos.mp (by omega)
  have h64 : d64.range < 2 ^ 64 := by rw [h2]; omega
  have hb64 := bit_length64 d64.range h64
  have hsz64 : Nat.size d64.range = Nat.size d32.range + 32 := by
    rw [h2]; exact size_mul_two_pow d32.range 32 h0
  have h064 : 0 < d64.range := by rw [h2]; omega
  have ht32 := recip_arith_r_top_eq d32.range h32
  have ht64 : recip_arith64_r_top d64.range = top_bits d32.range := by
    rw [recip_arith64_r_top_eq d64.range h64, h2]
    exact top_bits_shift d32.range 32 (by omega)
  have hw := be_window_lt buf d32.ptr 4
  have hsh : 64 - clz64 d64.range - 8 - c = (32 - clz32 d32.range - 8 - c) + 32 := by omega
  have hcode : d64.code >>> ((32 - clz32 d32.range - 8 - c) + 32)
      = d32.code >>> (32 - clz32 d32.range - 8 - c) := by
    rw [h3, Nat.add_comm _ 32, Nat.shiftRight_add, Nat.shiftRight_eq_div_pow _ 32]
    congr 1
    omega
  have hrn := recip_arith_r_norm_eq d32.range c h0 h32 hsz
  obtain ⟨-, r2, -, -⟩ := recip_r_norm_bounds d32.range c hsz
  have hpc : 0 < 2 ^ c := Nat.pow_pos (by norm_num)
  have hr32 : recip_r_norm d32.range c < 2 ^ 32 := by
    have : recip_r_norm d32.range c * 1 ≤ recip_r_norm d32.range c * 2 ^ c :=
      Nat.mul_le_mul_left _ hpc
    omega
  have hrange : (top_bits d32.range <<< ((32 - clz32 d32.range - 8 - c) + 32)) % 2 ^ 64
      = recip_r_norm d32.range c * 2 ^ 32 := by
    rw [Nat.shiftLeft_eq, pow_add, ← Nat.mul_assoc,
      show 32 - clz32 d32.range - 8 - c = Nat.size d32.range - 8 - c by omega]
    have : top_bits d32.range * 2 ^ (Nat.size d32.range - 8 - c) = recip_r_norm d32.range c := rfl
    rw [this, scale_mod, Nat.mod_eq_of_lt hr32]
  refine ⟨_, _, ⟨d64.code, recip_r_norm d32.range c * 2 ^ 32, d64.ptr⟩,
    decoder_peek_raw table d32 c h0 hs, ?_, ?_⟩
  · rw [decoder64_peek_raw table d64 c h064 (by omega), hsh, hcode, ht64, ht32, hrange]
  · refine ⟨h1, ?_, h3⟩
    simp only [hrn]

/-! ## What holds when no shift count is negative -/

/-- The walk of `carry` stays in the stored bytes when no shift count is negative: in every
state of an encoder run (`start`, then `put` or `put_rangecoder` with a valid
CDF interval, each followed by `renorm`), for every further `put_rangecoder` with a valid CDF
interval, every further `put` with a valid CDF interval whose shift counts are not negative,
and for `finish`: the operation returns, and whenever its addition to `low` wraps, so that
`carry` is invoked, a byte has been stored, the stored bytes are not all `0xFF`, and the walk
of `carry` stops inside them. -/
theorem carry_stays_in_emitted_bytes (ac : recip_arith_encoder) (hreach : Reachable ac) :
    (∀ cdf_low cdf_freq cdf_bits, 0 < cdf_freq → cdf_bits < 32 →
      cdf_low + cdf_freq ≤ 2 ^ cdf_bits →
      ((recip_arith_encoder_put_rangecoder ac cdf_low cdf_freq cdf_bits).isSome ∧
        ((ac.low + (cdf_low * (ac.range >>> cdf_bits)) % 2 ^ 32) % 2 ^ 32 < ac.low →
          carry_stays_in_buffer ac.written)) ∧
      (cdf_bits + RECIP_ARITH_TABLE_BITS ≤ 32 - clz32 ac.range →
        (recip_arith_encoder_put ac cdf_low cdf_freq cdf_bits).isSome ∧
        ((ac.low + (cdf_low * recip_arith_r_norm ac.range cdf_bits) % 2 ^ 32) % 2 ^ 32 < ac.low →
          carry_stays_in_buffer ac.written))) ∧
    (recip_arith_encoder_finish ac).isSome ∧
    ((if 2 ^ 25 < ac.range then (ac.low + 2 ^ 24) % 2 ^ 32 else (ac.low + 2 ^ 16) % 2 ^ 32)
        < ac.low → carry_stays_in_buffer ac.written) := by
  obtain ⟨hinv, h24⟩ := reachable_inv ac hreach
  have h32 := hinv.2.1
  have hlow := hinv.1
  refine ⟨?_, ?_, ?_⟩
  · intro lo fr c hfr hc32 hle
    constructor
    · rw [encoder_put_rangecoder_eq ac lo fr c hc32, Nat.shiftRight_eq_div_pow]
      by_cases hr0 : ac.range / 2 ^ c = 0
      · rw [hr0]
        simp only [put_core, Nat.mul_zero, Nat.zero_mod, Nat.add_zero, Nat.mod_eq_of_lt hlow,
          lt_irrefl, if_false, Option.isSome_some, false_implies, and_self]
      · have r1 : 0 < ac.range / 2 ^ c := Nat.pos_of_ne_zero hr0
        have r2 : ac.range / 2 ^ c * 2 ^ c ≤ ac.range := Nat.div_mul_le_self _ _
        have hle2 : (lo + fr) * (ac.range / 2 ^ c) ≤ ac.range :=
          le_trans (by rw [Nat.mul_comm]; exact Nat.mul_le_mul_left _ hle) r2
        have hpos : 0 < fr * (ac.range / 2 ^ c) := Nat.mul_pos hfr r1
        obtain ⟨a1, p1, -⟩ := put_core_spec ac lo fr _ hinv hle2 hpos
        constructor
        · rw [p1]; rfl
        · intro hwrap
          have e : (lo + fr) * (ac.range / 2 ^ c) = lo * (ac.range / 2 ^ c) +
              fr * (ac.range / 2 ^ c) := by ring
          have hx : lo * (ac.range / 2 ^ c) < ac.range := by omega
          rw [Nat.mod_eq_of_lt (by omega : lo * (ac.range / 2 ^ c) < 2 ^ 32)] at hwrap
          exact carry_safe_of_wrap ac hinv _ hx (by omega)
    · intro hs
      have hsz : c + 8 ≤ Nat.size ac.range := by
        have := (clz32_eq ac.range (by omega) h32).1
        have e8 : RECIP_ARITH_TABLE_BITS = 8 := rfl
        omega
      obtain ⟨r1, r2, -⟩ := recip_r_norm_bounds ac.range c hsz
      have hle2 : (lo + fr) * recip_r_norm ac.range c ≤ ac.range :=
        le_trans (by rw [Nat.mul_comm]; exact Nat.mul_le_mul_left _ hle) r2
      have hpos : 0 < fr * recip_r_norm ac.range c := Nat.mul_pos hfr r1
      obtain ⟨a1, p1, -⟩ := put_core_spec ac lo fr _ hinv hle2 hpos
      constructor
      · rw [encoder_put_eq ac lo fr c h32 hsz, p1]; rfl
      · rw [recip_arith_r_norm_eq ac.range c (by omega) h32 hsz]
        intro hwrap
        have e : (lo + fr) * recip_r_norm ac.range c = lo * recip_r_norm ac.range c +
            fr * recip_r_norm ac.range c := by ring
        have hx : lo * recip_r_norm ac.range c < ac.range := by omega
        rw [Nat.mod_eq_of_lt (by omega : lo * recip_r_norm ac.range c < 2 ^ 32)] at hwrap
        exact carry_safe_of_wrap ac hinv _ hx (by omega)
  · obtain ⟨fin, f1, -⟩ := encoder_finish_spec ac hinv h24
    rw [f1]; rfl
  · intro hwrap
    by_cases hr : 2 ^ 25 < ac.range
    · rw [if_pos hr] at hwrap
      exact carry_safe_of_wrap ac hinv (2 ^ 24) (by omega) (by omega)
    · rw [if_neg hr] at hwrap
      exact carry_safe_of_wrap ac hinv (2 ^ 16) (by omega) (by omega)

/-- An instance of `carry_stays_in_emitted_bytes`: after `put(16777214, 1, 24)` and `renorm` from `start` the encoder has
stored `FE FF FE`; the next `put(16777215, 1, 24)` wraps `low`, and the carry walk stays in
the three stored bytes. -/
theorem carry_stays_in_emitted_bytes_example : carry_stays_in_buffer [254, 255, 254] :=
  ((((carry_stays_in_emitted_bytes ⟨33554432, 4278190080, [254, 255, 254]⟩
    (Reachable.put recip_arith_encoder_start ⟨4278189570, 255, []⟩
      ⟨33554432, 4278190080, [254, 255, 254]⟩ 16777214 1 24 Reachable.start
      (by decide) (by decide) (by decide) (by decide) (by decide))).1
    16777215 1 24 (by decide) (by decide) (by decide)).2 (by decide)).2 (by decide))

/-- Bound on the target of `peek`: for `cdf_bits ≤ 16` and every decoder state with `2 ^ 24 ≤ range < 2 ^ 32`
and `code < range`, `peek` returns a target and stores `r_norm` in `range`; the target is at
most `2 ^ cdf_bits + (2 ^ cdf_bits - 1) / 128`, it is at most `2 ^ cdf_bits` when
`cdf_bits ≤ 7`, and it is below `2 ^ cdf_bits` whenever `code < 2 ^ cdf_bits * r_norm`, which
is the case for every code inside an interval chosen by the encoder. -/
theorem decoder_peek_target_bound (d : recip_arith_decoder) (c : Nat) (hc : c ≤ 16)
    (h24 : 2 ^ 24 ≤ d.range) (h32 : d.range < 2 ^ 32) (hcode : d.code < d.range) :
    ∃ target, recip_arith_decoder_peek recip_arith_table d c
        = some (target, { d with range := recip_arith_r_norm d.range c }) ∧
      target ≤ 2 ^ c + (2 ^ c - 1) / 128 ∧
      (c ≤ 7 → target ≤ 2 ^ c) ∧
      (d.code < 2 ^ c * recip_arith_r_norm d.range c → target < 2 ^ c) := by
  have hsz : 25 ≤ Nat.size d.range := size_ge_of_le d.range 24 h24
  have hs : c + 8 ≤ Nat.size d.range := by omega
  have hr : recip_arith_r_norm d.range c = recip_r_norm d.range c :=
    recip_arith_r_norm_eq d.range c (by omega) h32 hs
  refine ⟨d.code / recip_r_norm d.range c, ?_, target_bound d.range d.code c hs hcode, ?_, ?_⟩
  · rw [decoder_peek_eq d c h32 hs hc hcode, hr]
  · intro h7
    have hb := target_bound d.range d.code c hs hcode
    have h128 : (2 : Nat) ^ c ≤ 2 ^ 7 := Nat.pow_le_pow_right (by norm_num) h7
    have hz : (2 ^ c - 1) / 128 = 0 := by
      apply Nat.div_eq_of_lt
      have : 0 < 2 ^ c := Nat.pow_pos (by norm_num)
      omega
    omega
  · intro hlt
    rw [hr] at hlt
    obtain ⟨r1, -⟩ := recip_r_norm_bounds d.range c hs
    exact (Nat.div_lt_iff_lt_mul r1).2 hlt


/-! # The claims -/

set_option maxRecDepth 100000 in
/-- C1, evaluated on the code at `cdf_bits = 24 = RECIP_ARITH_MAX_CDF_BITS`: the table of
frequencies `[16777214, 1, 1]` is valid (all frequencies at least 1, sum `2 ^ 24`), the
symbols `[1, 2]` are encoded to seven bytes, and the reciprocal decoder reading these seven
bytes (cursor at 7 afterwards, so no later byte is read) returns `2` as first symbol;
decoding two symbols does not return `[1, 2]`. -/
theorem C1_recip_roundtrip_fails_at_max_cdf_bits :
    RECIP_ARITH_MAX_CDF_BITS = 24 ∧ List.sum [16777214, 1, 1] = 2 ^ 24 ∧
    encode_with recip_arith_encoder_put [16777214, 1, 1] 24 [1, 2]
      = some [254, 255, 255, 0, 255, 255, 2] ∧
    (decode_with (recip_arith_decoder_peek recip_arith_table) recip_arith_decoder_remove
        (cdf_lookup [16777214, 1, 1]) (buffer_of [254, 255, 255, 0, 255, 255, 2] (fun _ => 0))
        [16777214, 1, 1] 24 1).map (fun r => (r.1, r.2.ptr)) = some ([2], 7) ∧
    (decode_with (recip_arith_decoder_peek recip_arith_table) recip_arith_decoder_remove
        (cdf_lookup [16777214, 1, 1]) (buffer_of [254, 255, 255, 0, 255, 255, 2] (fun _ => 0))
        [16777214, 1, 1] 24 2).map Prod.fst ≠ some [1, 2] := by
  refine ⟨by decide, by decide, by decide, by decide, by decide⟩

/-- C2: for `cdf_bits = 13`, every table of 256 frequencies that sum to `2 ^ 13` and every
sequence of bytes whose symbols all have frequency at least 1: the reciprocal encoder block
returns an output, and the reciprocal decoder block, looking symbols up in `decode_table`,
reproduces the sequence from any memory that starts with that output. -/
theorem C2_recip_roundtrip_cdf_bits_13 (hist syms : List Nat) (hlen : hist.length = 256)
    (hsum : hist.sum = 2 ^ 13) (hsyms : ∀ s ∈ syms, s < 256 ∧ 1 ≤ hist.getD s 0) :
    ∃ out, encode_with recip_arith_encoder_put hist 13 syms = some out ∧
      ∀ buf, StartsWith buf out →
        (decode_with (recip_arith_decoder_peek recip_arith_table) recip_arith_decoder_remove
          (fun target => (decode_table hist (2 ^ 13)).getD target 0) buf hist 13
          syms.length).map Prod.fst = some syms := by
  have hsyms' : ∀ s ∈ syms, s < hist.length ∧ 1 ≤ hist.getD s 0 := by
    intro s hs; rw [hlen]; exact hsyms s hs
  have hv := valid_of_table hist 13 syms hsum hsyms'
  have hlk : ∀ s ∈ syms, ∀ t, cdf hist s ≤ t → t < cdf hist (s + 1) →
      (fun target => (decode_table hist (2 ^ 13)).getD target 0) t = s := by
    intro s hs t h1 h2
    have h3 := cdf_le_sum hist (s + 1)
    simp only []
    rw [decode_table_getD hist _ t (by omega) (by omega)]
    exact cdf_lookup_spec hist s t (hsyms' s hs).1 h1 h2
  obtain ⟨out, e1, e2⟩ := recip_roundtrip hist syms 13 _ (by norm_num) hv hlk
  refine ⟨out, e1, fun buf hbuf => ?_⟩
  obtain ⟨dN, d1, -⟩ := e2 buf hbuf
  rw [d1]; rfl

set_option maxRecDepth 100000 in
/-- Witness of C2: the uniform table over 256 symbols and the bytes `[0, 255, 7]`. -/
theorem C2_recip_roundtrip_cdf_bits_13_witness :
    ∃ out, encode_with recip_arith_encoder_put (List.replicate 256 32) 13 [0, 255, 7] = some out ∧
      ∀ buf, StartsWith buf out →
        (decode_with (recip_arith_decoder_peek recip_arith_table) recip_arith_decoder_remove
          (fun target => (decode_table (List.replicate 256 32) (2 ^ 13)).getD target 0) buf
          (List.replicate 256 32) 13 [0, 255, 7].length).map Prod.fst = some [0, 255, 7] :=
  C2_recip_roundtrip_cdf_bits_13 (List.replicate 256 32) [0, 255, 7] (by decide) (by decide)
    (by decide)

/-- C3: for `cdf_bits ≤ 24`, every table of frequencies that sum to `2 ^ cdf_bits` and every
sequence of symbols of frequency at least 1: the reference encoder block returns an output,
and the reference decoder block (`peek_rangecoder`, lookup of the symbol `s` with
`cdf[s] ≤ target < cdf[s+1]`, `remove_rangecoder`, `renorm`) reproduces the sequence from any
memory that starts with that output. -/
theorem C3_rangecoder_roundtrip (hist syms : List Nat) (c : Nat) (hc : c ≤ 24)
    (hsum : hist.sum = 2 ^ c) (hsyms : ∀ s ∈ syms, s < hist.length ∧ 1 ≤ hist.getD s 0) :
    ∃ out, encode_with recip_arith_encoder_put_rangecoder hist c syms = some out ∧
      ∀ buf, StartsWith buf out →
        (decode_with recip_arith_decoder_peek_rangecoder recip_arith_decoder_remove_rangecoder
          (cdf_lookup hist) buf hist c syms.length).map Prod.fst = some syms := by
  have hv := valid_of_table hist c syms hsum hsyms
  obtain ⟨out, e1, e2⟩ := rangecoder_roundtrip hist syms c (cdf_lookup hist) hc hv
    (fun s hs t h1 h2 => cdf_lookup_spec hist s t (hsyms s hs).1 h1 h2)
  refine ⟨out, e1, fun buf hbuf => ?_⟩
  obtain ⟨dN, d1, -⟩ := e2 buf hbuf
  rw [d1]; rfl

/-- Witness of C3: `cdf_bits = 24`, frequencies `[16777214, 1, 1]`, symbols `[1, 2]`. -/
theorem C3_rangecoder_roundtrip_witness :
    ∃ out, encode_with recip_arith_encoder_put_rangecoder [16777214, 1, 1] 24 [1, 2] = some out ∧
      ∀ buf, StartsWith buf out →
        (decode_with recip_arith_decoder_peek_rangecoder recip_arith_decoder_remove_rangecoder
          (cdf_lookup [16777214, 1, 1]) buf [16777214, 1, 1] 24 [1, 2].length).map Prod.fst
            = some [1, 2] :=
  C3_rangecoder_roundtrip [16777214, 1, 1] [1, 2] 24 (by decide) (by decide) (by decide)

/-- C4: for every `cdf_bits` with `3 * cdf_bits + RECIP_ARITH_TABLE_BITS ≤ 56`, every table of
frequencies that sum to `2 ^ cdf_bits` and every sequence of symbols of frequency at least 1:
the output of the 32-bit reciprocal encoder block is decoded back to the sequence by the
64-bit decoder block (`start`, triples of `peek`/lookup/`remove` with one `renorm` per triple,
then one symbol and one `renorm` at a time for the last `length % 3` symbols), from any
memory that starts with that output. -/
theorem C4_decoder64_batched_roundtrip (hist syms : List Nat) (c : Nat)
    (hc : 3 * c + RECIP_ARITH_TABLE_BITS ≤ 56)
    (hsum : hist.sum = 2 ^ c) (hsyms : ∀ s ∈ syms, s < hist.length ∧ 1 ≤ hist.getD s 0) :
    ∃ out, encode_with recip_arith_encoder_put hist c syms = some out ∧
      ∀ buf, StartsWith buf out →
        (decode64_with recip_arith_table (cdf_lookup hist) buf hist c syms.length).map Prod.fst
          = some syms := by
  have hc16 : c ≤ 16 := by
    have : RECIP_ARITH_TABLE_BITS = 8 := rfl
    omega
  have hv := valid_of_table hist c syms hsum hsyms
  obtain ⟨out, e1, e2⟩ := decode64_roundtrip hist syms c (cdf_lookup hist) hc16 hv
    (fun s hs t h1 h2 => cdf_lookup_spec hist s t (hsyms s hs).1 h1 h2)
  refine ⟨out, e1, fun buf hbuf => ?_⟩
  obtain ⟨dN, d1⟩ := e2 buf hbuf
  rw [d1]; rfl

/-- Witness of C4: `cdf_bits = 16`, frequencies `[65535, 1]`, five symbols. -/
theorem C4_decoder64_batched_roundtrip_witness :
    ∃ out, encode_with recip_arith_encoder_put [65535, 1] 16 [1, 0, 1, 1, 0] = some out ∧
      ∀ buf, StartsWith buf out →
        (decode64_with recip_arith_table (cdf_lookup [65535, 1]) buf [65535, 1] 16
          [1, 0, 1, 1, 0].length).map Prod.fst = some [1, 0, 1, 1, 0] :=
  C4_decoder64_batched_roundtrip [65535, 1] [1, 0, 1, 1, 0] 16 (by decide) (by decide) (by decide)

/-- C5: after `recip_arith_table_init`, for every index `i` with
`2 ^ (RECIP_ARITH_TABLE_BITS - 1) ≤ i < 2 ^ RECIP_ARITH_TABLE_BITS` the entry
`recip_arith_table[i]` is the ceiling of `2 ^ RECIP_ARITH_NUMERATOR_BITS / i`, and that
ceiling is below `2 ^ 32`, so that the 64-bit value computed by the loop has no bit at or
above bit 32. -/
theorem C5_table_is_ceiling (i : Nat) (h1 : 2 ^ (RECIP_ARITH_TABLE_BITS - 1) ≤ i)
    (h2 : i < 2 ^ RECIP_ARITH_TABLE_BITS) :
    recip_arith_table.getD i 0 = ⌈((2 : ℚ) ^ RECIP_ARITH_NUMERATOR_BITS) / (i : ℚ)⌉₊ ∧
      ⌈((2 : ℚ) ^ RECIP_ARITH_NUMERATOR_BITS) / (i : ℚ)⌉₊ < 2 ^ 32 ∧
      (((1 <<< RECIP_ARITH_NUMERATOR_BITS) + i - 1) / i) >>> 32 = 0 := by
  have h1' : 128 ≤ i := h1
  have h2' : i < 256 := h2
  have hb : (2 ^ 32 + i - 1) / i < 2 ^ 32 := by
    apply Nat.div_lt_of_lt_mul
    omega
  have e32 : (1 <<< RECIP_ARITH_NUMERATOR_BITS) = 2 ^ 32 := by decide
  simp only [RECIP_ARITH_NUMERATOR_BITS] at e32 ⊢
  rw [ceil_recip i (by omega), recip_arith_table_getD i h1' h2', e32,
    Nat.shiftRight_eq_div_pow]
  exact ⟨rfl, hb, Nat.div_eq_of_lt hb⟩

/-- Witness of C5 at `i = 200`. -/
theorem C5_table_is_ceiling_witness :
    recip_arith_table.getD 200 0 = ⌈((2 : ℚ) ^ RECIP_ARITH_NUMERATOR_BITS) / ((200 : Nat) : ℚ)⌉₊ ∧
      ⌈((2 : ℚ) ^ RECIP_ARITH_NUMERATOR_BITS) / ((200 : Nat) : ℚ)⌉₊ < 2 ^ 32 ∧
      (((1 <<< RECIP_ARITH_NUMERATOR_BITS) + 200 - 1) / 200) >>> 32 = 0 :=
  C5_table_is_ceiling 200 (by decide) (by decide)



set_option maxRecDepth 100000 in
/-- C6, evaluated on the code at `cdf_bits = 17`: in the decoder state `code = 2164423552`,
`range = 4278190080` (`code < range`, bit length of `range` 32, at least `17 + 8`), `peek`
computes `r_top = 255`, `r_norm = 255 << 7 = 32640`, `code_necessary_bits = 16909559` and
returns the target `66312`, while `code_necessary_bits / r_top = code / r_norm = 66311`. -/
theorem C6_peek_not_exact_at_cdf_bits_17 :
    (2164423552 : Nat) < 4278190080 ∧ 17 + RECIP_ARITH_TABLE_BITS ≤ 32 - clz32 4278190080 ∧
    recip_arith_decoder_peek recip_arith_table ⟨2164423552, 4278190080, 4⟩ 17
      = some (66312, ⟨2164423552, 32640, 4⟩) ∧
    (4278190080 : Nat) >>> 24 = 255 ∧ (2164423552 : Nat) >>> 7 = 16909559 ∧
    (16909559 : Nat) / 255 = 66311 ∧ (2164423552 : Nat) / 32640 = 66311 := by
  refine ⟨by decide, by decide, by decide, by decide, by decide, by decide, by decide⟩

/-- C7: for `cdf_bits ≤ 16`, every table of frequencies that sum to `2 ^ cdf_bits` and every
sequence of symbols of frequency at least 1, both encoder blocks return an output and the
output of the reciprocal encoder has at least as many bytes as that of the reference
encoder. -/
theorem C7_recip_output_not_shorter (hist syms : List Nat) (c : Nat) (hc : c ≤ 16)
    (hsum : hist.sum = 2 ^ c) (hsyms : ∀ s ∈ syms, s < hist.length ∧ 1 ≤ hist.getD s 0) :
    ∃ out_recip out_ref, encode_with recip_arith_encoder_put hist c syms = some out_recip ∧
      encode_with recip_arith_encoder_put_rangecoder hist c syms = some out_ref ∧
      out_recip.length ≥ out_ref.length :=
  encode_lengths_compare hist syms c hc (valid_of_table hist c syms hsum hsyms)

/-- Witness of C7: `cdf_bits = 2`, frequencies `[3, 1]`, symbols `[0, 0, 0, 1]`. -/
theorem C7_recip_output_not_shorter_witness :
    ∃ out_recip out_ref, encode_with recip_arith_encoder_put [3, 1] 2 [0, 0, 0, 1]
        = some out_recip ∧
      encode_with recip_arith_encoder_put_rangecoder [3, 1] 2 [0, 0, 0, 1] = some out_ref ∧
      out_recip.length ≥ out_ref.length :=
  C7_recip_output_not_shorter [3, 1] [0, 0, 0, 1] 2 (by decide) (by decide) (by decide)

set_option maxRecDepth 100000 in
/-- C8 fails as stated: with `cdf_bits = 2`, frequencies `[3, 1]` and symbols `[0, 0, 0, 1]`
the number of bytes the decoder has consumed after the four symbols differs from the number
of bytes the encoder produced: the encoder produces the single byte `0x51`, and the decoder,
having decoded the four symbols, has its cursor four bytes after the start of the input. -/
theorem C8_decoder_reads_past_encoder_output :
    (decode_with (recip_arith_decoder_peek recip_arith_table) recip_arith_decoder_remove
        (cdf_lookup [3, 1]) (buffer_of [81] (fun _ => 0)) [3, 1] 2 4).map (fun r => r.2.ptr)
      ≠ (encode_with recip_arith_encoder_put [3, 1] 2 [0, 0, 0, 1]).map List.length ∧
    encode_with recip_arith_encoder_put [3, 1] 2 [0, 0, 0, 1] = some [81] ∧
    (decode_with (recip_arith_decoder_peek recip_arith_table) recip_arith_decoder_remove
        (cdf_lookup [3, 1]) (buffer_of [81] (fun _ => 0)) [3, 1] 2 4).map
      (fun r => (r.1, r.2.ptr)) = some ([0, 0, 0, 1], 4) := by
  refine ⟨by decide, by decide, by decide⟩

/-- C8 as amended: for `cdf_bits ≤ 16`, every table of frequencies that sum to `2 ^ cdf_bits`
and every sequence of symbols of frequency at least 1, the reciprocal decoder, having decoded
all symbols from a memory that starts with the encoder's output, has its cursor at the
output length plus 3 when its final range exceeds `2 ^ 25` (`finish` wrote one byte) and at
the output length plus 2 otherwise (`finish` wrote two bytes): it has read the four bytes of
`start` and one byte for each byte the encoder stored in `renorm`. -/
theorem C8_decoder_cursor (hist syms : List Nat) (c : Nat) (hc : c ≤ 16)
    (hsum : hist.sum = 2 ^ c) (hsyms : ∀ s ∈ syms, s < hist.length ∧ 1 ≤ hist.getD s 0) :
    ∃ out, encode_with recip_arith_encoder_put hist c syms = some out ∧
      ∀ buf, StartsWith buf out →
        ∃ dN, decode_with (recip_arith_decoder_peek recip_arith_table) recip_arith_decoder_remove
            (cdf_lookup hist) buf hist c syms.length = some (syms, dN) ∧
          ((2 ^ 25 < dN.range ∧ dN.ptr = out.length + 3) ∨
           (dN.range ≤ 2 ^ 25 ∧ dN.ptr = out.length + 2)) :=
  recip_roundtrip hist syms c (cdf_lookup hist) hc (valid_of_table hist c syms hsum hsyms)
    (fun s hs t h1 h2 => cdf_lookup_spec hist s t (hsyms s hs).1 h1 h2)

/-- Witness of C8 as amended: `cdf_bits = 2`, frequencies `[3, 1]`, symbols `[0, 0, 0, 1]`. -/
theorem C8_decoder_cursor_witness :
    ∃ out, encode_with recip_arith_encoder_put [3, 1] 2 [0, 0, 0, 1] = some out ∧
      ∀ buf, StartsWith buf out →
        ∃ dN, decode_with (recip_arith_decoder_peek recip_arith_table) recip_arith_decoder_remove
            (cdf_lookup [3, 1]) buf [3, 1] 2 [0, 0, 0, 1].length = some ([0, 0, 0, 1], dN) ∧
          ((2 ^ 25 < dN.range ∧ dN.ptr = out.length + 3) ∨
           (dN.range ≤ 2 ^ 25 ∧ dN.ptr = out.length + 2)) :=
  C8_decoder_cursor [3, 1] [0, 0, 0, 1] 2 (by decide) (by decide) (by decide)

/-- C9: for every encoder state with `range ≥ 2 ^ 24` in which the walk of `carry`, if the
addition wraps, meets a stored byte other than `0xFF` (the precondition of `carry`):
`finish` stores exactly one byte when `range > 2 ^ 25` and exactly two bytes otherwise; every
32-bit value `V` whose leading byte (resp. two leading bytes) is the stored one satisfies
`(V - low) mod 2 ^ 32 < range`; and the bytes stored before are left as they were when
`low + 2 ^ 24` (resp. `low + 2 ^ 16`) stays below `2 ^ 32` and are replaced by the result of
the carry walk exactly when it does not. -/
theorem C9_finish_unambiguous (ac : recip_arith_encoder) (hlow : ac.low < 2 ^ 32)
    (h24 : 2 ^ 24 ≤ ac.range)
    (hcarry : 2 ^ 32 ≤ ac.low + (if 2 ^ 25 < ac.range then 2 ^ 24 else 2 ^ 16) →
      ∃ b ∈ ac.written, (b + 1) % 256 ≠ 0) :
    ∃ fin, recip_arith_encoder_finish ac = some fin ∧
      (2 ^ 25 < ac.range → ∃ b w, fin.written = b :: w ∧ w.length = ac.written.length ∧
        b < 256 ∧
        (∀ V, V < 2 ^ 32 → V / 2 ^ 24 = b → (V + 2 ^ 32 - ac.low) % 2 ^ 32 < ac.range) ∧
        (ac.low + 2 ^ 24 < 2 ^ 32 → w = ac.written) ∧
        (2 ^ 32 ≤ ac.low + 2 ^ 24 → recip_arith_encoder_carry_bytes ac.written = some w)) ∧
      (ac.range ≤ 2 ^ 25 → ∃ b1 b2 w, fin.written = b2 :: b1 :: w ∧
        w.length = ac.written.length ∧ b1 < 256 ∧ b2 < 256 ∧
        (∀ V, V < 2 ^ 32 → V / 2 ^ 16 = b1 * 256 + b2 →
          (V + 2 ^ 32 - ac.low) % 2 ^ 32 < ac.range) ∧
        (ac.low + 2 ^ 16 < 2 ^ 32 → w = ac.written) ∧
        (2 ^ 32 ≤ ac.low + 2 ^ 16 → recip_arith_encoder_carry_bytes ac.written = some w)) := by
  have e24 : (1 <<< 24 : Nat) = 2 ^ 24 := by decide
  have e25 : (1 <<< 25 : Nat) = 2 ^ 25 := by decide
  have e16 : (1 <<< 16 : Nat) = 2 ^ 16 := by decide
  unfold recip_arith_encoder_finish
  simp only [e24, e25, e16, Nat.shiftRight_eq_div_pow]
  by_cases hr : ac.range > 2 ^ 25
  · rw [if_pos hr] at hcarry ⊢
    by_cases hw : ac.low + 2 ^ 24 < 2 ^ 32
    · rw [Nat.mod_eq_of_lt hw, if_neg (by omega)]
      refine ⟨_, rfl, fun _ => ⟨_, _, rfl, rfl, by omega, ?_, fun _ => rfl, fun h => by omega⟩,
        fun h => by omega⟩
      intro V hV hVb
      omega
    · have hmod : (ac.low + 2 ^ 24) % 2 ^ 32 = ac.low + 2 ^ 24 - 2 ^ 32 := by omega
      rw [hmod, if_pos (by omega)]
      obtain ⟨w', hw1, hw2⟩ := carry_bytes_some ac.written (hcarry (by omega))
      refine ⟨⟨ac.low, ac.range, (ac.low + 2 ^ 24 - 2 ^ 32) / 2 ^ 24 % 256 :: w'⟩, ?_,
        fun _ => ⟨_, _, rfl, hw2, by omega, ?_, fun h => by omega, fun _ => hw1⟩,
        fun h => by omega⟩
      · simp [recip_arith_encoder_carry, hw1]
      · intro V hV hVb
        omega
  · rw [if_neg hr] at hcarry ⊢
    by_cases hw : ac.low + 2 ^ 16 < 2 ^ 32
    · rw [Nat.mod_eq_of_lt hw, if_neg (by omega)]
      refine ⟨_, rfl, fun h => by omega,
        fun _ => ⟨_, _, _, rfl, rfl, by omega, by omega, ?_, fun _ => rfl, fun h => by omega⟩⟩
      intro V hV hVb
      omega
    · have hmod : (ac.low + 2 ^ 16) % 2 ^ 32 = ac.low + 2 ^ 16 - 2 ^ 32 := by omega
      rw [hmod, if_pos (by omega)]
      obtain ⟨w', hw1, hw2⟩ := carry_bytes_some ac.written (hcarry (by omega))
      refine ⟨⟨ac.low, ac.range, (ac.low + 2 ^ 16 - 2 ^ 32) / 2 ^ 16 % 256 ::
        (ac.low + 2 ^ 16 - 2 ^ 32) / 2 ^ 24 % 256 :: w'⟩, ?_, fun h => by omega,
        fun _ => ⟨_, _, _, rfl, hw2, by omega, by omega, ?_, fun h => by omega, fun _ => hw1⟩⟩
      · simp [recip_arith_encoder_carry, hw1]
      · intro V hV hVb
        omega


/-- Witness of C9: `low = 0xFF000001`, `range = 2 ^ 26`, one stored byte `0x00`; the addition
of `2 ^ 24` wraps and the carry walk turns the stored byte into `0x01`. -/
theorem C9_finish_unambiguous_witness :
    ∃ fin, recip_arith_encoder_finish ⟨4278190081, 67108864, [0]⟩ = some fin ∧
      ((2 : Nat) ^ 25 < 67108864 → ∃ b w, fin.written = b :: w ∧ w.length = [0].length ∧
        b < 256 ∧
        (∀ V, V < 2 ^ 32 → V / 2 ^ 24 = b → (V + 2 ^ 32 - 4278190081) % 2 ^ 32 < 67108864) ∧
        (4278190081 + 2 ^ 24 < 2 ^ 32 → w = [0]) ∧
        (2 ^ 32 ≤ 4278190081 + 2 ^ 24 → recip_arith_encoder_carry_bytes [0] = some w)) ∧
      (67108864 ≤ 2 ^ 25 → ∃ b1 b2 w, fin.written = b2 :: b1 :: w ∧
        w.length = [0].length ∧ b1 < 256 ∧ b2 < 256 ∧
        (∀ V, V < 2 ^ 32 → V / 2 ^ 16 = b1 * 256 + b2 →
          (V + 2 ^ 32 - 4278190081) % 2 ^ 32 < 67108864) ∧
        (4278190081 + 2 ^ 16 < 2 ^ 32 → w = [0]) ∧
        (2 ^ 32 ≤ 4278190081 + 2 ^ 16 → recip_arith_encoder_carry_bytes [0] = some w)) :=
  C9_finish_unambiguous ⟨4278190081, 67108864, [0]⟩ (by decide) (by decide) (by decide)


set_option maxRecDepth 100000 in
/-- C10, evaluated on the code at `cdf_bits = 24 = RECIP_ARITH_MAX_CDF_BITS`: after `start`,
`put (14680064, 2097152, 24)` and `renorm` the encoder is at `low = 3743416320`,
`range = 534773760` (bit length 29) with no byte stored. The next `put (1, 1, 24)` meets
all three asserted preconditions, its first shift count is `21` (`r_top = 255`) and its
second shift count is `29 - 8 - 24 = -3`, so `put` is undefined. With the count taken modulo
32 the shifted value is `(255 << 29) mod 2 ^ 32 = 3758096384`; adding `1 * 3758096384` to
`low` wraps, and the walk of `carry` has no stored byte to stop at. -/
theorem C10_carry_before_buffer_at_cdf_bits_24 :
    (14680064 + 2097152 ≤ 2 ^ 24 ∧ 0 < 2097152 ∧
      2 ^ 24 ≤ recip_arith_encoder_start.range ∧ 24 ≤ RECIP_ARITH_MAX_CDF_BITS) ∧
    (recip_arith_encoder_put recip_arith_encoder_start 14680064 2097152 24).bind
      recip_arith_encoder_renorm = some ⟨3743416320, 534773760, []⟩ ∧
    (1 + 1 ≤ 2 ^ 24 ∧ 0 < 1 ∧ 2 ^ 24 ≤ 534773760) ∧
    put_shift_top 534773760 = 21 ∧ recip_arith_r_top 534773760 = 255 ∧
    put_shift_norm 534773760 24 = -3 ∧
    recip_arith_encoder_put ⟨3743416320, 534773760, []⟩ 1 1 24 = none ∧
    (recip_arith_r_top 534773760 <<< (put_shift_norm 534773760 24 % 32).toNat) % 2 ^ 32
      = 3758096384 ∧
    (3743416320 + (1 * 3758096384) % 2 ^ 32) % 2 ^ 32 < 3743416320 ∧
    put_core ⟨3743416320, 534773760, []⟩ 1 1 3758096384 = none ∧
    recip_arith_encoder_carry ⟨3206545408, 3758096384, []⟩ = none := by
  refine ⟨by decide, by decide, by decide, by decide, by decide, by decide, by decide,
    by decide, by decide, by decide, by decide⟩

/-- C11: for every `cdf_bits ≤ 24` and every `n`, with the one-symbol table
(`cdf_low = 0`, `cdf_freq = 2 ^ cdf_bits`): after any number `k` of symbols the next `put`
leaves a state that `renorm` returns unchanged, with no byte stored; the encoder block on
`n` copies of the symbol returns the single byte `0x01` written by `finish`; and the
reciprocal decoder block returns `n` copies of the symbol from any memory that starts with
that byte, for any lookup that maps the targets below `2 ^ cdf_bits` to the symbol. -/
theorem C11_degenerate_alphabet (c n : Nat) (hc : c ≤ 24) :
    (cdf [2 ^ c] 0 = 0 ∧ cdf [2 ^ c] 1 - cdf [2 ^ c] 0 = 2 ^ c) ∧
    (∀ k, ∃ ac ac1,
      encode_symbols recip_arith_encoder_put [2 ^ c] c recip_arith_encoder_start
        (List.replicate k 0) = some ac ∧
      recip_arith_encoder_put ac (cdf [2 ^ c] 0) (cdf [2 ^ c] 1 - cdf [2 ^ c] 0) c = some ac1 ∧
      recip_arith_encoder_renorm ac1 = some ac1 ∧ ac.written = [] ∧ ac1.written = []) ∧
    encode_with recip_arith_encoder_put [2 ^ c] c (List.replicate n 0) = some [1] ∧
    ∀ (buf : Nat → Nat) (lookup : Nat → Nat), StartsWith buf [1] →
      (∀ t, t < 2 ^ c → lookup t = 0) →
      (decode_with (recip_arith_decoder_peek recip_arith_table) recip_arith_decoder_remove
        lookup buf [2 ^ c] c n).map Prod.fst = some (List.replicate n 0) := by
  have hstart : recip_arith_encoder_start = ⟨0, 4294967295, []⟩ := by
    simp [recip_arith_encoder_start]
  refine ⟨?_, ?_, ?_, ?_⟩
  · obtain ⟨e1, e2⟩ := cdf_single (2 ^ c)
    rw [e1, e2]
    exact ⟨rfl, rfl⟩
  · intro k
    obtain ⟨R, hR, hk⟩ := degenerate_encode c hc k 4294967295 (Or.inl rfl)
    obtain ⟨p1, p2⟩ := degenerate_put R c hR hc
    exact ⟨⟨0, R, []⟩, ⟨0, 4278190080, []⟩, by rw [hstart]; exact hk, p1, p2, rfl, rfl⟩
  · obtain ⟨R, hR, hk⟩ := degenerate_encode c hc n 4294967295 (Or.inl rfl)
    unfold encode_with
    rw [hstart, hk]
    simp only [Option.some_bind]
    rw [degenerate_finish R hR]
    rfl
  · intro buf lookup hbuf hl
    obtain ⟨s1, s2, s3⟩ := decoder_start_spec buf
    have hb0 : buf 0 = 1 := hbuf 0 (by simp)
    have hcode : (recip_arith_decoder_start buf 0).code < 2 ^ 25 := by
      rw [s1]
      have b1 := Nat.mod_lt (buf 1) (by norm_num : 0 < 256)
      have b2 := Nat.mod_lt (buf 2) (by norm_num : 0 < 256)
      have b3 := Nat.mod_lt (buf 3) (by norm_num : 0 < 256)
      simp only [be_window, Nat.zero_add, hb0]
      omega
    have hst : recip_arith_decoder_start buf 0
        = ⟨(recip_arith_decoder_start buf 0).code, 4294967295, 4⟩ := by
      have e2 : (recip_arith_decoder_start buf 0).range = 4294967295 := by rw [s2]; norm_num
      rcases hd : recip_arith_decoder_start buf 0 with ⟨a, b, p⟩
      rw [hd] at e2 s3
      simp only at e2 s3
      rw [e2, s3]
    obtain ⟨R', h⟩ := degenerate_decode c hc lookup hl buf n
      (recip_arith_decoder_start buf 0).code 4294967295 4 (Or.inl rfl) hcode
    unfold decode_with
    rw [hst, h]
    rfl

set_option maxRecDepth 100000 in
/-- Witness for C11 at `cdf_bits = 24` and `n = 5`, with the scan of the frequencies as
lookup on the memory that holds the byte `0x01` followed by `0xFF` bytes. -/
theorem C11_degenerate_alphabet_witness :
    encode_with recip_arith_encoder_put [2 ^ 24] 24 (List.replicate 5 0) = some [1] ∧
    (decode_with (recip_arith_decoder_peek recip_arith_table) recip_arith_decoder_remove
      (cdf_lookup [2 ^ 24]) (buffer_of [1] (fun _ => 255)) [2 ^ 24] 24 5).map Prod.fst
        = some (List.replicate 5 0) :=
  ⟨(C11_degenerate_alphabet 24 5 (by decide)).2.2.1,
    (C11_degenerate_alphabet 24 5 (by decide)).2.2.2 (buffer_of [1] (fun _ => 255))
      (cdf_lookup [2 ^ 24]) (by intro i hi; simp at hi; subst hi; rfl)
      (fun t ht => by simp only [cdf_lookup, if_pos ht])⟩

/-- C12: with `cdf_bits = 2` and the frequencies `[3, 1]` (symbol 0: low 0, freq 3; symbol 1:
low 3, freq 1), the reciprocal encoder block and the reference encoder block both encode
`[0, 0, 0, 1]` to the single byte `0x51`, and from any memory that starts with that byte the
32-bit reciprocal decoder block, the reference decoder block and the 64-bit decoder block
each return `[0, 0, 0, 1]`. -/
theorem C12_concrete_scenario (buf : Nat → Nat) (hbuf : StartsWith buf [81]) :
    (cdf [3, 1] 0 = 0 ∧ cdf [3, 1] 1 - cdf [3, 1] 0 = 3 ∧ cdf [3, 1] 1 = 3 ∧
      cdf [3, 1] 2 - cdf [3, 1] 1 = 1 ∧ cdf [3, 1] 2 = 2 ^ 2) ∧
    encode_with recip_arith_encoder_put [3, 1] 2 [0, 0, 0, 1] = some [81] ∧
    (decode_with (recip_arith_decoder_peek recip_arith_table) recip_arith_decoder_remove
      (cdf_lookup [3, 1]) buf [3, 1] 2 4).map Prod.fst = some [0, 0, 0, 1] ∧
    encode_with recip_arith_encoder_put_rangecoder [3, 1] 2 [0, 0, 0, 1] = some [81] ∧
    (decode_with recip_arith_decoder_peek_rangecoder recip_arith_decoder_remove_rangecoder
      (cdf_lookup [3, 1]) buf [3, 1] 2 4).map Prod.fst = some [0, 0, 0, 1] ∧
    (decode64_with recip_arith_table (cdf_lookup [3, 1]) buf [3, 1] 2 4).map Prod.fst
      = some [0, 0, 0, 1] := by
  have hsum : List.sum [3, 1] = 2 ^ 2 := by decide
  have hsyms : ∀ s ∈ [0, 0, 0, 1], s < [3, 1].length ∧ 1 ≤ [3, 1].getD s 0 := by decide
  have hv := valid_of_table [3, 1] 2 [0, 0, 0, 1] hsum hsyms
  have hlk : ∀ s ∈ [0, 0, 0, 1], ∀ t, cdf [3, 1] s ≤ t → t < cdf [3, 1] (s + 1) →
      cdf_lookup [3, 1] t = s :=
    fun s hs t h1 h2 => cdf_lookup_spec [3, 1] s t (hsyms s hs).1 h1 h2
  have e1 : encode_with recip_arith_encoder_put [3, 1] 2 [0, 0, 0, 1] = some [81] := by decide
  have e2 : encode_with recip_arith_encoder_put_rangecoder [3, 1] 2 [0, 0, 0, 1] = some [81] := by
    decide
  refine ⟨by decide, e1, ?_, e2, ?_, ?_⟩
  · obtain ⟨out, o1, o2⟩ := recip_roundtrip [3, 1] [0, 0, 0, 1] 2 (cdf_lookup [3, 1])
      (by norm_num) hv hlk
    rw [e1] at o1
    obtain rfl := Option.some.inj o1
    obtain ⟨dN, d1, -⟩ := o2 buf hbuf
    have d1' : decode_with (recip_arith_decoder_peek recip_arith_table)
        recip_arith_decoder_remove (cdf_lookup [3, 1]) buf [3, 1] 2 4
          = some ([0, 0, 0, 1], dN) := d1
    rw [d1']; rfl
  · obtain ⟨out, o1, o2⟩ := rangecoder_roundtrip [3, 1] [0, 0, 0, 1] 2 (cdf_lookup [3, 1])
      (by norm_num) hv hlk
    rw [e2] at o1
    obtain rfl := Option.some.inj o1
    obtain ⟨dN, d1, -⟩ := o2 buf hbuf
    have d1' : decode_with recip_arith_decoder_peek_rangecoder
        recip_arith_decoder_remove_rangecoder (cdf_lookup [3, 1]) buf [3, 1] 2 4
          = some ([0, 0, 0, 1], dN) := d1
    rw [d1']; rfl
  · obtain ⟨out, o1, o2⟩ := decode64_roundtrip [3, 1] [0, 0, 0, 1] 2 (cdf_lookup [3, 1])
      (by norm_num) hv hlk
    rw [e1] at o1
    obtain rfl := Option.some.inj o1
    obtain ⟨dN, d1⟩ := o2 buf hbuf
    have d1' : decode64_with recip_arith_table (cdf_lookup [3, 1]) buf [3, 1] 2 4
        = some ([0, 0, 0, 1], dN) := d1
    rw [d1']; rfl

set_option maxRecDepth 100000 in
/-- Witness for C12 on the memory that holds the byte `0x51` followed by `0xFF` bytes. -/
theorem C12_concrete_scenario_witness :
    (decode_with (recip_arith_decoder_peek recip_arith_table) recip_arith_decoder_remove
      (cdf_lookup [3, 1]) (buffer_of [81] (fun _ => 255)) [3, 1] 2 4).map Prod.fst
        = some [0, 0, 0, 1] ∧
    (decode_with recip_arith_decoder_peek_rangecoder recip_arith_decoder_remove_rangecoder
      (cdf_lookup [3, 1]) (buffer_of [81] (fun _ => 255)) [3, 1] 2 4).map Prod.fst
        = some [0, 0, 0, 1] ∧
    (decode64_with recip_arith_table (cdf_lookup [3, 1]) (buffer_of [81] (fun _ => 255))
      [3, 1] 2 4).map Prod.fst = some [0, 0, 0, 1] :=
  ⟨(C12_concrete_scenario (buffer_of [81] (fun _ => 255))
      (by intro i hi; simp at hi; subst hi; rfl)).2.2.1,
    (C12_concrete_scenario (buffer_of [81] (fun _ => 255))
      (by intro i hi; simp at hi; subst hi; rfl)).2.2.2.2.1,
    (C12_concrete_scenario (buffer_of [81] (fun _ => 255))
      (by intro i hi; simp at hi; subst hi; rfl)).2.2.2.2.2⟩

set_option maxRecDepth 100000 in
/-- C13, evaluated on the code at `cdf_bits = 13`: the decoder state that `start` builds from
the input bytes `FF FF FF FE` has `range = 2 ^ 32 - 1` and `code = 2 ^ 32 - 2 < range`; both
asserted preconditions of `peek` hold (`range ≥ 2 ^ 13`, and the table entry at index 255 is
not zero), `range ≥ 2 ^ 24`, and `peek` returns the target `8224`, which exceeds
`2 ^ 13 = 8192`, so the assertion `target <= (1 << cdf_bits)` at the end of `peek` does not
hold and `8224` is not an index of a table of `2 ^ 13 + 1` entries. -/
theorem C13_target_exceeds_cdf_total :
    recip_arith_decoder_start (buffer_of [255, 255, 255, 254] (fun _ => 0)) 0
      = ⟨4294967294, 4294967295, 4⟩ ∧
    (13 ≤ 16 ∧ (2 : Nat) ^ 13 ≤ 4294967295 ∧
      recip_arith_table.getD (2 ^ RECIP_ARITH_TABLE_BITS - 1) 0 ≠ 0) ∧
    (2 : Nat) ^ 24 ≤ 4294967295 ∧ (4294967294 : Nat) < 4294967295 ∧
    recip_arith_decoder_peek recip_arith_table ⟨4294967294, 4294967295, 4⟩ 13
      = some (8224, ⟨4294967294, 522240, 4⟩) ∧
    ¬ (8224 ≤ 2 ^ 13) ∧ ¬ (8224 < 2 ^ 13 + 1) := by
  refine ⟨by decide, by decide, by decide, by decide, by decide, by decide, by decide⟩

set_option maxRecDepth 100000 in
/-- C14, evaluated on the code at `cdf_bits = 24`: with the frequency table `[2, 16777214]`
the state after `start`, `put (0, 2, 24)` and `renorm` is `low = 0`, `range = 33423360`
with two stored bytes. A second `put (0, 2, 24)` meets all three asserted preconditions
(`0 + 2 ≤ 2 ^ 24`, `2 > 0`, `range ≥ 2 ^ 24`), the first shift count is `17`, the second
shift count is `25 - 8 - 24 = -7`, and `put` is undefined. -/
theorem C14_put_shift_negative_at_cdf_bits_24 :
    (recip_arith_encoder_put recip_arith_encoder_start 0 2 24).bind recip_arith_encoder_renorm
      = some ⟨0, 33423360, [0, 0]⟩ ∧
    (0 + 2 ≤ 2 ^ 24 ∧ 0 < 2 ∧ 2 ^ 24 ≤ 33423360 ∧ 24 ≤ RECIP_ARITH_MAX_CDF_BITS) ∧
    put_shift_top 33423360 = 17 ∧
    put_shift_norm 33423360 24 = -7 ∧
    recip_arith_encoder_put ⟨0, 33423360, [0, 0]⟩ 0 2 24 = none := by
  refine ⟨by decide, by decide, by decide, by decide, by decide⟩

/-- C15 fails as stated: on an input of zero bytes `recip_arith64_decoder_start` sets `range`
to `0xFFFFFFFF00000000 = 18446744069414584320`, not to the all-ones value `2 ^ 64 - 1`. -/
theorem C15_start64_range_not_all_ones :
    (recip_arith64_decoder_start (fun _ => 0) 0).range = 18446744069414584320 ∧
    (recip_arith64_decoder_start (fun _ => 0) 0).range ≠ 2 ^ 64 - 1 := by
  refine ⟨by decide, by decide⟩

/-- C15 as amended: for every input memory and start position, `recip_arith64_decoder_start`
sets `code` to the big-endian value of the 8 bytes at the start position, sets `range` to
`0xFFFFFFFF << 32 = (2 ^ 32 - 1) * 2 ^ 32` (the start range of the 32-bit coder, 32 bits
higher), and leaves the cursor 8 bytes after the start position. -/
theorem C15_start64 (buf : Nat → Nat) (p : Nat) :
    (recip_arith64_decoder_start buf p).code = be_window buf p 8 ∧
    (recip_arith64_decoder_start buf p).range = (2 ^ 32 - 1) * 2 ^ 32 ∧
    (recip_arith64_decoder_start buf p).range = recip_arith_encoder_start.range * 2 ^ 32 ∧
    (recip_arith64_decoder_start buf p).ptr = p + 8 := by
  rw [decoder64_start_at]
  refine ⟨rfl, rfl, ?_, rfl⟩
  simp [recip_arith_encoder_start]

/-- C16: for every `range ≥ 128` that fits the width, the shift count of `r_top` is not
negative and `r_top` lies in `[128, 255]`, both for the 32-bit coder and for the 64-bit
decoder; the table entry at `r_top` is the nonzero reciprocal `(2 ^ 32 + r_top - 1) / r_top`
that `recip_arith_table_init` stores; and `r_top` is the index at which both `peek` functions
read the table. -/
theorem C16_r_top_in_populated_half (range : Nat) (h128 : 128 ≤ range) :
    (range < 2 ^ 32 →
      0 ≤ put_shift_top range ∧
      128 ≤ recip_arith_r_top range ∧ recip_arith_r_top range ≤ 255 ∧
      recip_arith_table.getD (recip_arith_r_top range) 0
        = (2 ^ 32 + recip_arith_r_top range - 1) / recip_arith_r_top range ∧
      0 < recip_arith_table.getD (recip_arith_r_top range) 0 ∧
      ∀ (table : List Nat) (code p c : Nat), c + 8 ≤ 32 - clz32 range →
        recip_arith_decoder_peek table ⟨code, range, p⟩ c =
          some (((((code >>> (32 - clz32 range - 8 - c)) *
              table.getD (recip_arith_r_top range) 0) % 2 ^ 64) >>> 32) % 2 ^ 32,
            ⟨code, recip_arith_r_norm range c, p⟩)) ∧
    (range < 2 ^ 64 →
      8 ≤ 64 - clz64 range ∧
      128 ≤ recip_arith64_r_top range ∧ recip_arith64_r_top range ≤ 255 ∧
      recip_arith_table.getD (recip_arith64_r_top range) 0
        = (2 ^ 32 + recip_arith64_r_top range - 1) / recip_arith64_r_top range ∧
      0 < recip_arith_table.getD (recip_arith64_r_top range) 0 ∧
      ∀ (table : List Nat) (code p c : Nat), c + 8 ≤ 64 - clz64 range →
        recip_arith64_decoder_peek table ⟨code, range, p⟩ c =
          some (((((code >>> (64 - clz64 range - 8 - c)) *
              table.getD (recip_arith64_r_top range) 0) % 2 ^ 64) >>> 32) % 2 ^ 32,
            ⟨code, ((recip_arith64_r_top range) <<< (64 - clz64 range - 8 - c)) % 2 ^ 64,
              p⟩)) := by
  have h8 : 8 ≤ Nat.size range := size_ge_of_le range 7 (by norm_num; omega)
  obtain ⟨t1, t2, -⟩ := top_bits_bounds range h8
  obtain ⟨e1, e2, -⟩ := recip_arith_table_entry (top_bits range) t1 t2
  constructor
  · intro h32
    have hb := bit_length32 range h32
    rw [recip_arith_r_top_eq range h32]
    refine ⟨?_, t1, by omega, e1, by omega, ?_⟩
    · unfold put_shift_top
      simp only [RECIP_ARITH_TABLE_BITS]
      omega
    · intro table code p c hs
      have := decoder_peek_raw table ⟨code, range, p⟩ c (show 0 < range by omega) hs
      rw [recip_arith_r_top_eq range h32] at this
      exact this
  · intro h64
    have hb := bit_length64 range h64
    rw [recip_arith64_r_top_eq range h64]
    refine ⟨by omega, t1, by omega, e1, by omega, ?_⟩
    intro table code p c hs
    have := decoder64_peek_raw table ⟨code, range, p⟩ c (show 0 < range by omega) hs
    rw [recip_arith64_r_top_eq range h64] at this
    exact this

set_option maxRecDepth 100000 in
/-- Witness for C16 at `range = 33423360` (bit length 25): `r_top = 255`. -/
theorem C16_r_top_in_populated_half_witness :
    (128 ≤ 33423360 ∧ 33423360 < 2 ^ 32 ∧ recip_arith_r_top 33423360 = 255) ∧
    (0 ≤ put_shift_top 33423360 ∧
      128 ≤ recip_arith_r_top 33423360 ∧ recip_arith_r_top 33423360 ≤ 255 ∧
      recip_arith_table.getD (recip_arith_r_top 33423360) 0
        = (2 ^ 32 + recip_arith_r_top 33423360 - 1) / recip_arith_r_top 33423360 ∧
      0 < recip_arith_table.getD (recip_arith_r_top 33423360) 0 ∧
      ∀ (table : List Nat) (code p c : Nat), c + 8 ≤ 32 - clz32 33423360 →
        recip_arith_decoder_peek table ⟨code, 33423360, p⟩ c =
          some (((((code >>> (32 - clz32 33423360 - 8 - c)) *
              table.getD (recip_arith_r_top 33423360) 0) % 2 ^ 64) >>> 32) % 2 ^ 32,
            ⟨code, recip_arith_r_norm 33423360 c, p⟩)) :=
  ⟨⟨by decide, by decide, by decide⟩,
    (C16_r_top_in_populated_half 33423360 (by decide)).1 (by decide)⟩

/-- C17: for every encoder state with 32-bit fields and `range ≠ 0` there is `n ≤ 3` such
that the loop of `recip_arith_encoder_renorm` exits after exactly `n` iterations (it returns
with any bound of at least `n` iterations and has not exited with a smaller one), and
`recip_arith_encoder_renorm` returns the state in which the top `n` bytes of `low` have been
stored in order, `low` is `(low * 256 ^ n) mod 2 ^ 32` and `range` is `range * 256 ^ n` with
`2 ^ 24 ≤ range * 256 ^ n < 2 ^ 32`; `n = 0` when `range ≥ 2 ^ 24`. Consequently every state
of a run (after `start` and after each `put` and `renorm`) has `range ≥ 2 ^ 24`, so `range`
is not `0` where `put` applies `clz32`, and each defined `put` of a valid interval in a run
leaves a nonzero 32-bit `range` for the following `renorm`. -/
theorem C17_encoder_renorm (low range : Nat) (written : List Nat) (hl : low < 2 ^ 32)
    (h0 : range ≠ 0) (h32 : range < 2 ^ 32) :
    (∃ n, n ≤ 3 ∧
      (∀ fuel, n ≤ fuel → recip_arith_encoder_renorm_loop fuel ⟨low, range, written⟩ =
        some ⟨(low * 256 ^ n) % 2 ^ 32, range * 256 ^ n,
          (([24, 16, 8].map (fun s => (low >>> s) % 256)).take n).reverse ++ written⟩) ∧
      (∀ fuel, fuel < n → recip_arith_encoder_renorm_loop fuel ⟨low, range, written⟩ = none) ∧
      recip_arith_encoder_renorm ⟨low, range, written⟩ =
        some ⟨(low * 256 ^ n) % 2 ^ 32, range * 256 ^ n,
          (([24, 16, 8].map (fun s => (low >>> s) % 256)).take n).reverse ++ written⟩ ∧
      2 ^ 24 ≤ range * 256 ^ n ∧ range * 256 ^ n < 2 ^ 32 ∧ (2 ^ 24 ≤ range → n = 0)) ∧
    (∀ ac, Reachable ac → ac.range ≠ 0 ∧ 2 ^ 24 ≤ ac.range ∧ ac.range < 2 ^ 32) ∧
    (∀ ac ac1 cdf_low cdf_freq cdf_bits, Reachable ac → 0 < cdf_freq → cdf_bits < 32 →
      cdf_low + cdf_freq ≤ 2 ^ cdf_bits →
      recip_arith_encoder_put ac cdf_low cdf_freq cdf_bits = some ac1 →
      ac1.low < 2 ^ 32 ∧ ac1.range ≠ 0 ∧ ac1.range < 2 ^ 32) := by
  refine ⟨?_, ?_, ?_⟩
  · obtain ⟨n, n1, n2, n3, n4, n5, n6⟩ := encoder_renorm_closed low range written hl h0 h32
    exact ⟨n, n1, n2, n3, n2 4 (by omega), n4, n5, n6⟩
  · intro ac h
    obtain ⟨hinv, h24⟩ := reachable_inv ac h
    exact ⟨by omega, h24, hinv.2.1⟩
  · intro ac ac1 lo fr c h hfr hc hle hput
    exact reachable_put_range ac ac1 lo fr c h hfr hc hle hput

set_option maxRecDepth 100000 in
/-- Witness for C17 at `low = 0x12345678`, `range = 0x1234` with one byte stored: two
iterations store `0x12` and then `0x34`. -/
theorem C17_encoder_renorm_witness :
    recip_arith_encoder_renorm ⟨305419896, 4660, [7]⟩ = some ⟨1450704896, 305397760, [52, 18, 7]⟩ ∧
    recip_arith_encoder_renorm_loop 1 ⟨305419896, 4660, [7]⟩ = none ∧
    ((∃ n, n ≤ 3 ∧
      (∀ fuel, n ≤ fuel → recip_arith_encoder_renorm_loop fuel ⟨305419896, 4660, [7]⟩ =
        some ⟨(305419896 * 256 ^ n) % 2 ^ 32, 4660 * 256 ^ n,
          (([24, 16, 8].map (fun s => (305419896 >>> s) % 256)).take n).reverse ++ [7]⟩) ∧
      (∀ fuel, fuel < n → recip_arith_encoder_renorm_loop fuel ⟨305419896, 4660, [7]⟩ = none) ∧
      recip_arith_encoder_renorm ⟨305419896, 4660, [7]⟩ =
        some ⟨(305419896 * 256 ^ n) % 2 ^ 32, 4660 * 256 ^ n,
          (([24, 16, 8].map (fun s => (305419896 >>> s) % 256)).take n).reverse ++ [7]⟩ ∧
      2 ^ 24 ≤ 4660 * 256 ^ n ∧ 4660 * 256 ^ n < 2 ^ 32 ∧ (2 ^ 24 ≤ 4660 → n = 0))) :=
  ⟨by decide, by decide,
    (C17_encoder_renorm 305419896 4660 [7] (by decide) (by decide) (by decide)).1⟩

/-- C18: when the `n` stored bytes (each below 256), read as a big-endian number `N`,
satisfy `N < 256 ^ n - 1` (which needs `n ≥ 1`), `recip_arith_encoder_carry` returns a state with the same `low`
and `range` and the same number of stored bytes, whose bytes are the `n`-byte big-endian
form of `N + 1`; the bytes stored last that formed the run of `0xFF` have become `0x00`, the
byte stored before the run is increased by one, and the other bytes are unchanged. -/
theorem C18_carry_adds_one (ac : recip_arith_encoder) (hb : ∀ b ∈ ac.written, b < 256)
    (hN : be_value ac.written < 256 ^ ac.written.length - 1) :
    ∃ w k b rest, recip_arith_encoder_carry ac = some ⟨ac.low, ac.range, w⟩ ∧
      1 ≤ ac.written.length ∧ w.length = ac.written.length ∧ (∀ x ∈ w, x < 256) ∧
      be_value w = be_value ac.written + 1 ∧
      ac.written = List.replicate k 255 ++ b :: rest ∧ b ≠ 255 ∧
      w = List.replicate k 0 ++ (b + 1) :: rest := by
  have hv : be_value ac.written + 1 < 256 ^ ac.written.length := by omega
  obtain ⟨w, c1, c2, c3, c4⟩ := carry_bytes_spec ac.written hb hv
  obtain ⟨k, b, rest, s1, s2, s3⟩ :=
    carry_bytes_shape ac.written hb (exists_non_ff ac.written hb hv)
  have hw : w = List.replicate k 0 ++ (b + 1) :: rest := by
    rw [c1] at s3
    exact Option.some.inj s3
  have hn : 1 ≤ ac.written.length := by
    rw [s1, List.length_append, List.length_cons]
    omega
  refine ⟨w, k, b, rest, ?_, hn, c3, c4, c2, s1, s2, hw⟩
  unfold recip_arith_encoder_carry
  rw [c1]
  rfl

/-- Witness for C18: the stored bytes `12 34 FF FF` become `12 35 00 00`. -/
theorem C18_carry_adds_one_witness :
    recip_arith_encoder_carry ⟨5, 9, [255, 255, 52, 18]⟩ = some ⟨5, 9, [0, 0, 53, 18]⟩ ∧
    ∃ w k b rest, recip_arith_encoder_carry ⟨5, 9, [255, 255, 52, 18]⟩ = some ⟨5, 9, w⟩ ∧
      1 ≤ [255, 255, 52, 18].length ∧ w.length = [255, 255, 52, 18].length ∧ (∀ x ∈ w, x < 256) ∧
      be_value w = be_value [255, 255, 52, 18] + 1 ∧
      [255, 255, 52, 18] = List.replicate k 255 ++ b :: rest ∧ b ≠ 255 ∧
      w = List.replicate k 0 ++ (b + 1) :: rest :=
  ⟨by decide,
    C18_carry_adds_one ⟨5, 9, [255, 255, 52, 18]⟩ (by decide) (by decide)⟩

/-- C19: for every table index `i` with `128 ≤ i < 256` and every `n < 2 ^ 24`, the product
`n * recip_arith_table[i]` is below `2 ^ 64`, its value shifted right by 32 bits is
`n / i`, and so is the target expression of `peek`, which reduces the product modulo `2 ^ 64`
and the shifted value modulo `2 ^ 32`. -/
theorem C19_reciprocal_multiply_exact (n i : Nat) (hi1 : 128 ≤ i) (hi2 : i < 256)
    (hn : n < 2 ^ 24) :
    n * recip_arith_table.getD i 0 < 2 ^ 64 ∧
    (n * recip_arith_table.getD i 0) >>> 32 = n / i ∧
    (((n * recip_arith_table.getD i 0) % 2 ^ 64) >>> RECIP_ARITH_NUMERATOR_BITS) % 2 ^ 32
      = n / i := by
  obtain ⟨e1, -, e3⟩ := recip_arith_table_entry i hi1 hi2
  have hx := recip_mul_exact n i hi1 hi2 hn
  rw [e1]
  have hp : n * ((2 ^ 32 + i - 1) / i) < 2 ^ 64 := by
    calc n * ((2 ^ 32 + i - 1) / i) < 2 ^ 24 * 2 ^ 32 :=
          Nat.mul_lt_mul'' hn e3
      _ ≤ 2 ^ 64 := by norm_num
  have hq : n / i < 2 ^ 32 := lt_of_le_of_lt (Nat.div_le_self n i) (by omega)
  refine ⟨hp, ?_, ?_⟩
  · rw [Nat.shiftRight_eq_div_pow]; exact hx
  · simp only [RECIP_ARITH_NUMERATOR_BITS]
    rw [Nat.mod_eq_of_lt hp, Nat.shiftRight_eq_div_pow, hx, Nat.mod_eq_of_lt hq]

set_option maxRecDepth 100000 in
/-- Witness for C19 at the largest numerator `n = 2 ^ 24 - 1` and the index `i = 255`. -/
theorem C19_reciprocal_multiply_exact_witness :
    (16777215 * recip_arith_table.getD 255 0 < 2 ^ 64 ∧
    (16777215 * recip_arith_table.getD 255 0) >>> 32 = 16777215 / 255 ∧
    (((16777215 * recip_arith_table.getD 255 0) % 2 ^ 64) >>> RECIP_ARITH_NUMERATOR_BITS)
      % 2 ^ 32 = 16777215 / 255) ∧ recip_arith_table.getD 255 0 = 16843010 :=
  ⟨C19_reciprocal_multiply_exact 16777215 255 (by decide) (by decide) (by decide), by decide⟩

/-- C20: for every 32-bit `range` whose bit length `32 - clz32 range` is at least
`cdf_bits + RECIP_ARITH_TABLE_BITS`, the `r_norm` of the reciprocal `put` is at most
`range >> cdf_bits`, the `r_norm` of the reference `put`, and
`2 ^ (RECIP_ARITH_TABLE_BITS - 1) * (range - r_norm * 2 ^ cdf_bits) < range`; the two values
are the ranges that the two `put` functions leave when coding the interval `[0, 1)`. -/
theorem C20_coding_loss_bound (range c : Nat) (h32 : range < 2 ^ 32)
    (hs : c + RECIP_ARITH_TABLE_BITS ≤ 32 - clz32 range) :
    recip_arith_r_norm range c ≤ range >>> c ∧
    2 ^ (RECIP_ARITH_TABLE_BITS - 1) * (range - recip_arith_r_norm range c * 2 ^ c) < range ∧
    ∀ (low : Nat) (written : List Nat), low < 2 ^ 32 →
      recip_arith_encoder_put ⟨low, range, written⟩ 0 1 c
        = some ⟨low, recip_arith_r_norm range c, written⟩ ∧
      recip_arith_encoder_put_rangecoder ⟨low, range, written⟩ 0 1 c
        = some ⟨low, range >>> c, written⟩ := by
  simp only [RECIP_ARITH_TABLE_BITS] at hs ⊢
  have hb := bit_length32 range h32
  have hs' : c + 8 ≤ Nat.size range := by omega
  have h0 : 0 < range := by
    rcases Nat.eq_zero_or_pos range with h | h
    · rw [h] at hs'; simp at hs'
    · exact h
  have hr := recip_arith_r_norm_eq range c h0 h32 hs'
  obtain ⟨l1, l2⟩ := recip_r_norm_loss range c hs'
  have hd : range >>> c = range / 2 ^ c := Nat.shiftRight_eq_div_pow range c
  have hd32 : range / 2 ^ c < 2 ^ 32 := lt_of_le_of_lt (Nat.div_le_self _ _) h32
  rw [hr, hd]
  refine ⟨l1, by norm_num; exact l2, ?_⟩
  intro low written hl
  constructor
  · rw [encoder_put_raw ⟨low, range, written⟩ 0 1 c h0 hs, hr]
    exact put_core_unit low range written _ hl (by omega)
  · rw [encoder_put_rangecoder_eq ⟨low, range, written⟩ 0 1 c (by omega)]
    exact put_core_unit low range written _ hl hd32

set_option maxRecDepth 100000 in
/-- Witness for C20 at `range = 2 ^ 32 - 1` and `cdf_bits = 13`: the reciprocal `r_norm` is
`522240` and the reference `r_norm` is `524287`. -/
theorem C20_coding_loss_bound_witness :
    (recip_arith_r_norm 4294967295 13 = 522240 ∧ (4294967295 : Nat) >>> 13 = 524287) ∧
    (recip_arith_r_norm 4294967295 13 ≤ 4294967295 >>> 13 ∧
    2 ^ (RECIP_ARITH_TABLE_BITS - 1) * (4294967295 - recip_arith_r_norm 4294967295 13 * 2 ^ 13)
      < 4294967295 ∧
    ∀ (low : Nat) (written : List Nat), low < 2 ^ 32 →
      recip_arith_encoder_put ⟨low, 4294967295, written⟩ 0 1 13
        = some ⟨low, recip_arith_r_norm 4294967295 13, written⟩ ∧
      recip_arith_encoder_put_rangecoder ⟨low, 4294967295, written⟩ 0 1 13
        = some ⟨low, 4294967295 >>> 13, written⟩) :=
  ⟨⟨by decide, by decide⟩, C20_coding_loss_bound 4294967295 13 (by decide) (by decide)⟩

/-- C21: for every encoder state with `2 ^ 24 ≤ range < 2 ^ 32`, every `cdf_bits ≤ 16` and
every CDF interval with `cdf_freq > 0` and `cdf_low + cdf_freq ≤ 2 ^ cdf_bits`, both for the
`r_norm` of `recip_arith_encoder_put` and for the `r_norm = range >> cdf_bits` of
`recip_arith_encoder_put_rangecoder`: the products `cdf_low * r_norm` and
`cdf_freq * r_norm` are below `2 ^ 32`, `cdf_freq * r_norm > 0`, and
`cdf_low * r_norm + cdf_freq * r_norm ≤ range`; every state the `put` returns has
`range = cdf_freq * r_norm` and `low = (low + cdf_low * r_norm) mod 2 ^ 32`; and in a state
that satisfies the encoder invariant the `put` returns a state whose interval, read with
the stored bytes, lies inside the old one. -/
theorem C21_interval_nesting (ac : recip_arith_encoder) (lo fr c : Nat) (hc : c ≤ 16)
    (h24 : 2 ^ 24 ≤ ac.range) (h32 : ac.range < 2 ^ 32) (hfr : 0 < fr)
    (hle : lo + fr ≤ 2 ^ c) :
    (lo * recip_arith_r_norm ac.range c < 2 ^ 32 ∧ fr * recip_arith_r_norm ac.range c < 2 ^ 32 ∧
      0 < fr * recip_arith_r_norm ac.range c ∧
      lo * recip_arith_r_norm ac.range c + fr * recip_arith_r_norm ac.range c ≤ ac.range ∧
      (∀ ac1, recip_arith_encoder_put ac lo fr c = some ac1 →
        ac1.range = fr * recip_arith_r_norm ac.range c ∧
        ac1.low = (ac.low + lo * recip_arith_r_norm ac.range c) % 2 ^ 32) ∧
      (EncInv ac → ∃ ac1, recip_arith_encoder_put ac lo fr c = some ac1 ∧
        abs_low ac1 = abs_low ac + lo * recip_arith_r_norm ac.range c ∧
        abs_low ac ≤ abs_low ac1 ∧ abs_low ac1 + ac1.range ≤ abs_low ac + ac.range)) ∧
    (lo * (ac.range >>> c) < 2 ^ 32 ∧ fr * (ac.range >>> c) < 2 ^ 32 ∧
      0 < fr * (ac.range >>> c) ∧
      lo * (ac.range >>> c) + fr * (ac.range >>> c) ≤ ac.range ∧
      (∀ ac1, recip_arith_encoder_put_rangecoder ac lo fr c = some ac1 →
        ac1.range = fr * (ac.range >>> c) ∧
        ac1.low = (ac.low + lo * (ac.range >>> c)) % 2 ^ 32) ∧
      (EncInv ac → ∃ ac1, recip_arith_encoder_put_rangecoder ac lo fr c = some ac1 ∧
        abs_low ac1 = abs_low ac + lo * (ac.range >>> c) ∧
        abs_low ac ≤ abs_low ac1 ∧ abs_low ac1 + ac1.range ≤ abs_low ac + ac.range)) := by
  constructor
  · obtain ⟨-, hs, -, r1, r2⟩ := recip_arith_r_norm_ok ac.range c hc h24 h32
    obtain ⟨n1, n2, n3, n4⟩ :=
      nesting_arith ac.range (recip_arith_r_norm ac.range c) lo fr c r1 r2 h32 hfr hle
    have hput := encoder_put_raw ac lo fr c (by omega) hs
    refine ⟨n1, n2, n3, n4, ?_, ?_⟩
    · intro ac1 h1
      rw [hput] at h1
      obtain ⟨q1, q2⟩ := put_core_result ac ac1 lo fr _ h1
      rw [Nat.mod_eq_of_lt n2] at q2
      rw [Nat.mod_eq_of_lt n1] at q1
      exact ⟨q2, q1⟩
    · intro hinv
      obtain ⟨ac1, p1, -, -, p4, p5, p6, -⟩ := put_core_nested ac lo fr _ c hinv r1 r2 hfr hle
      exact ⟨ac1, by rw [hput]; exact p1, p4, p5, p6⟩
  · have hd : ac.range >>> c = ac.range / 2 ^ c := Nat.shiftRight_eq_div_pow _ _
    have hpc : 2 ^ c ≤ 2 ^ 24 := Nat.pow_le_pow_right (by norm_num) (by omega)
    have r1 : 0 < ac.range / 2 ^ c := Nat.div_pos (by omega) (Nat.pow_pos (by norm_num))
    have r2 : ac.range / 2 ^ c * 2 ^ c ≤ ac.range := Nat.div_mul_le_self _ _
    rw [hd]
    obtain ⟨n1, n2, n3, n4⟩ := nesting_arith ac.range (ac.range / 2 ^ c) lo fr c r1 r2 h32 hfr hle
    have hput := encoder_put_rangecoder_eq ac lo fr c (by omega)
    refine ⟨n1, n2, n3, n4, ?_, ?_⟩
    · intro ac1 h1
      rw [hput] at h1
      obtain ⟨q1, q2⟩ := put_core_result ac ac1 lo fr _ h1
      rw [Nat.mod_eq_of_lt n2] at q2
      rw [Nat.mod_eq_of_lt n1] at q1
      exact ⟨q2, q1⟩
    · intro hinv
      obtain ⟨ac1, p1, -, -, p4, p5, p6, -⟩ := put_core_nested ac lo fr _ c hinv r1 r2 hfr hle
      exact ⟨ac1, by rw [hput]; exact p1, p4, p5, p6⟩

set_option maxRecDepth 100000 in
/-- Witness for C21 at `cdf_bits = 16`, the state `low = 0xFFFF0000`, `range = 2 ^ 24` with
the stored byte `0x12`, and the interval `[65535, 65536)`: the reciprocal `put` wraps `low`
and carries into the stored byte. -/
theorem C21_interval_nesting_witness :
    recip_arith_encoder_put ⟨4294901760, 16777216, [18]⟩ 65535 1 16
      = some ⟨16711424, 256, [19]⟩ ∧
    recip_arith_r_norm 16777216 16 = 256 ∧
    (65535 * recip_arith_r_norm 16777216 16 < 2 ^ 32 ∧
      1 * recip_arith_r_norm 16777216 16 < 2 ^ 32 ∧
      0 < 1 * recip_arith_r_norm 16777216 16 ∧
      65535 * recip_arith_r_norm 16777216 16 + 1 * recip_arith_r_norm 16777216 16
        ≤ (⟨4294901760, 16777216, [18]⟩ : recip_arith_encoder).range ∧
      (∀ ac1, recip_arith_encoder_put ⟨4294901760, 16777216, [18]⟩ 65535 1 16 = some ac1 →
        ac1.range = 1 * recip_arith_r_norm 16777216 16 ∧
        ac1.low = (4294901760 + 65535 * recip_arith_r_norm 16777216 16) % 2 ^ 32) ∧
      (EncInv ⟨4294901760, 16777216, [18]⟩ →
        ∃ ac1, recip_arith_encoder_put ⟨4294901760, 16777216, [18]⟩ 65535 1 16 = some ac1 ∧
        abs_low ac1 = abs_low ⟨4294901760, 16777216, [18]⟩
          + 65535 * recip_arith_r_norm 16777216 16 ∧
        abs_low ⟨4294901760, 16777216, [18]⟩ ≤ abs_low ac1 ∧
        abs_low ac1 + ac1.range ≤ abs_low ⟨4294901760, 16777216, [18]⟩ + 16777216)) :=
  ⟨by decide, by decide,
    (C21_interval_nesting ⟨4294901760, 16777216, [18]⟩ 65535 1 16 (by decide) (by decide)
      (by decide) (by decide) (by decide)).1⟩

/-- C22: with the initialised table, for every `cdf_bits ≤ 16`, every decoder state with
`2 ^ 24 ≤ range < 2 ^ 32` and every CDF interval with `cdf_freq > 0` and
`cdf_low + cdf_freq ≤ 2 ^ cdf_bits`, where `r_norm` is the value `put` computes from `range`:
if `cdf_low * r_norm ≤ code < (cdf_low + cdf_freq) * r_norm`, then `peek` returns a target
`t` with `cdf_low ≤ t < cdf_low + cdf_freq`, and `remove (cdf_low, cdf_freq)` leaves
`code - cdf_low * r_norm` (no underflow), `range = cdf_freq * r_norm`, the cursor unchanged,
and `code < range`; every state that the encoder's `put` returns from the same `range` has
that `range`, and `put` returns in every state that satisfies the encoder invariant. -/
theorem C22_decode_step_inverts_encode_step (d : recip_arith_decoder) (lo fr c : Nat)
    (hc : c ≤ 16) (h24 : 2 ^ 24 ≤ d.range) (h32 : d.range < 2 ^ 32) (hfr : 0 < fr)
    (hle : lo + fr ≤ 2 ^ c) (h1 : lo * recip_arith_r_norm d.range c ≤ d.code)
    (h2 : d.code < (lo + fr) * recip_arith_r_norm d.range c) :
    ∃ t d1, recip_arith_decoder_peek recip_arith_table d c = some (t, d1) ∧
      lo ≤ t ∧ t < lo + fr ∧
      recip_arith_decoder_remove d1 lo fr
        = ⟨d.code - lo * recip_arith_r_norm d.range c, fr * recip_arith_r_norm d.range c,
            d.ptr⟩ ∧
      (recip_arith_decoder_remove d1 lo fr).code < (recip_arith_decoder_remove d1 lo fr).range ∧
      ∀ ac : recip_arith_encoder, ac.range = d.range →
        (∀ ac1, recip_arith_encoder_put ac lo fr c = some ac1 →
          ac1.range = (recip_arith_decoder_remove d1 lo fr).range) ∧
        (EncInv ac → ∃ ac1, recip_arith_encoder_put ac lo fr c = some ac1) := by
  obtain ⟨hs, hs', he, r1, r2⟩ := recip_arith_r_norm_ok d.range c hc h24 h32
  obtain ⟨n1, n2, n3, n4⟩ :=
    nesting_arith d.range (recip_arith_r_norm d.range c) lo fr c r1 r2 h32 hfr hle
  have e : (lo + fr) * recip_arith_r_norm d.range c
      = lo * recip_arith_r_norm d.range c + fr * recip_arith_r_norm d.range c := by ring
  have hcode : d.code < d.range := by omega
  have hpk := decoder_peek_eq d c h32 hs hc hcode
  rw [← he] at hpk
  have hrem : recip_arith_decoder_remove { d with range := recip_arith_r_norm d.range c } lo fr
      = ⟨d.code - lo * recip_arith_r_norm d.range c, fr * recip_arith_r_norm d.range c,
          d.ptr⟩ := by
    simp only [recip_arith_decoder_remove, Nat.mod_eq_of_lt n1, Nat.mod_eq_of_lt n2]
    congr 1
    omega
  refine ⟨_, _, hpk, (Nat.le_div_iff_mul_le r1).mpr h1, (Nat.div_lt_iff_lt_mul r1).mpr h2,
    hrem, ?_, ?_⟩
  · rw [hrem]
    simp only []
    omega
  · intro ac hac
    rw [hrem]
    have hput := encoder_put_raw ac lo fr c (by omega) (by rw [hac]; exact hs')
    rw [hac] at hput
    constructor
    · intro ac1 hp
      rw [hput] at hp
      obtain ⟨-, q2⟩ := put_core_result ac ac1 lo fr _ hp
      rw [Nat.mod_eq_of_lt n2] at q2
      exact q2
    · intro hinv
      obtain ⟨ac1, p1, -⟩ := put_core_nested ac lo fr (recip_arith_r_norm d.range c) c hinv r1
        (by rw [hac]; exact r2) hfr hle
      exact ⟨ac1, by rw [hput]; exact p1⟩

set_option maxRecDepth 100000 in
/-- Witness for C22 at `cdf_bits = 13`, `range = 2 ^ 32 - 1` (`r_norm = 522240`) and the
interval `[100, 150)`, with `code = 100 * 522240 + 7`. -/
theorem C22_decode_step_inverts_encode_step_witness :
    recip_arith_decoder_peek recip_arith_table ⟨52224007, 4294967295, 4⟩ 13
      = some (100, ⟨52224007, 522240, 4⟩) ∧
    recip_arith_decoder_remove ⟨52224007, 522240, 4⟩ 100 50 = ⟨7, 26112000, 4⟩ ∧
    recip_arith_encoder_put recip_arith_encoder_start 100 50 13 = some ⟨52224000, 26112000, []⟩ ∧
    ∃ t d1, recip_arith_decoder_peek recip_arith_table ⟨52224007, 4294967295, 4⟩ 13
        = some (t, d1) ∧
      100 ≤ t ∧ t < 100 + 50 ∧
      recip_arith_decoder_remove d1 100 50
        = ⟨52224007 - 100 * recip_arith_r_norm 4294967295 13,
            50 * recip_arith_r_norm 4294967295 13, 4⟩ ∧
      (recip_arith_decoder_remove d1 100 50).code < (recip_arith_decoder_remove d1 100 50).range ∧
      ∀ ac : recip_arith_encoder, ac.range = 4294967295 →
        (∀ ac1, recip_arith_encoder_put ac 100 50 13 = some ac1 →
          ac1.range = (recip_arith_decoder_remove d1 100 50).range) ∧
        (EncInv ac → ∃ ac1, recip_arith_encoder_put ac 100 50 13 = some ac1) :=
  ⟨by decide, by decide, by decide,
    C22_decode_step_inverts_encode_step ⟨52224007, 4294967295, 4⟩ 100 50 13 (by decide)
      (by decide) (by decide) (by decide) (by decide) (by decide) (by decide)⟩

/-- C23: let a 32-bit decoder state with cursor `p` and a 64-bit decoder state with cursor
`p + 4` over the same memory be related by `range64 = range32 * 2 ^ 32` and
`code64 = code32 * 2 ^ 32 + ` the big-endian value of the four bytes at `p`, with
`range32 < 2 ^ 32`. The two `start` functions produce related states at every start
position. For every table and every `cdf_bits` with
`cdf_bits + RECIP_ARITH_TABLE_BITS ≤ 32 - clz32 range32` (no negative shift count in the
32-bit `peek`), the two `peek` functions return, with the same target, and leave related
states. `remove` with the same `(cdf_low, cdf_freq)` leaves related states. Whenever the
32-bit `renorm` returns, so does the 64-bit `renorm`, and the states are related; the 32-bit
`renorm` returns whenever `range32 ≠ 0`. -/
theorem C23_decoder64_simulates_decoder32 (buf : Nat → Nat) (d32 : recip_arith_decoder)
    (d64 : recip_arith64_decoder) (h32 : d32.range < 2 ^ 32) (hsim : Sim64 buf d32 d64) :
    (∀ p, Sim64 buf (recip_arith_decoder_start buf p) (recip_arith64_decoder_start buf p)) ∧
    (∀ (table : List Nat) (c : Nat), c + RECIP_ARITH_TABLE_BITS ≤ 32 - clz32 d32.range →
      ∃ t a32 a64, recip_arith_decoder_peek table d32 c = some (t, a32) ∧
        recip_arith64_decoder_peek table d64 c = some (t, a64) ∧ Sim64 buf a32 a64) ∧
    (∀ lo fr, Sim64 buf (recip_arith_decoder_remove d32 lo fr)
      (recip_arith64_decoder_remove d64 lo fr)) ∧
    (∀ a32, recip_arith_decoder_renorm buf d32 = some a32 →
      ∃ a64, recip_arith64_decoder_renorm buf d64 = some a64 ∧ Sim64 buf a32 a64) ∧
    (d32.range ≠ 0 → ∃ a32 a64, recip_arith_decoder_renorm buf d32 = some a32 ∧
      recip_arith64_decoder_renorm buf d64 = some a64 ∧ Sim64 buf a32 a64) := by
  refine ⟨fun p => sim64_start buf p, ?_, fun lo fr => sim64_remove buf d32 d64 lo fr hsim,
    fun a32 hr => sim64_renorm buf d32 a32 d64 hsim hr, ?_⟩
  · intro table c hs
    exact sim64_peek table buf d32 d64 c h32 hsim hs
  · intro h0
    obtain ⟨a32, hr⟩ := decoder_renorm_defined buf d32.code d32.range d32.ptr h0 h32
    obtain ⟨a64, q1, q2⟩ := sim64_renorm buf d32 a32 d64 hsim hr
    exact ⟨a32, a64, hr, q1, q2⟩

set_option maxRecDepth 100000 in
/-- Witness for C23 on the memory whose byte at index `i` is `i + 200`, after `start`, `peek`
with `cdf_bits = 13` and `remove (6400, 100)`: the states `code = 0x0191CACB`,
`range = 52224000` with cursor 4 and `code = 0x0191CACBCCCDCECF`, `range = 52224000 << 32`
with cursor 8. -/
theorem C23_decoder64_simulates_decoder32_witness :
    recip_arith_decoder_remove
      (⟨(recip_arith_decoder_start (fun i => i + 200) 0).code, 522240, 4⟩) 6400 100
        = ⟨26331851, 52224000, 4⟩ ∧
    (∃ t a32 a64, recip_arith_decoder_peek recip_arith_table ⟨26331851, 52224000, 4⟩ 13
        = some (t, a32) ∧
      recip_arith64_decoder_peek recip_arith_table
        ⟨26331851 * 2 ^ 32 + 3436039887, 52224000 * 2 ^ 32, 8⟩ 13 = some (t, a64) ∧
      Sim64 (fun i => i + 200) a32 a64) ∧
    (∃ a32 a64, recip_arith_decoder_renorm (fun i => i + 200) ⟨26331851, 52224000, 4⟩
        = some a32 ∧
      recip_arith64_decoder_renorm (fun i => i + 200)
        ⟨26331851 * 2 ^ 32 + 3436039887, 52224000 * 2 ^ 32, 8⟩ = some a64 ∧
      Sim64 (fun i => i + 200) a32 a64) :=
  ⟨by decide,
    (C23_decoder64_simulates_decoder32 (fun i => i + 200) ⟨26331851, 52224000, 4⟩
      ⟨26331851 * 2 ^ 32 + 3436039887, 52224000 * 2 ^ 32, 8⟩ (by decide)
      (by unfold Sim64; decide)).2.1 recip_arith_table 13 (by decide),
    (C23_decoder64_simulates_decoder32 (fun i => i + 200) ⟨26331851, 52224000, 4⟩
      ⟨26331851 * 2 ^ 32 + 3436039887, 52224000 * 2 ^ 32, 8⟩ (by decide)
      (by unfold Sim64; decide)).2.2.2.2 (by decide)⟩

/-- C24: for `cdf_bits ≤ 16`, every table of frequencies that sum to `2 ^ cdf_bits` and every
sequence of symbols of frequency at least 1, the encoder block returns an output `out`
(the bytes stored by `renorm`, then the one or two bytes of `finish`), and on any memory that
starts with `out`, for every `i` up to the number of symbols: the encoder after the first
`i` symbols (`put` and `renorm` each) and the reciprocal decoder after `i` symbols (`peek`,
lookup, `remove`, `renorm` each) have the same `range`, the decoder has decoded the first
`i` symbols, and its cursor is 4 plus the number of bytes the encoder has stored so far;
after the last symbol the cursor is 4 plus the length of `out` minus the number of bytes
written by `finish`. -/
theorem C24_lock_step (hist syms : List Nat) (c : Nat) (hc : c ≤ 16)
    (hsum : hist.sum = 2 ^ c) (hsyms : ∀ s ∈ syms, s < hist.length ∧ 1 ≤ hist.getD s 0) :
    ∃ out acN fin, encode_with recip_arith_encoder_put hist c syms = some out ∧
      encode_symbols recip_arith_encoder_put hist c recip_arith_encoder_start syms = some acN ∧
      recip_arith_encoder_finish acN = some fin ∧ out = fin.written.reverse ∧
      ∀ buf, StartsWith buf out →
        (∀ i, i ≤ syms.length →
          ∃ ac d, encode_symbols recip_arith_encoder_put hist c recip_arith_encoder_start
              (syms.take i) = some ac ∧
            decode_with (recip_arith_decoder_peek recip_arith_table) recip_arith_decoder_remove
              (cdf_lookup hist) buf hist c i = some (syms.take i, d) ∧
            d.range = ac.range ∧ d.ptr = 4 + ac.written.length) ∧
        ∃ dN, decode_with (recip_arith_decoder_peek recip_arith_table)
            recip_arith_decoder_remove (cdf_lookup hist) buf hist c syms.length
              = some (syms, dN) ∧
          dN.range = acN.range ∧
          dN.ptr = 4 + (out.length - (fin.written.length - acN.written.length)) ∧
          (fin.written.length - acN.written.length = 1 ∨
            fin.written.length - acN.written.length = 2) := by
  have hv := valid_of_table hist c syms hsum hsyms
  obtain ⟨acN, fin, e1, e2, e3, e4, e5⟩ := recip_lockstep hist syms c (cdf_lookup hist) hc hv
    (fun s hs t h1 h2 => cdf_lookup_spec hist s t (hsyms s hs).1 h1 h2)
  refine ⟨fin.written.reverse, acN, fin, e3, e1, e2, rfl, ?_⟩
  intro buf hbuf
  constructor
  · intro i hi
    obtain ⟨ac, d, k1, -, k3, k4, k5⟩ := e5 buf hbuf i hi
    exact ⟨ac, d, k1, k3, k4, k5⟩
  · obtain ⟨ac, d, k1, -, k3, k4, k5⟩ := e5 buf hbuf syms.length (le_refl _)
    rw [List.take_length] at k1 k3
    rw [e1] at k1
    obtain rfl := Option.some.inj k1
    refine ⟨d, k3, k4, ?_, by omega⟩
    rw [List.length_reverse]
    omega

set_option maxRecDepth 100000 in
/-- Witness for C24: `cdf_bits = 13`, the uniform table over 256 symbols and the bytes
`[0, 255, 7]`; the encoder stores one byte per symbol. -/
theorem C24_lock_step_witness :
    (encode_symbols recip_arith_encoder_put (List.replicate 256 32) 13 recip_arith_encoder_start
      [0, 255]).map (fun ac => ac.written.length) = some 2 ∧
    ∃ out acN fin,
      encode_with recip_arith_encoder_put (List.replicate 256 32) 13 [0, 255, 7] = some out ∧
      encode_symbols recip_arith_encoder_put (List.replicate 256 32) 13 recip_arith_encoder_start
        [0, 255, 7] = some acN ∧
      recip_arith_encoder_finish acN = some fin ∧ out = fin.written.reverse ∧
      ∀ buf, StartsWith buf out →
        (∀ i, i ≤ [0, 255, 7].length →
          ∃ ac d, encode_symbols recip_arith_encoder_put (List.replicate 256 32) 13
              recip_arith_encoder_start ([0, 255, 7].take i) = some ac ∧
            decode_with (recip_arith_decoder_peek recip_arith_table) recip_arith_decoder_remove
              (cdf_lookup (List.replicate 256 32)) buf (List.replicate 256 32) 13 i
                = some ([0, 255, 7].take i, d) ∧
            d.range = ac.range ∧ d.ptr = 4 + ac.written.length) ∧
        ∃ dN, decode_with (recip_arith_decoder_peek recip_arith_table)
            recip_arith_decoder_remove (cdf_lookup (List.replicate 256 32)) buf
            (List.replicate 256 32) 13 [0, 255, 7].length = some ([0, 255, 7], dN) ∧
          dN.range = acN.range ∧
          dN.ptr = 4 + (out.length - (fin.written.length - acN.written.length)) ∧
          (fin.written.length - acN.written.length = 1 ∨
            fin.written.length - acN.written.length = 2) :=
  ⟨by decide,
    C24_lock_step (List.replicate 256 32) [0, 255, 7] 13 (by decide) (by decide) (by decide)⟩

end RecipArith
